import Mathlib

/-!
# Spin lock and concurrent unordered map of spinlock.hpp

A shallow embedding of `src/spinlock.hpp` run by a single thread.

* An atomic word is a natural number; an operation on it takes the stored word and
  returns the new stored word next to its C++ result.
* `compare_exchange_weak` may fail spuriously; the flag `spurious` says whether it does.
* A loop of the source that has no bound (`for(;;)`, `do ... while(!done)`) is a function
  with a step budget `fuel`; running out of budget is the result `Res.fuel_out`.
* `size_t` is a word of `bits` bits, `unsigned` a word of 32 bits.
-/

set_option linter.dupNamespace false

namespace boost.spinlock

/-! ## Definitions -/

/-- Result of a run with a step budget: a returned value, an exhausted budget, an
operation the C++ standard leaves undefined, or a call of `abort()`. -/
inductive Res (α : Type) where
  | ok (a : α)
  | fuel_out
  | undef
  | aborted
deriving DecidableEq, Repr

/-- The value `(size_t) -1` on a word of `bits` bits. -/
def SIZE_MAX (bits : Nat) : Nat := 2 ^ bits - 1

/-- Width of `unsigned`, the type of `bucket_type_impl::count`. -/
def UINT_BITS : Nat := 32

/-- Member `atomic<T>::compare_exchange_weak(expected, desired)` on a word holding `v`.
Returns (success, stored word afterwards, `expected` afterwards): on failure `expected`
receives the stored word. -/
def compare_exchange_weak (spurious : Bool) (v expected desired : Nat) : Bool × Nat × Nat :=
  if v = expected ∧ spurious = false then (true, desired, expected) else (false, v, v)

/-- Method `spinlockbase<T>::try_lock()` (lines 220-227) on a word holding `v`.
Returns (result, stored word afterwards). -/
def spinlockbase.try_lock (spurious : Bool) (v : Nat) : Bool × Nat :=
  if v ≠ 0 then (false, v)
  else
    let r := compare_exchange_weak spurious v 0 1
    (r.1, r.2.1)

/-- Method `spinlockbase<T>::try_lock(T &expected)` (lines 228-238) on a word holding `v`.
Returns (result, stored word afterwards, `expected` afterwards). -/
def spinlockbase.try_lock_expected (spurious : Bool) (v expected : Nat) : Bool × Nat × Nat :=
  let t := v
  if t ≠ 0 then (false, v, t)
  else compare_exchange_weak spurious v expected 1

/-- Method `spinlockbase<T>::unlock()` (lines 239-243): stores zero. -/
def spinlockbase.unlock (_v : Nat) : Nat := 0

/-- Method `spinlock::lock(T only_if_not_this)` (lines 410-422) on a word holding `v`,
starting at attempt `n`; `sp n` says whether the CAS of attempt `n` fails spuriously.
The call `int_yield(n)` only pauses, yields or sleeps and leaves the word alone.
Returns (result, stored word afterwards). -/
def spinlock.lock_only_if_not (sp : Nat → Bool) (only_if_not_this : Nat) :
    Nat → Nat → Nat → Res (Bool × Nat)
  | 0, _, _ => Res.fuel_out
  | fuel + 1, n, v =>
    let r := spinlockbase.try_lock_expected (sp n) v 0
    if r.1 = true then Res.ok (true, r.2.1)
    else if r.2.2 = only_if_not_this then Res.ok (false, r.2.1)
    else spinlock.lock_only_if_not sp only_if_not_this fuel (n + 1) r.2.1

/-- A thread calling `try_lock()` `n` times in a row on a word holding `v`, attempt `i`
(counted from the last one down) failing spuriously iff `sp i`. Returns the results of
the calls, first call first, and the stored word afterwards. -/
def spinlockbase.try_lock_n (sp : Nat → Bool) : Nat → Nat → List Bool × Nat
  | 0, v => ([], v)
  | n + 1, v =>
    let r := spinlockbase.try_lock (sp n) v
    let rest := spinlockbase.try_lock_n sp n r.2
    (r.1 :: rest.1, rest.2)

/-- A compare-exchange that never fails spuriously. The map operations below take the
bucket lock with this one: run by a single thread, a spurious failure inside `lock(2)`
only makes the loop of `lock` try again. -/
def no_spurious : Nat → Bool := fun _ => false

/-- Type `item_type` (lines 498-506): a key/value pair and its hash; the slot is in use
iff `hash` is not zero. -/
structure item_type (Key T : Type) where
  p : Key × T
  hash : Nat
deriving DecidableEq, Repr

/-- Type `bucket_type_impl` (lines 508-515). -/
structure bucket_type (Key T : Type) where
  lock : Nat
  count : Nat
  items : List (item_type Key T)
deriving DecidableEq, Repr

/-- The state of a `concurrent_unordered_map`: the rehash lock and the bucket vector. -/
structure concurrent_unordered_map (Key T : Type) where
  _rehash_lock : Nat
  _buckets : List (bucket_type Key T)
deriving DecidableEq, Repr

/-- The collaborators of a map: the width of `size_t`, the user hasher `Hash` and the
key equality `Pred`. -/
structure Params (Key : Type) where
  bits : Nat
  hasher : Key → Nat
  key_equal : Key → Key → Bool

/-- Class `iterator` (lines 548-595): `_itb` is the index of the bucket (the bucket count
stands for `_buckets.end()`), `_offset` the slot index, `_pending_incr` the number of
increments not yet carried out. -/
structure iterator where
  _itb : Nat
  _offset : Nat
  _pending_incr : Nat
deriving DecidableEq, Repr

variable {Key T : Type}

/-- Constructor `bucket_type_impl()` (line 513). -/
def bucket_type.new : bucket_type Key T := ⟨0, 0, []⟩

/-- Constructor `concurrent_unordered_map()` (line 599): 13 buckets. -/
def concurrent_unordered_map.new : concurrent_unordered_map Key T :=
  ⟨0, List.replicate 13 bucket_type.new⟩

/-- Constructor `concurrent_unordered_map(size_t n)` (line 600). -/
def concurrent_unordered_map.new_n (n : Nat) : concurrent_unordered_map Key T :=
  ⟨0, List.replicate (if n > 0 then n else 1) bucket_type.new⟩

namespace concurrent_unordered_map

/-- Functor `non_zero_hasher::operator()` (lines 487-495). -/
def non_zero_hasher (e : Params Key) (k : Key) : Nat :=
  let ret := e.hasher k % 2 ^ e.bits
  if ret = 0 then SIZE_MAX e.bits else ret

/-- Method `_get_bucket` (lines 529-535), as an index into `_buckets`. -/
def _get_bucket (m : concurrent_unordered_map Key T) (k : Nat) : Nat :=
  k % m._buckets.length

/-- Method `bucket_count` (line 885). -/
def bucket_count (m : concurrent_unordered_map Key T) : Nat := m._buckets.length

/-- Method `bucket` (lines 892-895). With an empty bucket vector the C++ expression divides
by zero; the index is meaningful for a non-empty vector only. -/
def bucket (e : Params Key) (m : concurrent_unordered_map Key T) (k : Key) : Nat :=
  non_zero_hasher e k % m._buckets.length

/-- Method `end()` (line 655): the iterator `iterator(this, nullptr)`. -/
def end_ (e : Params Key) (m : concurrent_unordered_map Key T) : iterator :=
  ⟨m._buckets.length, SIZE_MAX e.bits, 0⟩

/-- Writes bucket `b` back at index `i`. -/
def set_bucket (m : concurrent_unordered_map Key T) (i : Nat) (b : bucket_type Key T) :
    concurrent_unordered_map Key T :=
  { m with _buckets := m._buckets.set i b }

/-- The test both scans apply to a slot: the stored hash equals `h` and the key
predicate holds of `k` and the stored key. -/
def slot_matches (e : Params Key) (k : Key) (h : Nat) (it : item_type Key T) : Bool :=
  decide (it.hash = h) && e.key_equal k it.p.1

/-- The scan of `find` (lines 673-686) and of `erase(key)` (lines 828-849) over the slots
from `offset` on, the list being the slots at `offset` and above: the offset at which the
scan meets a slot with hash `h` and a key equal to `k`, or `none` when it reaches
`items.size()`. -/
def find_loop (e : Params Key) (k : Key) (h : Nat) : List (item_type Key T) → Nat → Option Nat
  | [], _ => none
  | it :: rest, offset =>
    if it.hash ≠ h then find_loop e k h rest (offset + 1)
    else if e.key_equal k it.p.1 = true then some offset
    else find_loop e k h rest (offset + 1)

/-- Method `find` (lines 658-693). Each round of the `do ... while(!done)` loop takes one
unit of `fuel`. The guarded block `BOOST_BEGIN_TRANSACT_LOCK_ONLY_IF_NOT(b.lock, 2)` is
the lock fallback (line 459): it runs when `lock(2)` returns true and releases the lock
at its end. A bucket vector of size 0 makes `_get_bucket` divide by zero (`Res.undef`).
Returns the map afterwards and the iterator. -/
def find (e : Params Key) :
    Nat → concurrent_unordered_map Key T → Key → Res (concurrent_unordered_map Key T × iterator)
  | 0, _, _ => Res.fuel_out
  | fuel + 1, m, k =>
    let h := non_zero_hasher e k
    if m._buckets.length = 0 then Res.undef
    else
      let i := _get_bucket m h
      match m._buckets[i]? with
      | none => Res.undef
      | some b =>
        if b.count ≠ 0 then
          match spinlock.lock_only_if_not no_spurious 2 (fuel + 1) 0 b.lock with
          | Res.ok (true, _) =>
            let m1 := set_bucket m i { b with lock := spinlockbase.unlock 1 }
            match find_loop e k h b.items 0 with
            | some offset => Res.ok (m1, ⟨i, offset, 0⟩)
            | none => Res.ok (m1, end_ e m)
          | Res.ok (false, w) => find e fuel (set_bucket m i { b with lock := w }) k
          | Res.fuel_out => Res.fuel_out
          | Res.undef => Res.undef
          | Res.aborted => Res.aborted
        else find e fuel m k

/-- The downward scan of `emplace` (lines 716-732). The argument `n` is `offset + 1`, so
that `n = 0` stands for `offset == (size_t) -1`; `emptyidx = none` stands for
`emptyidx == (size_t) -1`. Returns the offset of the slot with hash `h` and a key equal to
`k` at which the scan stopped (if any) and the final `emptyidx`. -/
def emplace_loop (e : Params Key) (k : Key) (h : Nat) (items : List (item_type Key T)) :
    Nat → Option Nat → Option Nat × Option Nat
  | 0, emptyidx => (none, emptyidx)
  | offset + 1, emptyidx =>
    match items[offset]? with
    | none => (none, emptyidx)
    | some it =>
      if it.hash ≠ h then
        emplace_loop e k h items offset
          (if emptyidx = none ∧ it.hash = 0 then some offset else emptyidx)
      else if e.key_equal k it.p.1 = true then (some offset, emptyidx)
      else emplace_loop e k h items offset emptyidx

/-- The first half of one round of `emplace` (lines 711-736): the search for an equal key
and for an empty slot. Returns the bucket afterwards, the offset of the equal key found
(`done` is set exactly then) and `emptyidx`. -/
def emplace_search (e : Params Key) (fuel : Nat) (k : Key) (h : Nat) (b : bucket_type Key T) :
    Res (bucket_type Key T × Option Nat × Option Nat) :=
  if b.count ≠ 0 then
    match spinlock.lock_only_if_not no_spurious 2 fuel 0 b.lock with
    | Res.ok (true, _) =>
      let r := emplace_loop e k h b.items b.items.length none
      Res.ok ({ b with lock := spinlockbase.unlock 1 }, r.1, r.2)
    | Res.ok (false, w) => Res.ok ({ b with lock := w }, none, none)
    | Res.fuel_out => Res.fuel_out
    | Res.undef => Res.undef
    | Res.aborted => Res.aborted
  else if b.items.isEmpty = false then Res.ok (b, none, some 0)
  else Res.ok (b, none, none)

/-- The insertion of `emplace` under the bucket lock (lines 744-769). The reserved
capacity of the vector is not part of the state. Returns the bucket afterwards and the
offset written (`done` is set exactly when there is one). -/
def emplace_place (k : Key) (v : T) (h : Nat) (b : bucket_type Key T) (emptyidx : Option Nat) :
    bucket_type Key T × Option Nat :=
  match emptyidx with
  | some idx =>
    match b.items[idx]? with
    | some it =>
      if it.hash = 0 then
        ({ b with items := b.items.set idx ⟨(k, v), h⟩,
                  count := (b.count + 1) % 2 ^ UINT_BITS }, some idx)
      else (b, none)
    | none => (b, none)
  | none =>
    ({ b with items := b.items ++ [⟨(k, v), h⟩],
              count := (b.count + 1) % 2 ^ UINT_BITS }, some b.items.length)

/-- Method `emplace` (lines 702-773). Each round of the `do ... while(!done)` loop takes
one unit of `fuel`. Returns the map afterwards and the pair (iterator, inserted). -/
def emplace (e : Params Key) :
    Nat → concurrent_unordered_map Key T → Key → T →
      Res (concurrent_unordered_map Key T × iterator × Bool)
  | 0, _, _, _ => Res.fuel_out
  | fuel + 1, m, k, v =>
    let h := non_zero_hasher e k
    if m._buckets.length = 0 then Res.undef
    else
      let i := _get_bucket m h
      match m._buckets[i]? with
      | none => Res.undef
      | some b =>
        match emplace_search e (fuel + 1) k h b with
        | Res.ok (b1, some offset, _) => Res.ok (set_bucket m i b1, ⟨i, offset, 0⟩, false)
        | Res.ok (b1, none, emptyidx) =>
          match spinlock.lock_only_if_not no_spurious 2 (fuel + 1) 0 b1.lock with
          | Res.ok (true, _) =>
            let r := emplace_place k v h b1 emptyidx
            let m2 := set_bucket m i { r.1 with lock := spinlockbase.unlock 1 }
            match r.2 with
            | some offset => Res.ok (m2, ⟨i, offset, 0⟩, true)
            | none => emplace e fuel m2 k v
          | Res.ok (false, w) => emplace e fuel (set_bucket m i { b1 with lock := w }) k v
          | Res.fuel_out => Res.fuel_out
          | Res.undef => Res.undef
          | Res.aborted => Res.aborted
        | Res.fuel_out => Res.fuel_out
        | Res.undef => Res.undef
        | Res.aborted => Res.aborted

/-- Method `insert(const value_type &v)` (line 775). -/
def insert (e : Params Key) (fuel : Nat) (m : concurrent_unordered_map Key T) (v : Key × T) :
    Res (concurrent_unordered_map Key T × iterator × Bool) :=
  emplace e fuel m v.1 v.2

/-- The loop `while(!b.items.empty() && !b.items.back().hash) b.items.pop_back();`
(lines 800-801 and 840-841). -/
def shrink (items : List (item_type Key T)) : List (item_type Key T) :=
  (items.reverse.dropWhile (fun it => it.hash = 0)).reverse

/-- The removal of the slot at `offset` under the bucket lock (lines 835-843 and 795-803).
The pair moved out of the slot is the slot content of an unused slot, which no operation
reads; the slot keeps it here. -/
def erase_slot (b : bucket_type Key T) (offset : Nat) : bucket_type Key T :=
  let items1 := b.items.modify (fun it => { it with hash := 0 }) offset
  let items2 := if offset = b.items.length - 1 then shrink items1 else items1
  { b with items := items2, count := (b.count + 2 ^ UINT_BITS - 1) % 2 ^ UINT_BITS }

/-- Method `erase(const key_type &k)` (lines 810-855). Each round of the
`do ... while(!done)` loop takes one unit of `fuel`. Returns the map afterwards and the
number of items erased. -/
def erase (e : Params Key) :
    Nat → concurrent_unordered_map Key T → Key → Res (concurrent_unordered_map Key T × Nat)
  | 0, _, _ => Res.fuel_out
  | fuel + 1, m, k =>
    let h := non_zero_hasher e k
    if m._buckets.length = 0 then Res.undef
    else
      let i := _get_bucket m h
      match m._buckets[i]? with
      | none => Res.undef
      | some b =>
        if b.count ≠ 0 then
          match spinlock.lock_only_if_not no_spurious 2 (fuel + 1) 0 b.lock with
          | Res.ok (true, _) =>
            match find_loop e k h b.items 0 with
            | some offset =>
              Res.ok (set_bucket m i { erase_slot b offset with lock := spinlockbase.unlock 1 }, 1)
            | none => Res.ok (set_bucket m i { b with lock := spinlockbase.unlock 1 }, 0)
          | Res.ok (false, w) => erase e fuel (set_bucket m i { b with lock := w }) k
          | Res.fuel_out => Res.fuel_out
          | Res.undef => Res.undef
          | Res.aborted => Res.aborted
        else erase e fuel m k

/-- The pair an iterator with no pending increment is bound to, read as `operator*`
reads it: `_itb->items[_offset].p`. -/
def value_at (m : concurrent_unordered_map Key T) (it : iterator) : Option (Key × T) :=
  match m._buckets[it._itb]? with
  | none => none
  | some b =>
    match b.items[it._offset]? with
    | none => none
    | some slot => some slot.p

end concurrent_unordered_map

/-- An operation of the single-threaded comparison of the map with a reference table. -/
inductive Op (Key T : Type) where
  | insert (k : Key) (v : T)
  | find (k : Key)
  | erase (k : Key)
deriving Repr

/-- What an operation returns, as the comparison observes it: the `inserted` flag of
`insert`, the value `find` hits (`none` for the end iterator), the count of `erase`. -/
inductive Ret (T : Type) where
  | inserted (flag : Bool)
  | found (v : Option T)
  | erased (n : Nat)
deriving DecidableEq, Repr

/-- One operation on the map, with its observable result. -/
def run_op (e : Params Key) (fuel : Nat) (m : concurrent_unordered_map Key T) :
    Op Key T → Res (concurrent_unordered_map Key T × Ret T)
  | Op.insert k v =>
    match concurrent_unordered_map.insert e fuel m (k, v) with
    | Res.ok (m2, _, flag) => Res.ok (m2, Ret.inserted flag)
    | Res.fuel_out => Res.fuel_out
    | Res.undef => Res.undef
    | Res.aborted => Res.aborted
  | Op.find k =>
    match concurrent_unordered_map.find e fuel m k with
    | Res.ok (m2, it) =>
      Res.ok (m2, Ret.found
        (if it = concurrent_unordered_map.end_ e m2 then none
         else (concurrent_unordered_map.value_at m2 it).map (fun p => p.2)))
    | Res.fuel_out => Res.fuel_out
    | Res.undef => Res.undef
    | Res.aborted => Res.aborted
  | Op.erase k =>
    match concurrent_unordered_map.erase e fuel m k with
    | Res.ok (m2, n) => Res.ok (m2, Ret.erased n)
    | Res.fuel_out => Res.fuel_out
    | Res.undef => Res.undef
    | Res.aborted => Res.aborted

/-- A sequence of operations on the map, each with the step budget `fuel`, with the
results in order. -/
def run_ops (e : Params Key) (fuel : Nat) :
    concurrent_unordered_map Key T → List (Op Key T) →
      Res (concurrent_unordered_map Key T × List (Ret T))
  | m, [] => Res.ok (m, [])
  | m, op :: ops =>
    match run_op e fuel m op with
    | Res.ok (m2, r) =>
      match run_ops e fuel m2 ops with
      | Res.ok (m3, rs) => Res.ok (m3, r :: rs)
      | Res.fuel_out => Res.fuel_out
      | Res.undef => Res.undef
      | Res.aborted => Res.aborted
    | Res.fuel_out => Res.fuel_out
    | Res.undef => Res.undef
    | Res.aborted => Res.aborted

/-- Reference sequential key to value map of the specification (section 8, property 5):
an association list with at most one entry per key; one operation with its result. -/
def reference_step (e : Params Key) (s : List (Key × T)) : Op Key T → List (Key × T) × Ret T
  | Op.insert k v =>
    match s.find? (fun p => e.key_equal k p.1) with
    | some _ => (s, Ret.inserted false)
    | none => ((k, v) :: s, Ret.inserted true)
  | Op.find k => (s, Ret.found ((s.find? (fun p => e.key_equal k p.1)).map (fun p => p.2)))
  | Op.erase k =>
    match s.find? (fun p => e.key_equal k p.1) with
    | some _ => (s.filter (fun p => !e.key_equal k p.1), Ret.erased 1)
    | none => (s, Ret.erased 0)

/-- Reference sequential map: the results of a sequence of operations. -/
def reference_run (e : Params Key) : List (Key × T) → List (Op Key T) → List (Ret T)
  | _, [] => []
  | s, op :: ops => (reference_step e s op).2 :: reference_run e (reference_step e s op).1 ops

/-- The collaborators of the end-to-end scenarios: a 64-bit `size_t`, the identity hasher
on `uint64` keys and equality of keys. -/
def scenario_params : Params Nat := ⟨64, fun k => k, fun a b => a == b⟩

/-- Bucket 0 of scenario B after both inserts: the keys 3 and 6 in slots 0 and 1. -/
def scenario_b_bucket : bucket_type Nat Nat := ⟨0, 2, [⟨(3, 30), 3⟩, ⟨(6, 60), 6⟩]⟩

/-- The 3-bucket map of scenario B after both inserts. -/
def scenario_b_map : concurrent_unordered_map Nat Nat :=
  ⟨0, [scenario_b_bucket, bucket_type.new, bucket_type.new]⟩

/-! ### Back-off policies -/

/-- What a back-off stage does with the calling thread: the CPU pause hint
`BOOST_SMT_PAUSE`, `this_thread::yield()`, or `this_thread::sleep_for` of 1 ms. -/
inductive Backoff where
  | smt_pause
  | yield_timeslice
  | sleep_1ms
deriving DecidableEq, Repr

/-- Method `spinlockbase<T>::int_yield` (line 244): the end of the policy chain. Every
`int_yield` returns its result and the actions it carried out, in order. -/
def spinlockbase.int_yield (_n : Nat) : Bool × List Backoff := (false, [])

/-- Method `spins_to_loop<spins, use_pause>::policy<parenttype>::int_yield` (lines 321-332).
On a target without a pause instruction `BOOST_SMT_PAUSE` is not defined and the stage
does nothing; the action stands for the hint where there is one. -/
def spins_to_loop.int_yield (spins : Nat) (use_pause : Bool)
    (parenttype : Nat → Bool × List Backoff) (n : Nat) : Bool × List Backoff :=
  let r := parenttype n
  if r.1 = true then (true, r.2)
  else if n ≥ spins then (false, r.2)
  else (true, r.2 ++ (if use_pause = true then [Backoff.smt_pause] else []))

/-- Method `spins_to_yield<spins>::policy<parenttype>::int_yield` (lines 344-350). -/
def spins_to_yield.int_yield (spins : Nat) (parenttype : Nat → Bool × List Backoff) (n : Nat) :
    Bool × List Backoff :=
  let r := parenttype n
  if r.1 = true then (true, r.2)
  else if n ≥ spins then (false, r.2)
  else (true, r.2 ++ [Backoff.yield_timeslice])

/-- Method `spins_to_sleep::policy<parenttype>::int_yield` (lines 361-366). -/
def spins_to_sleep.int_yield (parenttype : Nat → Bool × List Backoff) (n : Nat) :
    Bool × List Backoff :=
  let r := parenttype n
  if r.1 = true then (true, r.2)
  else (true, r.2 ++ [Backoff.sleep_1ms])

/-- The `parenttype::int_yield` of class `spinlock` (lines 394-396) for the policy stack
`spins_to_loop<S1>`, `spins_to_yield<S2>`, `spins_to_sleep`:
`spinpolicy4<spinpolicy3<spinpolicy2<spinlockbase<T>>>>`. -/
def spinlock.int_yield_of (S1 S2 : Nat) (n : Nat) : Bool × List Backoff :=
  spins_to_sleep.int_yield
    (spins_to_yield.int_yield S2 (spins_to_loop.int_yield S1 true spinlockbase.int_yield)) n

/-- The back-off of the default `spinlock<T>`: `spins_to_loop<125>`, `spins_to_yield<250>`,
`spins_to_sleep`. -/
def spinlock.int_yield (n : Nat) : Bool × List Backoff := spinlock.int_yield_of 125 250 n

/-- Method `spinlock::lock()` (lines 401-409) on a word holding `v`, starting at attempt
`n`. Returns the stored word afterwards and the back-off actions carried out. -/
def spinlock.lock (sp : Nat → Bool) : Nat → Nat → Nat → Res (Nat × List Backoff)
  | 0, _, _ => Res.fuel_out
  | fuel + 1, n, v =>
    let r := spinlockbase.try_lock (sp n) v
    if r.1 = true then Res.ok (r.2, [])
    else
      match spinlock.lock sp fuel (n + 1) r.2 with
      | Res.ok (w, acts) => Res.ok (w, (spinlock.int_yield n).2 ++ acts)
      | Res.fuel_out => Res.fuel_out
      | Res.undef => Res.undef
      | Res.aborted => Res.aborted

/-! ### The pointer-tagged lock -/

/-- Method `lockable_ptr<T>::get` (lines 173-184) on a stored word `w`: the word with
`~(size_t)1` as mask. -/
def lockable_ptr.get (bits : Nat) (w : Nat) : Nat := w &&& (SIZE_MAX bits - 1)

/-- Method `spinlockbase<lockable_ptr<T>>::set` (lines 264-281) on a word holding `v`,
starting at attempt `n` of its `do ... while` loop. Returns the stored word afterwards. -/
def spinlockbase_ptr.set (sp : Nat → Bool) (a : Nat) : Nat → Nat → Nat → Res Nat
  | 0, _, _ => Res.fuel_out
  | fuel + 1, n, v =>
    let expected := v
    let locked := v &&& 1
    let value := if locked ≠ 0 then a ||| 1 else a
    let r := compare_exchange_weak (sp n) v expected value
    if r.1 = true then Res.ok r.2.1
    else spinlockbase_ptr.set sp a fuel (n + 1) r.2.1

/-- Method `spinlockbase<lockable_ptr<T>>::try_lock` (lines 284-297) on a word holding `v`.
Returns (result, stored word afterwards). -/
def spinlockbase_ptr.try_lock (spurious : Bool) (v : Nat) : Bool × Nat :=
  if v &&& 1 ≠ 0 then (false, v)
  else
    let expected := v
    let r := compare_exchange_weak spurious v expected (v ||| 1)
    (r.1, r.2.1)

/-- Method `spinlockbase<lockable_ptr<T>>::unlock` (lines 298-309) on a word holding `v`:
`assert(value.n&1)`, then the word is stored with bit 0 cleared. A failed assertion is
`Res.aborted`. -/
def spinlockbase_ptr.unlock (bits : Nat) (v : Nat) : Res Nat :=
  if v &&& 1 = 0 then Res.aborted
  else Res.ok (v &&& (SIZE_MAX bits - 1))

/-! ### Threads taking one plain spin lock -/

/-- Where a thread stands in its loop of `lock(); ...; unlock();`: about to run the load
of `try_lock()` inside `lock()`; past a load that saw 0 and about to run the
compare-exchange; or past the return of `lock()` with `unlock()` still to run. -/
inductive Pc where
  | at_load
  | at_cas
  | holding
deriving DecidableEq, Repr

/-- The lock word and the place of every thread. -/
structure Threads where
  v : Nat
  pcs : List Pc
deriving DecidableEq, Repr

/-- One atomic step of thread `t` (lines 223, 226 and 242): the load of `try_lock()`
(a nonzero word makes `try_lock()` return false and `lock()` go round again), the
compare-exchange of `try_lock()` (success makes `lock()` return), or the store of
`unlock()`. A step of a thread that does not exist changes nothing. -/
def thread_step (s : Threads) (t : Nat) (spurious : Bool) : Threads :=
  match s.pcs[t]? with
  | none => s
  | some Pc.at_load =>
    if s.v ≠ 0 then s else { s with pcs := s.pcs.set t Pc.at_cas }
  | some Pc.at_cas =>
    let r := compare_exchange_weak spurious s.v 0 1
    if r.1 = true then { v := r.2.1, pcs := s.pcs.set t Pc.holding }
    else { v := r.2.1, pcs := s.pcs.set t Pc.at_load }
  | some Pc.holding => { v := spinlockbase.unlock s.v, pcs := s.pcs.set t Pc.at_load }

/-- An interleaving: the threads take their atomic steps in the order of the schedule;
each entry names the thread and says whether its compare-exchange would fail spuriously. -/
def run_schedule (s : Threads) : List (Nat × Bool) → Threads
  | [] => s
  | step :: rest => run_schedule (thread_step s step.1 step.2) rest

/-- A free lock (`spinlockbase()` stores 0) and `n` threads about to call `lock()`. -/
def Threads.start (n : Nat) : Threads := ⟨0, List.replicate n Pc.at_load⟩

/-- The number of threads between the return of their `lock()` and their `unlock()`. -/
def holders (s : Threads) : Nat := s.pcs.count Pc.holding

/-! ### Further operations of the map -/

namespace concurrent_unordered_map

/-- Method `iterator::operator++()` (lines 586-592) on an iterator of the map `m`. -/
def iterator_incr (e : Params Key) (m : concurrent_unordered_map Key T) (it : iterator) :
    iterator :=
  if it._itb = m._buckets.length then it
  else { it with _pending_incr := (it._pending_incr + 1) % 2 ^ e.bits }

/-- Method `erase(const_iterator it)` (lines 781-809). `it == ret` is the `operator==`
of line 585 on the three fields; `*it._itb` on an index that is no bucket is
`Res.undef`; a refused `lock(2)` ends in `abort()`. Returns the map afterwards and the
iterator. -/
def erase_iterator (e : Params Key) (fuel : Nat) (m : concurrent_unordered_map Key T)
    (it : iterator) : Res (concurrent_unordered_map Key T × iterator) :=
  let ret := end_ e m
  if it = ret then Res.ok (m, ret)
  else
    match m._buckets[it._itb]? with
    | none => Res.undef
    | some b =>
      match spinlock.lock_only_if_not no_spurious 2 fuel 0 b.lock with
      | Res.ok (true, _) =>
        match b.items[it._offset]? with
        | some slot =>
          if slot.hash ≠ 0 then
            Res.ok (set_bucket m it._itb
              { erase_slot b it._offset with lock := spinlockbase.unlock 1 },
              iterator_incr e m it)
          else Res.ok (set_bucket m it._itb { b with lock := spinlockbase.unlock 1 }, ret)
        | none => Res.ok (set_bucket m it._itb { b with lock := spinlockbase.unlock 1 }, ret)
      | Res.ok (false, _) => Res.aborted
      | Res.fuel_out => Res.fuel_out
      | Res.undef => Res.undef
      | Res.aborted => Res.aborted

/-- One pass of the `for(auto &b : _buckets)` loop of `clear` (lines 863-873) over the
buckets not yet visited. Returns the buckets afterwards and the value of `done`. -/
def clear_pass (fuel : Nat) :
    List (bucket_type Key T) → Res (List (bucket_type Key T) × Bool)
  | [] => Res.ok ([], true)
  | b :: rest =>
    match spinlock.lock_only_if_not no_spurious 2 fuel 0 b.lock with
    | Res.ok (true, _) =>
      match clear_pass fuel rest with
      | Res.ok (rest2, done) =>
        Res.ok ({ b with lock := spinlockbase.unlock 1, items := [] } :: rest2, done)
      | Res.fuel_out => Res.fuel_out
      | Res.undef => Res.undef
      | Res.aborted => Res.aborted
    | Res.ok (false, w) => Res.ok ({ b with lock := w } :: rest, false)
    | Res.fuel_out => Res.fuel_out
    | Res.undef => Res.undef
    | Res.aborted => Res.aborted

/-- Method `clear` (lines 857-875). Each round of the `do ... while(!done)` loop takes
one unit of `fuel`. Returns the map afterwards. -/
def clear : Nat → concurrent_unordered_map Key T → Res (concurrent_unordered_map Key T)
  | 0, _ => Res.fuel_out
  | fuel + 1, m =>
    match clear_pass (fuel + 1) m._buckets with
    | Res.ok (bs, true) => Res.ok { m with _buckets := bs }
    | Res.ok (bs, false) => clear fuel { m with _buckets := bs }
    | Res.fuel_out => Res.fuel_out
    | Res.undef => Res.undef
    | Res.aborted => Res.aborted

/-- One pass of the `for` loop of `size` (lines 638-647) over the buckets not yet visited,
`ret` being the sum so far. Returns `ret` and `done` afterwards. -/
def size_pass (bits : Nat) : List (bucket_type Key T) → Nat → Nat × Bool
  | [], ret => (ret, true)
  | b :: rest, ret =>
    if b.lock = 2 then (ret, false)
    else size_pass bits rest ((ret + b.count) % 2 ^ bits)

/-- The `do ... while(!done)` loop of `size` (lines 635-648); `ret` is not reset between
rounds. -/
def size_loop (bits : Nat) (bs : List (bucket_type Key T)) : Nat → Nat → Res Nat
  | 0, _ => Res.fuel_out
  | fuel + 1, ret =>
    if (size_pass bits bs ret).2 = true then Res.ok (size_pass bits bs ret).1
    else size_loop bits bs fuel (size_pass bits bs ret).1

/-- Method `size` (lines 630-650). -/
def size (e : Params Key) (fuel : Nat) (m : concurrent_unordered_map Key T) : Res Nat :=
  size_loop e.bits m._buckets fuel 0

/-- One pass of the `for` loop of `empty` (lines 616-626): `some false` when the method
returns false, `some true` when the loop ends with `done` set, `none` when a lock word
is 2 and `done` is cleared. -/
def empty_pass : List (bucket_type Key T) → Option Bool
  | [] => some true
  | b :: rest =>
    if b.lock = 2 then none
    else if b.count ≠ 0 then some false
    else empty_pass rest

/-- Method `empty` (lines 609-629). -/
def empty : Nat → concurrent_unordered_map Key T → Res Bool
  | 0, _ => Res.fuel_out
  | fuel + 1, m =>
    match empty_pass m._buckets with
    | some r => Res.ok r
    | none => empty fuel m

/-- Move constructor `bucket_type_impl(bucket_type_impl &&)` (line 514): `count(0)`, the
lock and the item vector default-constructed; the items of the source are not taken. -/
def bucket_move_construct (_o : bucket_type Key T) : bucket_type Key T := ⟨0, 0, []⟩

/-- Method `rehash` (lines 899-903): `_buckets.resize(n)`. The capacity of the bucket
vector is left to the library and is a parameter here: shrinking destroys the buckets from
`n` on, growing within the capacity appends default-constructed buckets, growing beyond
it moves every bucket into new storage through the move constructor. -/
def rehash (capacity : Nat) (m : concurrent_unordered_map Key T) (n : Nat) :
    concurrent_unordered_map Key T :=
  if n ≤ m._buckets.length then { m with _buckets := m._buckets.take n }
  else if n ≤ capacity then
    { m with _buckets :=
        m._buckets ++ List.replicate (n - m._buckets.length) bucket_type.new }
  else
    { m with _buckets :=
        m._buckets.map bucket_move_construct ++
          List.replicate (n - m._buckets.length) bucket_type.new }

/-- The number of occupied slots of an item sequence: those with a hash other than 0. -/
def occupied (items : List (item_type Key T)) : Nat :=
  items.countP (fun s => decide (s.hash ≠ 0))

/-- The states a single thread reaches from a freshly constructed map through calls of
`emplace`, `insert`, `erase(key)`, `erase(iterator)` that return, and of `clear` when
`with_clear` is set. -/
inductive reachable (e : Params Key) (with_clear : Bool) :
    concurrent_unordered_map Key T → Prop where
  | fresh : reachable e with_clear concurrent_unordered_map.new
  | fresh_n (n : Nat) : reachable e with_clear (concurrent_unordered_map.new_n n)
  | by_emplace (fuel : Nat) (m m2 : concurrent_unordered_map Key T) (k : Key) (v : T)
      (it : iterator) (ins : Bool) :
      reachable e with_clear m → emplace e fuel m k v = Res.ok (m2, it, ins) →
      reachable e with_clear m2
  | by_insert (fuel : Nat) (m m2 : concurrent_unordered_map Key T) (v : Key × T)
      (it : iterator) (ins : Bool) :
      reachable e with_clear m → insert e fuel m v = Res.ok (m2, it, ins) →
      reachable e with_clear m2
  | by_erase (fuel : Nat) (m m2 : concurrent_unordered_map Key T) (k : Key) (n : Nat) :
      reachable e with_clear m → erase e fuel m k = Res.ok (m2, n) →
      reachable e with_clear m2
  | by_erase_iterator (fuel : Nat) (m m2 : concurrent_unordered_map Key T)
      (it ret : iterator) :
      reachable e with_clear m → erase_iterator e fuel m it = Res.ok (m2, ret) →
      reachable e with_clear m2
  | by_clear (fuel : Nat) (m m2 : concurrent_unordered_map Key T) :
      with_clear = true → reachable e with_clear m → clear fuel m = Res.ok m2 →
      reachable e with_clear m2

end concurrent_unordered_map

/-- A 3-bucket map after `insert(6, 60)` and `insert(4, 40)` with the identity hasher:
the key 6 in bucket 0, the key 4 in bucket 1. -/
def scenario_rehash_map : concurrent_unordered_map Nat Nat :=
  ⟨0, [⟨0, 1, [⟨(6, 60), 6⟩]⟩, ⟨0, 1, [⟨(4, 40), 4⟩]⟩, bucket_type.new]⟩

/-- A 3-bucket map after `insert(0, 97)` with the identity hasher. -/
def scenario_a_map : concurrent_unordered_map Nat Nat :=
  ⟨0, [⟨0, 1, [⟨(0, 97), 2 ^ 64 - 1⟩]⟩, bucket_type.new, bucket_type.new]⟩

/-! ### Threads taking one pointer-tagged lock -/

/-- Where a thread stands in its loop of `lock(); ...; unlock();` on a pointer-tagged
lock: about to run the load of `try_lock()`; past a load that saw the word `expected` with
its low bit clear and about to run the compare-exchange; past the return of `lock()`;
or inside `unlock()`, past its load and about to store `value`. -/
inductive PtrPc where
  | at_load
  | at_cas (expected : Nat)
  | holding
  | at_store (value : Nat)
deriving DecidableEq, Repr

/-- The stored word and the place of every thread. -/
structure PtrThreads where
  v : Nat
  pcs : List PtrPc
deriving DecidableEq, Repr

/-- Whether a thread is between the return of its `lock()` and the end of its `unlock()`. -/
def PtrPc.is_holder : PtrPc → Bool
  | PtrPc.holding => true
  | PtrPc.at_store _ => true
  | _ => false

/-- One atomic step of thread `t` on the pointer-tagged lock (lines 291, 296, 305, 308):
the load of `try_lock()`, its compare-exchange, the load of `unlock()` (a clear low bit
fails the assertion and the process aborts: nothing moves any more), or the store of
`unlock()`. -/
def ptr_thread_step (bits : Nat) (s : PtrThreads) (t : Nat) (spurious : Bool) : PtrThreads :=
  match s.pcs[t]? with
  | none => s
  | some PtrPc.at_load =>
    if s.v &&& 1 ≠ 0 then s else { s with pcs := s.pcs.set t (PtrPc.at_cas s.v) }
  | some (PtrPc.at_cas expected) =>
    let r := compare_exchange_weak spurious s.v expected (expected ||| 1)
    if r.1 = true then { v := r.2.1, pcs := s.pcs.set t PtrPc.holding }
    else { v := r.2.1, pcs := s.pcs.set t PtrPc.at_load }
  | some PtrPc.holding =>
    if s.v &&& 1 = 0 then s
    else { s with pcs := s.pcs.set t (PtrPc.at_store (s.v &&& (SIZE_MAX bits - 1))) }
  | some (PtrPc.at_store value) => { v := value, pcs := s.pcs.set t PtrPc.at_load }

/-- An interleaving of the threads on the pointer-tagged lock. -/
def ptr_run_schedule (bits : Nat) (s : PtrThreads) : List (Nat × Bool) → PtrThreads
  | [] => s
  | step :: rest => ptr_run_schedule bits (ptr_thread_step bits s step.1 step.2) rest

/-- A free pointer-tagged lock holding the pointer `p` and `n` threads about to call
`lock()`. -/
def PtrThreads.start (p n : Nat) : PtrThreads := ⟨p, List.replicate n PtrPc.at_load⟩

/-- The number of threads between the return of their `lock()` and the end of their
`unlock()`. -/
def ptr_holders (s : PtrThreads) : Nat := s.pcs.countP PtrPc.is_holder

/-! ### Iterators, and whether a lockable is locked -/

/-- Function template `is_lockable_locked(T &lockable)` (lines 425-434) for a lockable with
state `σ` and the members `try_lock` and `unlock`. Returns (result, state afterwards). -/
def is_lockable_locked {σ : Type} (try_lock : σ → Bool × σ) (unlock : σ → σ) (lockable : σ) :
    Bool × σ :=
  let r := try_lock lockable
  if r.1 = true then (true, unlock r.2) else (false, r.2)

/-- Overload `is_lockable_locked(spinlock<T, ...> &lockable)` (lines 436-439) on a word
holding `v`: the loaded word, returned as `T`. -/
def is_lockable_locked_spinlock (v : Nat) : Nat := v

/-- Overload `is_lockable_locked(spinlock<lockable_ptr<T>, ...> &lockable)` (lines 441-444)
on a word holding `v`. -/
def is_lockable_locked_ptr (v : Nat) : Bool := decide (v &&& 1 ≠ 0)

/-- Member `iterator::operator==` (line 585). -/
def iterator.operator_eq (a o : iterator) : Bool :=
  decide (a._itb = o._itb) && decide (a._offset = o._offset) &&
    decide (a._pending_incr = o._pending_incr)

/-- Member `iterator::operator!=` (line 584):
`_itb!=o._itb || _offset!=o._offset || _pending_incr|=o._pending_incr`. The last operand
is an or-assignment, whose value is the bitwise OR of the two counters, and not a
comparison; read as a condition it holds when that OR is not 0. (`|=` binds weaker than
`||`, which puts the whole disjunction on its left; the condition that comes out is the
same: one of the first two comparisons holds or one of the two counters is not 0.) -/
def iterator.operator_ne (a o : iterator) : Bool :=
  decide (a._itb ≠ o._itb) || decide (a._offset ≠ o._offset) ||
    decide (a._pending_incr ||| o._pending_incr ≠ 0)

namespace concurrent_unordered_map

/-- Method `begin()` (line 652): the iterator `iterator(this)` of line 555, bound to the
first bucket with offset `(size_t) -1` and one pending increment. -/
def begin_ (e : Params Key) (_m : concurrent_unordered_map Key T) : iterator :=
  ⟨0, SIZE_MAX e.bits, 1⟩

/-- The loop `for(_offset++; _offset<b.items.size(); _offset++) if(b.items[_offset].hash)
if(!(--_pending_incr)) break;` of `catch_up` (lines 567-569), after its `_offset++`: the
list is the slots at `offset` and above. Returns (`_offset`, `_pending_incr`). -/
def catch_up_scan (bits : Nat) : List (item_type Key T) → Nat → Nat → Nat × Nat
  | [], offset, pending => (offset, pending)
  | s :: rest, offset, pending =>
    if s.hash ≠ 0 then
      if (pending + 2 ^ bits - 1) % 2 ^ bits = 0 then (offset, 0)
      else catch_up_scan bits rest ((offset + 1) % 2 ^ bits) ((pending + 2 ^ bits - 1) % 2 ^ bits)
    else catch_up_scan bits rest ((offset + 1) % 2 ^ bits) pending

/-- The loop `while(_offset>=b.items.size() && _itb!=_parent->_buckets.end())
{ ++_itb; _offset=(size_t) -1; }` of `catch_up` (lines 572-576); `size` is the size of the
item vector of `b`, the bucket bound before the loop, and `steps` bounds the number of
rounds. Returns (`_itb`, `_offset`). -/
def catch_up_spill (bits size nbuckets : Nat) : Nat → Nat → Nat → Nat × Nat
  | 0, itb, offset => (itb, offset)
  | steps + 1, itb, offset =>
    if offset ≥ size ∧ itb ≠ nbuckets then
      catch_up_spill bits size nbuckets steps (itb + 1) (SIZE_MAX bits)
    else (itb, offset)

/-- Method `iterator::catch_up` (lines 557-581). Each round of the outer `while` takes one
unit of `fuel`. The flag `stale` says whether `_bucket_data` differs from
`_parent->_buckets.data()`, which ends in `abort()`. Returns the map afterwards and the
iterator. -/
def catch_up (e : Params Key) (stale : Bool) :
    Nat → concurrent_unordered_map Key T → iterator →
      Res (concurrent_unordered_map Key T × iterator)
  | 0, _, _ => Res.fuel_out
  | fuel + 1, m, it =>
    if it._pending_incr ≠ 0 ∧ it._itb ≠ m._buckets.length then
      if stale = true then Res.aborted
      else
        match m._buckets[it._itb]? with
        | none => Res.undef
        | some b =>
          match spinlock.lock_only_if_not no_spurious 2 (fuel + 1) 0 b.lock with
          | Res.ok (true, _) =>
            let start := (it._offset + 1) % 2 ^ e.bits
            let r := catch_up_scan e.bits (b.items.drop start) start it._pending_incr
            let sp := catch_up_spill e.bits b.items.length m._buckets.length
              (m._buckets.length + 1 - it._itb) it._itb r.1
            let it2 : iterator := if r.2 ≠ 0 then ⟨sp.1, sp.2, r.2⟩ else ⟨it._itb, r.1, r.2⟩
            catch_up e stale fuel
              (set_bucket m it._itb { b with lock := spinlockbase.unlock 1 }) it2
          | Res.ok (false, w) =>
            catch_up e stale fuel (set_bucket m it._itb { b with lock := w }) it
          | Res.fuel_out => Res.fuel_out
          | Res.undef => Res.undef
          | Res.aborted => Res.aborted
    else Res.ok (m, it)

end concurrent_unordered_map

/-- A 3-bucket map after `insert(4, 40)` with the identity hasher: the key 4 in bucket 1,
buckets 0 and 2 empty. -/
def scenario_one_key_map : concurrent_unordered_map Nat Nat :=
  ⟨0, [bucket_type.new, ⟨0, 1, [⟨(4, 40), 4⟩]⟩, bucket_type.new]⟩

/-- The map of scenario B after `erase(3)`: slot 0 of bucket 0 emptied, the key 6 left in
slot 1. -/
def scenario_b_erased_map : concurrent_unordered_map Nat Nat :=
  ⟨0, [⟨0, 1, [⟨(3, 30), 0⟩, ⟨(6, 60), 6⟩]⟩, bucket_type.new, bucket_type.new]⟩

/-- The bucket invariant behind key uniqueness, for the bucket `b` at index `i` of `n`
buckets: an occupied slot stores the wrapped hash of its key and sits in the bucket that
hash selects; the count is the number of occupied slots plus a surplus `c` that `clear`
leaves behind (modulo 2^32), and the item sequence never outgrows what is left of the
range of the counter; no two occupied slots of the bucket hold equal keys. -/
def keys_inv (e : Params Key) (n i : Nat) (b : bucket_type Key T) : Prop :=
  (∀ s ∈ b.items, s.hash ≠ 0 →
    s.hash = concurrent_unordered_map.non_zero_hasher e s.p.1 ∧ s.hash % n = i) ∧
  (∃ c, c < 2 ^ UINT_BITS ∧
    b.count = (c + concurrent_unordered_map.occupied b.items) % 2 ^ UINT_BITS ∧
    b.items.length + c ≤ 2 ^ UINT_BITS) ∧
  (∀ (x y : Nat) (sx sy : item_type Key T), b.items[x]? = some sx → b.items[y]? = some sy →
    sx.hash ≠ 0 → sy.hash ≠ 0 → e.key_equal sx.p.1 sy.p.1 = true → x = y)

/-! ### The stores of the modifying operations, in program order -/

/-- A store to a bucket made by an operation of the map, as another thread could observe
it: `acquired i w`, a call of `lock(2)` on the lock of bucket `i` returned true and left
the word `w`; `modified i b`, the item sequence and the count of bucket `i` have just
been written and the bucket, lock word included, is `b`; `released i w`, the lock guard
of bucket `i` ran `unlock()`, which stored `w`. -/
inductive Event (Key T : Type) where
  | acquired (bucket : Nat) (w : Nat)
  | modified (bucket : Nat) (b : bucket_type Key T)
  | released (bucket : Nat) (w : Nat)
deriving DecidableEq, Repr

/-- The lock word an event shows. -/
def Event.word : Event Key T → Nat
  | Event.acquired _ w => w
  | Event.modified _ b => b.lock
  | Event.released _ w => w

/-- The result of a run without its events. -/
def drop_events {α β : Type} : Res (α × β) → Res α
  | Res.ok r => Res.ok r.1
  | Res.fuel_out => Res.fuel_out
  | Res.undef => Res.undef
  | Res.aborted => Res.aborted

/-- Puts the events `tr` of the rounds so far before the events of the rest of a run. -/
def add_events {α E : Type} (tr : List E) : Res (α × List E) → Res (α × List E)
  | Res.ok r => Res.ok (r.1, tr ++ r.2)
  | Res.fuel_out => Res.fuel_out
  | Res.undef => Res.undef
  | Res.aborted => Res.aborted

namespace concurrent_unordered_map

/-- The search of `emplace` (lines 711-736) as `emplace_search`, with the stores to
bucket `i` it makes: the guarded block takes the lock and releases it at its end. -/
def emplace_search_traced (e : Params Key) (fuel : Nat) (i : Nat) (k : Key) (h : Nat)
    (b : bucket_type Key T) :
    Res ((bucket_type Key T × Option Nat × Option Nat) × List (Event Key T)) :=
  if b.count ≠ 0 then
    match spinlock.lock_only_if_not no_spurious 2 fuel 0 b.lock with
    | Res.ok (true, w) =>
      let held : bucket_type Key T := { b with lock := w }
      let r := emplace_loop e k h held.items held.items.length none
      Res.ok (({ held with lock := spinlockbase.unlock held.lock }, r.1, r.2),
        [Event.acquired i w, Event.released i (spinlockbase.unlock held.lock)])
    | Res.ok (false, w) => Res.ok (({ b with lock := w }, none, none), [])
    | Res.fuel_out => Res.fuel_out
    | Res.undef => Res.undef
    | Res.aborted => Res.aborted
  else if b.items.isEmpty = false then Res.ok ((b, none, some 0), [])
  else Res.ok ((b, none, none), [])

/-- Method `emplace` (lines 702-773) as `emplace`, with the stores it makes to its
bucket: after `b.lock.lock(2)` returned true the bucket carries the word that call left,
the insertion (lines 744-769) writes the item and the count of that bucket, and the lock
guard releases the lock when the round ends. -/
def emplace_traced (e : Params Key) :
    Nat → concurrent_unordered_map Key T → Key → T →
      Res ((concurrent_unordered_map Key T × iterator × Bool) × List (Event Key T))
  | 0, _, _, _ => Res.fuel_out
  | fuel + 1, m, k, v =>
    let h := non_zero_hasher e k
    if m._buckets.length = 0 then Res.undef
    else
      let i := _get_bucket m h
      match m._buckets[i]? with
      | none => Res.undef
      | some b =>
        match emplace_search_traced e (fuel + 1) i k h b with
        | Res.ok ((b1, some offset, _), tr) =>
          Res.ok ((set_bucket m i b1, ⟨i, offset, 0⟩, false), tr)
        | Res.ok ((b1, none, emptyidx), tr) =>
          match spinlock.lock_only_if_not no_spurious 2 (fuel + 1) 0 b1.lock with
          | Res.ok (true, w) =>
            let held : bucket_type Key T := { b1 with lock := w }
            let r := emplace_place k v h held emptyidx
            let m2 := set_bucket m i { r.1 with lock := spinlockbase.unlock r.1.lock }
            match r.2 with
            | some offset =>
              Res.ok ((m2, ⟨i, offset, 0⟩, true),
                tr ++ [Event.acquired i w, Event.modified i r.1,
                  Event.released i (spinlockbase.unlock r.1.lock)])
            | none =>
              add_events
                (tr ++ [Event.acquired i w, Event.released i (spinlockbase.unlock r.1.lock)])
                (emplace_traced e fuel m2 k v)
          | Res.ok (false, w) =>
            add_events tr (emplace_traced e fuel (set_bucket m i { b1 with lock := w }) k v)
          | Res.fuel_out => Res.fuel_out
          | Res.undef => Res.undef
          | Res.aborted => Res.aborted
        | Res.fuel_out => Res.fuel_out
        | Res.undef => Res.undef
        | Res.aborted => Res.aborted

/-- Method `erase(const key_type &k)` (lines 810-855) as `erase`, with the stores it
makes to its bucket. -/
def erase_traced (e : Params Key) :
    Nat → concurrent_unordered_map Key T → Key →
      Res ((concurrent_unordered_map Key T × Nat) × List (Event Key T))
  | 0, _, _ => Res.fuel_out
  | fuel + 1, m, k =>
    let h := non_zero_hasher e k
    if m._buckets.length = 0 then Res.undef
    else
      let i := _get_bucket m h
      match m._buckets[i]? with
      | none => Res.undef
      | some b =>
        if b.count ≠ 0 then
          match spinlock.lock_only_if_not no_spurious 2 (fuel + 1) 0 b.lock with
          | Res.ok (true, w) =>
            let held : bucket_type Key T := { b with lock := w }
            match find_loop e k h held.items 0 with
            | some offset =>
              let b2 := erase_slot held offset
              Res.ok ((set_bucket m i { b2 with lock := spinlockbase.unlock b2.lock }, 1),
                [Event.acquired i w, Event.modified i b2,
                  Event.released i (spinlockbase.unlock b2.lock)])
            | none =>
              Res.ok ((set_bucket m i { held with lock := spinlockbase.unlock held.lock }, 0),
                [Event.acquired i w, Event.released i (spinlockbase.unlock held.lock)])
          | Res.ok (false, w) => erase_traced e fuel (set_bucket m i { b with lock := w }) k
          | Res.fuel_out => Res.fuel_out
          | Res.undef => Res.undef
          | Res.aborted => Res.aborted
        else erase_traced e fuel m k

/-- Method `erase(const_iterator it)` (lines 781-809) as `erase_iterator`, with the
stores it makes to the bucket of the iterator. -/
def erase_iterator_traced (e : Params Key) (fuel : Nat) (m : concurrent_unordered_map Key T)
    (it : iterator) : Res ((concurrent_unordered_map Key T × iterator) × List (Event Key T)) :=
  let ret := end_ e m
  if it = ret then Res.ok ((m, ret), [])
  else
    match m._buckets[it._itb]? with
    | none => Res.undef
    | some b =>
      match spinlock.lock_only_if_not no_spurious 2 fuel 0 b.lock with
      | Res.ok (true, w) =>
        let held : bucket_type Key T := { b with lock := w }
        match held.items[it._offset]? with
        | some slot =>
          if slot.hash ≠ 0 then
            let b2 := erase_slot held it._offset
            Res.ok ((set_bucket m it._itb { b2 with lock := spinlockbase.unlock b2.lock },
                iterator_incr e m it),
              [Event.acquired it._itb w, Event.modified it._itb b2,
                Event.released it._itb (spinlockbase.unlock b2.lock)])
          else
            Res.ok ((set_bucket m it._itb { held with lock := spinlockbase.unlock held.lock },
                ret),
              [Event.acquired it._itb w,
                Event.released it._itb (spinlockbase.unlock held.lock)])
        | none =>
          Res.ok ((set_bucket m it._itb { held with lock := spinlockbase.unlock held.lock },
              ret),
            [Event.acquired it._itb w, Event.released it._itb (spinlockbase.unlock held.lock)])
      | Res.ok (false, _) => Res.aborted
      | Res.fuel_out => Res.fuel_out
      | Res.undef => Res.undef
      | Res.aborted => Res.aborted

/-- One pass of the `for` loop of `clear` (lines 863-873) as `clear_pass`, over the
buckets from index `base` on, with the stores it makes. -/
def clear_pass_traced (fuel : Nat) :
    Nat → List (bucket_type Key T) →
      Res ((List (bucket_type Key T) × Bool) × List (Event Key T))
  | _, [] => Res.ok (([], true), [])
  | base, b :: rest =>
    match spinlock.lock_only_if_not no_spurious 2 fuel 0 b.lock with
    | Res.ok (true, w) =>
      let held : bucket_type Key T := { b with lock := w }
      let b2 : bucket_type Key T := { held with items := [] }
      match clear_pass_traced fuel (base + 1) rest with
      | Res.ok ((rest2, done), tr) =>
        Res.ok (({ b2 with lock := spinlockbase.unlock b2.lock } :: rest2, done),
          [Event.acquired base w, Event.modified base b2,
            Event.released base (spinlockbase.unlock b2.lock)] ++ tr)
      | Res.fuel_out => Res.fuel_out
      | Res.undef => Res.undef
      | Res.aborted => Res.aborted
    | Res.ok (false, w) => Res.ok (({ b with lock := w } :: rest, false), [])
    | Res.fuel_out => Res.fuel_out
    | Res.undef => Res.undef
    | Res.aborted => Res.aborted

/-- Method `clear` (lines 857-875) as `clear`, with the stores it makes. -/
def clear_traced :
    Nat → concurrent_unordered_map Key T →
      Res (concurrent_unordered_map Key T × List (Event Key T))
  | 0, _ => Res.fuel_out
  | fuel + 1, m =>
    match clear_pass_traced (fuel + 1) 0 m._buckets with
    | Res.ok ((bs, true), tr) => Res.ok ({ m with _buckets := bs }, tr)
    | Res.ok ((bs, false), tr) => add_events tr (clear_traced fuel { m with _buckets := bs })
    | Res.fuel_out => Res.fuel_out
    | Res.undef => Res.undef
    | Res.aborted => Res.aborted

end concurrent_unordered_map

/-- The lock words the modifying operations are to show: a successful `lock(2)` leaves 1,
a bucket is written under the word 1, `unlock()` stores 0. -/
def Event.lock_word_ok : Event Key T → Prop
  | Event.acquired _ w => w = 1
  | Event.modified _ b => b.lock = 1
  | Event.released _ w => w = 0

/-- The traced run of an operation ends as its plain run does, returning the same
result, and every event of it satisfies `P`. -/
def agrees {α E : Type} (P : E → Prop) (traced : Res (α × List E)) (plain : Res α) : Prop :=
  match traced with
  | Res.ok r => plain = Res.ok r.1 ∧ ∀ ev ∈ r.2, P ev
  | Res.fuel_out => plain = Res.fuel_out
  | Res.undef => plain = Res.undef
  | Res.aborted => plain = Res.aborted

/-! ## Theorems -/

/-! ### The plain spin lock -/

/-- C9: on a word holding a nonzero value `try_lock()` returns false and leaves the word
as it is, whether or not a CAS would fail, and so do `n` calls in a row; on a word
holding 0 it stores 1 and returns true unless the weak CAS fails spuriously, in which
case the word stays 0. -/
theorem try_lock_read_only_when_held (sp : Nat → Bool) (v n : Nat) (hv : v ≠ 0) :
    (∀ s : Bool, spinlockbase.try_lock s v = (false, v)) ∧
    spinlockbase.try_lock_n sp n v = (List.replicate n false, v) ∧
    spinlockbase.try_lock false 0 = (true, 1) ∧
    spinlockbase.try_lock true 0 = (false, 0) := by
  have h1 : ∀ s : Bool, spinlockbase.try_lock s v = (false, v) := by
    intro s
    simp [spinlockbase.try_lock, hv]
  refine ⟨h1, ?_, by decide, by decide⟩
  induction n with
  | zero => rfl
  | succ n ih => simp [spinlockbase.try_lock_n, h1, ih, List.replicate_succ]

/-- Witness of C9: a word holding 2, a million calls. -/
theorem try_lock_read_only_when_held_witness :
    (2 : Nat) ≠ 0 ∧
    ((∀ s : Bool, spinlockbase.try_lock s 2 = (false, 2)) ∧
      spinlockbase.try_lock_n no_spurious 1000000 2 = (List.replicate 1000000 false, 2) ∧
      spinlockbase.try_lock false 0 = (true, 1) ∧
      spinlockbase.try_lock true 0 = (false, 0)) :=
  ⟨by decide, try_lock_read_only_when_held no_spurious 2 1000000 (by decide)⟩

/-- C10, as stated, fails: with the word holding 0 and the caller passing `expected = 2`,
`try_lock(expected)` returns false and leaves the word 0, where `try_lock()` stores 1 and
returns true. -/
theorem try_lock_expected_not_same_as_try_lock :
    spinlockbase.try_lock false 0 = (true, 1) ∧
    spinlockbase.try_lock_expected false 0 2 = (false, 0, 0) ∧
    ¬ (∀ expected v : Nat,
        ((spinlockbase.try_lock_expected false v expected).1 = true ↔ v = 0) ∧
        ((spinlockbase.try_lock_expected false v expected).1,
          (spinlockbase.try_lock_expected false v expected).2.1) =
            spinlockbase.try_lock false v) := by
  refine ⟨by decide, by decide, ?_⟩
  intro h
  have h2 := (h 2 0).1.2 rfl
  revert h2
  decide

/-- C10, amended: `try_lock(expected)` returns true exactly when the word is 0, the
caller passed `expected = 0` and the CAS does not fail spuriously, and then the word is 1;
whenever it returns false the word is unchanged and `expected` holds the word; in
particular on a word holding a nonzero `t` it returns false with `expected = t`, and with
`expected = 0` passed in its result and its effect on the word are those of `try_lock()`. -/
theorem try_lock_expected_spec (s : Bool) (v expected : Nat) :
    ((spinlockbase.try_lock_expected s v expected).1 = true ↔
      (v = 0 ∧ expected = 0 ∧ s = false)) ∧
    ((spinlockbase.try_lock_expected s v expected).1 = true →
      (spinlockbase.try_lock_expected s v expected).2.1 = 1) ∧
    ((spinlockbase.try_lock_expected s v expected).1 = false →
      (spinlockbase.try_lock_expected s v expected).2 = (v, v)) ∧
    (v ≠ 0 → spinlockbase.try_lock_expected s v expected = (false, v, v)) ∧
    (expected = 0 →
      ((spinlockbase.try_lock_expected s v expected).1,
        (spinlockbase.try_lock_expected s v expected).2.1) = spinlockbase.try_lock s v) := by
  by_cases hv : v = 0
  · subst hv
    by_cases he : expected = 0
    · subst he
      cases s <;> decide
    · have h0 : ¬ (0 = expected) := fun h => he h.symm
      simp [spinlockbase.try_lock_expected, compare_exchange_weak, he, h0]
  · simp [spinlockbase.try_lock_expected, spinlockbase.try_lock, hv]

/-! ### Hashing and bucket selection -/

/-- C7: for a user hash value `h = hasher k` of a word of `bits >= 1` bits, the wrapped
hash is `h` when `h` is not 0 and the all-ones word `2 ^ bits - 1` when `h` is 0; it is
never 0. -/
theorem non_zero_hasher_wraps (e : Params Key) (k : Key) (hbits : 0 < e.bits)
    (hword : e.hasher k < 2 ^ e.bits) :
    (e.hasher k ≠ 0 → concurrent_unordered_map.non_zero_hasher e k = e.hasher k) ∧
    (e.hasher k = 0 → concurrent_unordered_map.non_zero_hasher e k = 2 ^ e.bits - 1) ∧
    concurrent_unordered_map.non_zero_hasher e k ≠ 0 := by
  have hpow : 2 ≤ 2 ^ e.bits := by
    calc 2 = 2 ^ 1 := by norm_num
      _ ≤ 2 ^ e.bits := Nat.pow_le_pow_right (by norm_num) hbits
  have hmod : e.hasher k % 2 ^ e.bits = e.hasher k := Nat.mod_eq_of_lt hword
  unfold concurrent_unordered_map.non_zero_hasher SIZE_MAX
  simp only [hmod]
  refine ⟨?_, ?_, ?_⟩
  · intro h
    simp [h]
  · intro h
    simp [h]
  · by_cases h : e.hasher k = 0
    · simp only [h, if_true]
      omega
    · simp [h]

/-- Witness of C7: a 64-bit word, the identity hasher and the key 0. -/
theorem non_zero_hasher_wraps_witness :
    ((0 : Nat) ≠ 0 →
      concurrent_unordered_map.non_zero_hasher (⟨64, fun k => k, fun a b => a == b⟩ : Params Nat) 0
        = 0) ∧
    ((0 : Nat) = 0 →
      concurrent_unordered_map.non_zero_hasher (⟨64, fun k => k, fun a b => a == b⟩ : Params Nat) 0
        = 2 ^ 64 - 1) ∧
    concurrent_unordered_map.non_zero_hasher (⟨64, fun k => k, fun a b => a == b⟩ : Params Nat) 0
      ≠ 0 :=
  non_zero_hasher_wraps (⟨64, fun k => k, fun a b => a == b⟩ : Params Nat) 0
    (by decide) (by decide)



/-! ### Helper lemmas on the bucket lock and the bucket vector -/

theorem lock_only_if_not_free (fuel x : Nat) :
    spinlock.lock_only_if_not no_spurious x (fuel + 1) 0 0 = Res.ok (true, 1) := by
  simp [spinlock.lock_only_if_not, spinlockbase.try_lock_expected, compare_exchange_weak,
    no_spurious]

theorem lock_only_if_not_sentinel (fuel x : Nat) (hx : x ≠ 0) :
    spinlock.lock_only_if_not no_spurious x (fuel + 1) 0 x = Res.ok (false, x) := by
  simp [spinlock.lock_only_if_not, spinlockbase.try_lock_expected, hx]

theorem set_bucket_same (m : concurrent_unordered_map Key T) (i : Nat) (b : bucket_type Key T)
    (hb : m._buckets[i]? = some b) : concurrent_unordered_map.set_bucket m i b = m := by
  obtain ⟨rl, bs⟩ := m
  simp only [concurrent_unordered_map.set_bucket]
  congr 1
  apply List.ext_getElem?
  intro j
  by_cases hj : i = j
  · subst hj
    have hlt : i < bs.length := by
      rcases Nat.lt_or_ge i bs.length with h | h
      · exact h
      · simp [List.getElem?_eq_none h] at hb
    simp [List.getElem?_set_self hlt, hb]
  · simp [List.getElem?_set_ne hj]

theorem bucket_lock_zero (b : bucket_type Key T) (hlock : b.lock = 0) :
    ({ b with lock := spinlockbase.unlock 1 } : bucket_type Key T) = b := by
  obtain ⟨l, c, its⟩ := b
  simp only [spinlockbase.unlock] at *
  simp [hlock]

theorem buckets_nonempty_of_get (m : concurrent_unordered_map Key T) (i : Nat)
    (b : bucket_type Key T) (hb : m._buckets[i]? = some b) : m._buckets.length ≠ 0 := by
  intro h
  have : m._buckets = [] := List.length_eq_zero.mp h
  simp [this] at hb

/-! ### The scan of find -/

theorem find_round_count_zero (e : Params Key) (fuel : Nat) (m : concurrent_unordered_map Key T)
    (k : Key) (b : bucket_type Key T)
    (hb : m._buckets[concurrent_unordered_map._get_bucket m
      (concurrent_unordered_map.non_zero_hasher e k)]? = some b)
    (hcount : b.count = 0) :
    concurrent_unordered_map.find e fuel m k = Res.fuel_out := by
  induction fuel with
  | zero => rfl
  | succ fuel ih =>
    have hne := buckets_nonempty_of_get m _ b hb
    simp only [concurrent_unordered_map.find, hne, if_false, hb, hcount, ne_eq,
      not_true_eq_false]
    exact ih

theorem find_round_free (e : Params Key) (fuel : Nat) (m : concurrent_unordered_map Key T)
    (k : Key) (b : bucket_type Key T)
    (hb : m._buckets[concurrent_unordered_map._get_bucket m
      (concurrent_unordered_map.non_zero_hasher e k)]? = some b)
    (hlock : b.lock = 0) (hcount : b.count ≠ 0) :
    concurrent_unordered_map.find e (fuel + 1) m k =
      match concurrent_unordered_map.find_loop e k
          (concurrent_unordered_map.non_zero_hasher e k) b.items 0 with
      | some offset =>
        Res.ok (m, ⟨concurrent_unordered_map._get_bucket m
          (concurrent_unordered_map.non_zero_hasher e k), offset, 0⟩)
      | none => Res.ok (m, concurrent_unordered_map.end_ e m) := by
  have hne := buckets_nonempty_of_get m _ b hb
  simp only [concurrent_unordered_map.find, hne, if_false, hb, hcount, ne_eq,
    not_false_eq_true, if_true, hlock, lock_only_if_not_free]
  rw [← hlock, bucket_lock_zero b hlock, set_bucket_same m _ b hb]


theorem non_zero_hasher_ne_zero (e : Params Key) (k : Key) (hbits : 0 < e.bits) :
    concurrent_unordered_map.non_zero_hasher e k ≠ 0 := by
  have hpow : 2 ≤ 2 ^ e.bits := by
    calc 2 = 2 ^ 1 := by norm_num
      _ ≤ 2 ^ e.bits := Nat.pow_le_pow_right (by norm_num) hbits
  unfold concurrent_unordered_map.non_zero_hasher SIZE_MAX
  by_cases h : e.hasher k % 2 ^ e.bits = 0
  · simp only [h, if_true]
    omega
  · simp [h]

theorem find_loop_step (e : Params Key) (k : Key) (h : Nat) (it : item_type Key T)
    (rest : List (item_type Key T)) (offset : Nat) :
    concurrent_unordered_map.find_loop e k h (it :: rest) offset =
      if concurrent_unordered_map.slot_matches e k h it = true then some offset
      else concurrent_unordered_map.find_loop e k h rest (offset + 1) := by
  by_cases h1 : it.hash = h <;> by_cases h2 : e.key_equal k it.p.1 = true <;>
    simp [concurrent_unordered_map.find_loop, concurrent_unordered_map.slot_matches, h1, h2]

/-- The scan returns the lowest matching offset. -/
theorem find_loop_some (e : Params Key) (k : Key) (h : Nat) (items : List (item_type Key T))
    (offset r : Nat) (hr : concurrent_unordered_map.find_loop e k h items offset = some r) :
    ∃ j it, r = offset + j ∧ items[j]? = some it ∧
      concurrent_unordered_map.slot_matches e k h it = true ∧
      ∀ j2 it2, j2 < j → items[j2]? = some it2 →
        concurrent_unordered_map.slot_matches e k h it2 = false := by
  induction items generalizing offset with
  | nil => simp [concurrent_unordered_map.find_loop] at hr
  | cons it rest ih =>
    rw [find_loop_step] at hr
    by_cases hm : concurrent_unordered_map.slot_matches e k h it = true
    · simp only [hm, if_true, Option.some.injEq] at hr
      refine ⟨0, it, by omega, by simp, hm, ?_⟩
      intro j2 it2 hj
      omega
    · simp only [hm, if_false] at hr
      obtain ⟨j, it1, hj, hget, hmatch, hlow⟩ := ih (offset + 1) hr
      refine ⟨j + 1, it1, by omega, by simpa using hget, hmatch, ?_⟩
      intro j2 it2 hj2 hget2
      cases j2 with
      | zero =>
        simp only [List.getElem?_cons_zero, Option.some.injEq] at hget2
        subst hget2
        simpa using hm
      | succ j2 =>
        simp only [List.getElem?_cons_succ] at hget2
        exact hlow j2 it2 (by omega) hget2

/-- The scan reaches the end only when no slot matches. -/
theorem find_loop_none (e : Params Key) (k : Key) (h : Nat) (items : List (item_type Key T))
    (offset : Nat) (hr : concurrent_unordered_map.find_loop e k h items offset = none) :
    ∀ it ∈ items, concurrent_unordered_map.slot_matches e k h it = false := by
  induction items generalizing offset with
  | nil => simp
  | cons it rest ih =>
    rw [find_loop_step] at hr
    by_cases hm : concurrent_unordered_map.slot_matches e k h it = true
    · simp [hm] at hr
    · simp only [hm, if_false] at hr
      intro it2 hit2
      rcases List.mem_cons.mp hit2 with h1 | h1
      · subst h1
        simpa using hm
      · exact ih (offset + 1) hr it2 h1

/-- A matching slot below which no slot matches is the one the scan returns. -/
theorem find_loop_of_lowest (e : Params Key) (k : Key) (h : Nat)
    (items : List (item_type Key T)) (offset j : Nat) (it : item_type Key T)
    (hget : items[j]? = some it)
    (hmatch : concurrent_unordered_map.slot_matches e k h it = true)
    (hlow : ∀ j2 it2, j2 < j → items[j2]? = some it2 →
      concurrent_unordered_map.slot_matches e k h it2 = false) :
    concurrent_unordered_map.find_loop e k h items offset = some (offset + j) := by
  induction items generalizing offset j with
  | nil => simp at hget
  | cons it0 rest ih =>
    rw [find_loop_step]
    cases j with
    | zero =>
      simp only [List.getElem?_cons_zero, Option.some.injEq] at hget
      subst hget
      simp [hmatch]
    | succ j =>
      have h0 : concurrent_unordered_map.slot_matches e k h it0 = false :=
        hlow 0 it0 (by omega) (by simp)
      simp only [h0, Bool.false_eq_true, if_false]
      simp only [List.getElem?_cons_succ] at hget
      have := ih (offset + 1) j hget (fun j2 it2 hj2 hg2 =>
        hlow (j2 + 1) it2 (by omega) (by simpa using hg2))
      rw [this]
      congr 1
      omega


theorem fresh_bucket_get (n i : Nat) (hn : 0 < n) :
    (List.replicate n (bucket_type.new : bucket_type Key T))[i % n]? = some bucket_type.new := by
  have hlt : i % n < n := Nat.mod_lt i hn
  simp [List.getElem?_replicate, hlt]

theorem find_fresh_fuel_out (e : Params Key) (n fuel : Nat) (k : Key) :
    concurrent_unordered_map.find e fuel
      (concurrent_unordered_map.new_n n : concurrent_unordered_map Key T) k = Res.fuel_out := by
  apply find_round_count_zero e fuel _ k bucket_type.new
  · simp only [concurrent_unordered_map.new_n, concurrent_unordered_map._get_bucket,
      List.length_replicate]
    apply fresh_bucket_get
    split <;> omega
  · rfl

/-- C2 (code defect): with the count of the selected bucket 0, `find` skips the guarded
block without setting `done`, so the `do ... while(!done)` loop runs again on the same
state: on every freshly constructed map, for every key and every step budget, `find`
does not return. -/
theorem find_on_fresh_map_never_returns (e : Params Key) (n fuel : Nat) (k : Key) :
    concurrent_unordered_map.find e fuel
      (concurrent_unordered_map.new_n n : concurrent_unordered_map Key T) k = Res.fuel_out ∧
    concurrent_unordered_map.find e fuel
      (concurrent_unordered_map.new : concurrent_unordered_map Key T) k = Res.fuel_out := by
  refine ⟨find_fresh_fuel_out e n fuel k, ?_⟩
  exact find_fresh_fuel_out e 13 fuel k

/-- C3: when the bucket selected for `k` is free (lock word 0) and its count is not 0,
`find` returns in its first round, leaves the map as it was, and its result is either an
iterator bound to (that bucket, `i`) with no pending increment, where slot `i` has the
stored hash `wrap(hash(k))` (which is not 0) and a key equal to `k` and no slot below `i`
has both, or the end iterator, and then no slot of the bucket has both. -/
theorem find_returns_lowest_match (e : Params Key) (fuel : Nat)
    (m : concurrent_unordered_map Key T) (k : Key) (b : bucket_type Key T)
    (hbits : 0 < e.bits)
    (hb : m._buckets[concurrent_unordered_map.bucket e m k]? = some b)
    (hlock : b.lock = 0) (hcount : b.count ≠ 0) :
    ∃ r, concurrent_unordered_map.find e (fuel + 1) m k = Res.ok (m, r) ∧
      ((∃ i it, r = ⟨concurrent_unordered_map.bucket e m k, i, 0⟩ ∧
          b.items[i]? = some it ∧
          it.hash = concurrent_unordered_map.non_zero_hasher e k ∧ it.hash ≠ 0 ∧
          e.key_equal k it.p.1 = true ∧
          ∀ j it2, j < i → b.items[j]? = some it2 →
            ¬ (it2.hash = concurrent_unordered_map.non_zero_hasher e k ∧
                e.key_equal k it2.p.1 = true)) ∨
       (r = concurrent_unordered_map.end_ e m ∧
          ∀ it ∈ b.items,
            ¬ (it.hash = concurrent_unordered_map.non_zero_hasher e k ∧
                e.key_equal k it.p.1 = true))) := by
  have hround := find_round_free e fuel m k b hb hlock hcount
  cases hscan : concurrent_unordered_map.find_loop e k
      (concurrent_unordered_map.non_zero_hasher e k) b.items 0 with
  | none =>
    rw [hscan] at hround
    refine ⟨_, hround, Or.inr ⟨rfl, ?_⟩⟩
    intro it hit
    have := find_loop_none e k _ b.items 0 hscan it hit
    simpa [concurrent_unordered_map.slot_matches] using this
  | some offset =>
    rw [hscan] at hround
    obtain ⟨j, it, hj, hget, hmatch, hlow⟩ := find_loop_some e k _ b.items 0 offset hscan
    have hoff : offset = j := by omega
    subst hoff
    simp only [concurrent_unordered_map.slot_matches, Bool.and_eq_true,
      decide_eq_true_eq] at hmatch
    refine ⟨_, hround, Or.inl ⟨offset, it, rfl, hget, hmatch.1, ?_, hmatch.2, ?_⟩⟩
    · rw [hmatch.1]
      exact non_zero_hasher_ne_zero e k hbits
    · intro j2 it2 hj2 hget2
      have := hlow j2 it2 hj2 hget2
      simpa [concurrent_unordered_map.slot_matches] using this

/-- Witness of C3: bucket 0 of the 3-bucket map of scenario B holds the keys 3 (slot 0)
and 6 (slot 1); `find(6)` returns an iterator bound to a slot of bucket 0 or the end
iterator, as described. -/
theorem find_returns_lowest_match_witness :
    ∃ r, concurrent_unordered_map.find scenario_params 1 scenario_b_map 6
        = Res.ok (scenario_b_map, r) ∧
      ((∃ i it, r = ⟨concurrent_unordered_map.bucket scenario_params scenario_b_map 6, i, 0⟩ ∧
          scenario_b_bucket.items[i]? = some it ∧
          it.hash = concurrent_unordered_map.non_zero_hasher scenario_params 6 ∧
          it.hash ≠ 0 ∧
          scenario_params.key_equal 6 it.p.1 = true ∧
          ∀ j it2, j < i → scenario_b_bucket.items[j]? = some it2 →
            ¬ (it2.hash = concurrent_unordered_map.non_zero_hasher scenario_params 6 ∧
                scenario_params.key_equal 6 it2.p.1 = true)) ∨
       (r = concurrent_unordered_map.end_ scenario_params scenario_b_map ∧
          ∀ it ∈ scenario_b_bucket.items,
            ¬ (it.hash = concurrent_unordered_map.non_zero_hasher scenario_params 6 ∧
                scenario_params.key_equal 6 it.p.1 = true))) :=
  find_returns_lowest_match scenario_params 0 scenario_b_map 6 scenario_b_bucket
    (by decide) (by decide) rfl (by decide)

/-! ### The downward scan of emplace -/

theorem emplace_loop_step (e : Params Key) (k : Key) (h : Nat)
    (items : List (item_type Key T)) (n : Nat) (ei : Option Nat) (it : item_type Key T)
    (hget : items[n]? = some it) :
    concurrent_unordered_map.emplace_loop e k h items (n + 1) ei =
      if concurrent_unordered_map.slot_matches e k h it = true then (some n, ei)
      else concurrent_unordered_map.emplace_loop e k h items n
        (if it.hash ≠ h ∧ ei = none ∧ it.hash = 0 then some n else ei) := by
  by_cases h1 : it.hash = h <;> by_cases h2 : e.key_equal k it.p.1 = true <;>
    simp [concurrent_unordered_map.emplace_loop, concurrent_unordered_map.slot_matches,
      hget, h1, h2]

/-- The downward scan stops at the highest matching offset below `n`, if there is one. -/
theorem emplace_loop_found (e : Params Key) (k : Key) (h : Nat)
    (items : List (item_type Key T)) (n : Nat) (ei : Option Nat) (hn : n ≤ items.length) :
    (∀ off, (concurrent_unordered_map.emplace_loop e k h items n ei).1 = some off →
      off < n ∧
      (∃ it, items[off]? = some it ∧ concurrent_unordered_map.slot_matches e k h it = true) ∧
      ∀ j it2, off < j → j < n → items[j]? = some it2 →
        concurrent_unordered_map.slot_matches e k h it2 = false) ∧
    ((concurrent_unordered_map.emplace_loop e k h items n ei).1 = none →
      ∀ j it2, j < n → items[j]? = some it2 →
        concurrent_unordered_map.slot_matches e k h it2 = false) := by
  induction n generalizing ei with
  | zero =>
    constructor
    · intro off hoff
      simp [concurrent_unordered_map.emplace_loop] at hoff
    · intro _ j it2 hj
      omega
  | succ n ih =>
    have hlt : n < items.length := by omega
    have hget : items[n]? = some items[n] := List.getElem?_eq_getElem hlt
    rw [emplace_loop_step e k h items n ei items[n] hget]
    by_cases hm : concurrent_unordered_map.slot_matches e k h items[n] = true
    · simp only [hm, if_true]
      constructor
      · intro off hoff
        simp only [Option.some.injEq] at hoff
        subst hoff
        refine ⟨by omega, ⟨_, hget, hm⟩, ?_⟩
        intro j it2 h1 h2
        omega
      · intro hnone
        simp at hnone
    · have hmf : concurrent_unordered_map.slot_matches e k h items[n] = false := by
        simpa using hm
      simp only [hmf, Bool.false_eq_true, if_false]
      obtain ⟨ih1, ih2⟩ := ih
        (if items[n].hash ≠ h ∧ ei = none ∧ items[n].hash = 0 then some n else ei)
        (by omega)
      constructor
      · intro off hoff
        obtain ⟨h1, h2, h3⟩ := ih1 off hoff
        refine ⟨by omega, h2, ?_⟩
        intro j it2 hj1 hj2 hgetj
        by_cases hjn : j = n
        · subst hjn
          rw [hget] at hgetj
          simp only [Option.some.injEq] at hgetj
          subst hgetj
          exact hmf
        · exact h3 j it2 hj1 (by omega) hgetj
      · intro hnone j it2 hj hgetj
        by_cases hjn : j = n
        · subst hjn
          rw [hget] at hgetj
          simp only [Option.some.injEq] at hgetj
          subst hgetj
          exact hmf
        · exact ih2 hnone j it2 (by omega) hgetj

/-- When the downward scan finds no equal key, an `emptyidx` already set is kept, and one
not yet set ends as the highest offset below `n` of an empty slot, or stays unset when no
slot below `n` is empty. -/
theorem emplace_loop_emptyidx (e : Params Key) (k : Key) (h : Nat) (hh : h ≠ 0)
    (items : List (item_type Key T)) (n : Nat) (ei : Option Nat) (hn : n ≤ items.length)
    (hnone : (concurrent_unordered_map.emplace_loop e k h items n ei).1 = none) :
    (∀ x, ei = some x →
      (concurrent_unordered_map.emplace_loop e k h items n ei).2 = some x) ∧
    (ei = none → ∀ idx,
      (concurrent_unordered_map.emplace_loop e k h items n ei).2 = some idx →
      idx < n ∧ (∃ it, items[idx]? = some it ∧ it.hash = 0) ∧
      ∀ j it2, idx < j → j < n → items[j]? = some it2 → it2.hash ≠ 0) ∧
    (ei = none → (concurrent_unordered_map.emplace_loop e k h items n ei).2 = none →
      ∀ j it2, j < n → items[j]? = some it2 → it2.hash ≠ 0) := by
  induction n generalizing ei with
  | zero =>
    refine ⟨?_, ?_, ?_⟩
    · intro x hx
      simp [concurrent_unordered_map.emplace_loop, hx]
    · intro hei idx hidx
      simp [concurrent_unordered_map.emplace_loop, hei] at hidx
    · intro _ _ j it2 hj
      omega
  | succ n ih =>
    have hlt : n < items.length := by omega
    have hget : items[n]? = some items[n] := List.getElem?_eq_getElem hlt
    rw [emplace_loop_step e k h items n ei items[n] hget] at hnone ⊢
    have hne0 : ¬ (0 = h) := fun h2 => hh h2.symm
    by_cases hm : concurrent_unordered_map.slot_matches e k h items[n] = true
    · simp [hm] at hnone
    · have hmf : concurrent_unordered_map.slot_matches e k h items[n] = false := by
        simpa using hm
      simp only [hmf, Bool.false_eq_true, if_false] at hnone ⊢
      obtain ⟨ih1, ih2, ih3⟩ := ih
        (if items[n].hash ≠ h ∧ ei = none ∧ items[n].hash = 0 then some n else ei)
        (by omega) hnone
      refine ⟨?_, ?_, ?_⟩
      · intro x hx
        apply ih1
        simp [hx]
      · intro hei idx hidx
        by_cases h0 : items[n].hash = 0
        · have hne : items[n].hash ≠ h := by
            rw [h0]
            exact fun h2 => hh h2.symm
          have hsel : (if items[n].hash ≠ h ∧ ei = none ∧ items[n].hash = 0 then some n
              else ei) = some n := by
            simp [hne0, hei, h0]
          have := ih1 n hsel
          rw [this] at hidx
          simp only [Option.some.injEq] at hidx
          subst hidx
          refine ⟨by omega, ⟨_, hget, h0⟩, ?_⟩
          intro j it2 h1 h2
          omega
        · have hsel : (if items[n].hash ≠ h ∧ ei = none ∧ items[n].hash = 0 then some n
              else ei) = none := by
            simp [hei, h0]
          obtain ⟨g1, g2, g3⟩ := ih2 hsel idx hidx
          refine ⟨by omega, g2, ?_⟩
          intro j it2 hj1 hj2 hgetj
          by_cases hjn : j = n
          · subst hjn
            rw [hget] at hgetj
            simp only [Option.some.injEq] at hgetj
            subst hgetj
            exact h0
          · exact g3 j it2 hj1 (by omega) hgetj
      · intro hei hres j it2 hj hgetj
        by_cases h0 : items[n].hash = 0
        · have hne : items[n].hash ≠ h := by
            rw [h0]
            exact fun h2 => hh h2.symm
          have hsel : (if items[n].hash ≠ h ∧ ei = none ∧ items[n].hash = 0 then some n
              else ei) = some n := by
            simp [hne0, hei, h0]
          have := ih1 n hsel
          rw [this] at hres
          simp at hres
        · have hsel : (if items[n].hash ≠ h ∧ ei = none ∧ items[n].hash = 0 then some n
              else ei) = none := by
            simp [hei, h0]
          by_cases hjn : j = n
          · subst hjn
            rw [hget] at hgetj
            simp only [Option.some.injEq] at hgetj
            subst hgetj
            exact h0
          · exact ih3 hsel hres j it2 (by omega) hgetj


/-! ### The rounds of emplace -/

theorem emplace_search_free (e : Params Key) (fuel : Nat) (k : Key) (h : Nat)
    (b : bucket_type Key T) (hlock : b.lock = 0) (hcount : b.count ≠ 0) :
    concurrent_unordered_map.emplace_search e (fuel + 1) k h b =
      Res.ok (b, (concurrent_unordered_map.emplace_loop e k h b.items b.items.length none).1,
        (concurrent_unordered_map.emplace_loop e k h b.items b.items.length none).2) := by
  simp only [concurrent_unordered_map.emplace_search, hcount, ne_eq, not_false_eq_true,
    if_true, hlock, lock_only_if_not_free]
  rw [bucket_lock_zero b hlock]

theorem emplace_search_count_zero (e : Params Key) (fuel : Nat) (k : Key) (h : Nat)
    (b : bucket_type Key T) (hcount : b.count = 0) :
    concurrent_unordered_map.emplace_search e fuel k h b =
      Res.ok (b, none, if b.items.isEmpty = false then some 0 else none) := by
  by_cases hemp : b.items.isEmpty = false <;>
    simp [concurrent_unordered_map.emplace_search, hcount, hemp]

theorem emplace_round_found (e : Params Key) (fuel : Nat) (m : concurrent_unordered_map Key T)
    (k : Key) (v : T) (b : bucket_type Key T) (off : Nat) (ei : Option Nat)
    (hb : m._buckets[concurrent_unordered_map._get_bucket m
      (concurrent_unordered_map.non_zero_hasher e k)]? = some b)
    (hsearch : concurrent_unordered_map.emplace_search e (fuel + 1) k
      (concurrent_unordered_map.non_zero_hasher e k) b = Res.ok (b, some off, ei)) :
    concurrent_unordered_map.emplace e (fuel + 1) m k v =
      Res.ok (m, ⟨concurrent_unordered_map._get_bucket m
        (concurrent_unordered_map.non_zero_hasher e k), off, 0⟩, false) := by
  have hne := buckets_nonempty_of_get m _ b hb
  simp only [concurrent_unordered_map.emplace, hne, if_false, hb, hsearch]
  rw [set_bucket_same m _ b hb]

theorem emplace_round_placed (e : Params Key) (fuel : Nat) (m : concurrent_unordered_map Key T)
    (k : Key) (v : T) (b b2 : bucket_type Key T) (off : Nat) (ei : Option Nat)
    (hb : m._buckets[concurrent_unordered_map._get_bucket m
      (concurrent_unordered_map.non_zero_hasher e k)]? = some b)
    (hlock : b.lock = 0)
    (hsearch : concurrent_unordered_map.emplace_search e (fuel + 1) k
      (concurrent_unordered_map.non_zero_hasher e k) b = Res.ok (b, none, ei))
    (hplace : concurrent_unordered_map.emplace_place k v
      (concurrent_unordered_map.non_zero_hasher e k) b ei = (b2, some off)) :
    concurrent_unordered_map.emplace e (fuel + 1) m k v =
      Res.ok (concurrent_unordered_map.set_bucket m
        (concurrent_unordered_map._get_bucket m (concurrent_unordered_map.non_zero_hasher e k))
        { b2 with lock := spinlockbase.unlock 1 },
        ⟨concurrent_unordered_map._get_bucket m
          (concurrent_unordered_map.non_zero_hasher e k), off, 0⟩, true) := by
  have hne := buckets_nonempty_of_get m _ b hb
  simp only [concurrent_unordered_map.emplace, hne, if_false, hb, hsearch, hlock,
    lock_only_if_not_free, hplace]

theorem mem_of_getElem?_some (items : List (item_type Key T)) (j : Nat) (it : item_type Key T)
    (hget : items[j]? = some it) : it ∈ items := by
  obtain ⟨hlt, heq⟩ := List.getElem?_eq_some.mp hget
  rw [← heq]
  exact List.getElem_mem hlt

/-- C4: when the bucket selected for `k` is free, its count is not 0 and slot `i0` of it
has the stored hash `wrap(hash(k))` and a key equal to `k`, `emplace(k, v)` returns in its
first round the pair (iterator bound to that bucket and to the highest such slot, false)
and leaves the whole map, every item sequence, value and count, as it was; the slot is
`i0` itself when no other slot of the bucket has both. -/
theorem emplace_existing_key_not_inserted (e : Params Key) (fuel : Nat)
    (m : concurrent_unordered_map Key T) (k : Key) (v : T) (b : bucket_type Key T)
    (i0 : Nat) (it0 : item_type Key T)
    (hb : m._buckets[concurrent_unordered_map.bucket e m k]? = some b)
    (hlock : b.lock = 0) (hcount : b.count ≠ 0)
    (hget : b.items[i0]? = some it0)
    (hhash : it0.hash = concurrent_unordered_map.non_zero_hasher e k)
    (hkey : e.key_equal k it0.p.1 = true) :
    ∃ off it,
      concurrent_unordered_map.emplace e (fuel + 1) m k v =
        Res.ok (m, ⟨concurrent_unordered_map.bucket e m k, off, 0⟩, false) ∧
      b.items[off]? = some it ∧
      it.hash = concurrent_unordered_map.non_zero_hasher e k ∧
      e.key_equal k it.p.1 = true ∧
      i0 ≤ off ∧
      (∀ j it2, off < j → b.items[j]? = some it2 →
        ¬ (it2.hash = concurrent_unordered_map.non_zero_hasher e k ∧
            e.key_equal k it2.p.1 = true)) ∧
      ((∀ j it2, b.items[j]? = some it2 →
          it2.hash = concurrent_unordered_map.non_zero_hasher e k →
          e.key_equal k it2.p.1 = true → j = i0) → off = i0) := by
  have hm0 : concurrent_unordered_map.slot_matches e k
      (concurrent_unordered_map.non_zero_hasher e k) it0 = true := by
    simp [concurrent_unordered_map.slot_matches, hhash, hkey]
  have hi0 : i0 < b.items.length := (List.getElem?_eq_some.mp hget).1
  obtain ⟨hfound, hnone⟩ := emplace_loop_found e k
    (concurrent_unordered_map.non_zero_hasher e k) b.items b.items.length none (le_refl _)
  cases hscan : (concurrent_unordered_map.emplace_loop e k
      (concurrent_unordered_map.non_zero_hasher e k) b.items b.items.length none).1 with
  | none =>
    have := hnone hscan i0 it0 hi0 hget
    rw [hm0] at this
    exact absurd this (by decide)
  | some off =>
    obtain ⟨hlt, ⟨it, hgetoff, hmatch⟩, hhigh⟩ := hfound off hscan
    have hsearch := emplace_search_free e fuel k
      (concurrent_unordered_map.non_zero_hasher e k) b hlock hcount
    rw [hscan] at hsearch
    have hround := emplace_round_found e fuel m k v b off _ hb hsearch
    simp only [concurrent_unordered_map.slot_matches, Bool.and_eq_true,
      decide_eq_true_eq] at hmatch
    have hle : i0 ≤ off := by
      by_contra hcon
      have := hhigh i0 it0 (by omega) hi0 hget
      rw [hm0] at this
      exact absurd this (by decide)
    refine ⟨off, it, hround, hgetoff, hmatch.1, hmatch.2, hle, ?_, ?_⟩
    · intro j it2 hj hgetj
      have hjlt : j < b.items.length := (List.getElem?_eq_some.mp hgetj).1
      have := hhigh j it2 hj hjlt hgetj
      simpa [concurrent_unordered_map.slot_matches] using this
    · intro huniq
      exact huniq off it hgetoff hmatch.1 hmatch.2


/-- Witness of C4: in the map of scenario B, `emplace(6, 99)` meets the key 6 in slot 1 of
bucket 0. -/
theorem emplace_existing_key_not_inserted_witness :
    ∃ off it,
      concurrent_unordered_map.emplace scenario_params 1 scenario_b_map 6 99 =
        Res.ok (scenario_b_map,
          ⟨concurrent_unordered_map.bucket scenario_params scenario_b_map 6, off, 0⟩, false) ∧
      scenario_b_bucket.items[off]? = some it ∧
      it.hash = concurrent_unordered_map.non_zero_hasher scenario_params 6 ∧
      scenario_params.key_equal 6 it.p.1 = true ∧
      1 ≤ off ∧
      (∀ j it2, off < j → scenario_b_bucket.items[j]? = some it2 →
        ¬ (it2.hash = concurrent_unordered_map.non_zero_hasher scenario_params 6 ∧
            scenario_params.key_equal 6 it2.p.1 = true)) ∧
      ((∀ j it2, scenario_b_bucket.items[j]? = some it2 →
          it2.hash = concurrent_unordered_map.non_zero_hasher scenario_params 6 →
          scenario_params.key_equal 6 it2.p.1 = true → j = 1) → off = 1) :=
  emplace_existing_key_not_inserted scenario_params 0 scenario_b_map 6 99 scenario_b_bucket
    1 ⟨(6, 60), 6⟩ (by decide) rfl (by decide) (by decide) (by decide) rfl

theorem emplace_place_spec (k : Key) (v : T) (h : Nat) (b : bucket_type Key T)
    (ei : Option Nat)
    (hei : ∀ idx, ei = some idx → ∃ it, b.items[idx]? = some it ∧ it.hash = 0) :
    ∃ b2 off, concurrent_unordered_map.emplace_place k v h b ei = (b2, some off) ∧
      b2.lock = b.lock ∧ b2.count = (b.count + 1) % 2 ^ UINT_BITS ∧
      b2.items[off]? = some ⟨(k, v), h⟩ ∧
      (∀ j, j ≠ off → b2.items[j]? = b.items[j]?) ∧
      (ei = none → off = b.items.length ∧ b2.items = b.items ++ [⟨(k, v), h⟩]) ∧
      (∀ idx, ei = some idx → off = idx ∧ b2.items = b.items.set idx ⟨(k, v), h⟩) := by
  cases ei with
  | none =>
    refine ⟨_, _, rfl, rfl, rfl, ?_, ?_, ?_, ?_⟩
    · simp
    · intro j hj
      simp only
      rcases Nat.lt_or_ge j b.items.length with hlt | hge
      · rw [List.getElem?_append_left hlt]
      · have hgt : b.items.length < j := by omega
        rw [List.getElem?_eq_none (by simp; omega), List.getElem?_eq_none (by omega)]
    · intro _
      exact ⟨rfl, rfl⟩
    · intro idx hidx
      simp at hidx
  | some idx =>
    obtain ⟨it, hget, hzero⟩ := hei idx rfl
    have hlt : idx < b.items.length := (List.getElem?_eq_some.mp hget).1
    refine ⟨{ b with items := b.items.set idx ⟨(k, v), h⟩,
                       count := (b.count + 1) % 2 ^ UINT_BITS }, idx, ?_, rfl, rfl, ?_, ?_, ?_, ?_⟩
    · simp [concurrent_unordered_map.emplace_place, hget, hzero]
    · simp [List.getElem?_set_self hlt]
    · intro j hj
      simp [List.getElem?_set_ne (Ne.symm hj)]
    · intro hcon
      simp at hcon
    · intro idx2 hidx2
      simp only [Option.some.injEq] at hidx2
      subst hidx2
      exact ⟨rfl, rfl⟩


theorem emplace_search_absent (e : Params Key) (fuel : Nat) (k : Key) (b : bucket_type Key T)
    (hbits : 0 < e.bits) (hlock : b.lock = 0)
    (hinv : b.count = 0 → ∀ it ∈ b.items, it.hash = 0)
    (habsent : ∀ it ∈ b.items,
      ¬ (it.hash = concurrent_unordered_map.non_zero_hasher e k ∧
          e.key_equal k it.p.1 = true)) :
    ∃ ei, concurrent_unordered_map.emplace_search e (fuel + 1) k
        (concurrent_unordered_map.non_zero_hasher e k) b = Res.ok (b, none, ei) ∧
      ∀ idx, ei = some idx → ∃ it, b.items[idx]? = some it ∧ it.hash = 0 := by
  by_cases hcount : b.count = 0
  · rw [emplace_search_count_zero e (fuel + 1) k _ b hcount]
    refine ⟨_, rfl, ?_⟩
    intro idx hidx
    cases hitems : b.items with
    | nil => simp [hitems] at hidx
    | cons it rest =>
      simp only [hitems, List.isEmpty_cons, if_true, Option.some.injEq] at hidx
      subst hidx
      refine ⟨it, by simp, ?_⟩
      apply hinv hcount
      simp [hitems]
  · rw [emplace_search_free e fuel k _ b hlock hcount]
    obtain ⟨hfound, _⟩ := emplace_loop_found e k
      (concurrent_unordered_map.non_zero_hasher e k) b.items b.items.length none (le_refl _)
    have hnone : (concurrent_unordered_map.emplace_loop e k
        (concurrent_unordered_map.non_zero_hasher e k) b.items b.items.length none).1 = none := by
      cases hscan : (concurrent_unordered_map.emplace_loop e k
          (concurrent_unordered_map.non_zero_hasher e k) b.items b.items.length none).1 with
      | none => rfl
      | some off =>
        obtain ⟨_, ⟨it, hget, hmatch⟩, _⟩ := hfound off hscan
        simp only [concurrent_unordered_map.slot_matches, Bool.and_eq_true,
          decide_eq_true_eq] at hmatch
        exact absurd hmatch (habsent it (mem_of_getElem?_some b.items off it hget))
    rw [hnone]
    refine ⟨_, rfl, ?_⟩
    intro idx hidx
    obtain ⟨_, h2, _⟩ := emplace_loop_emptyidx e k _ (non_zero_hasher_ne_zero e k hbits)
      b.items b.items.length none (le_refl _) hnone
    exact (h2 rfl idx hidx).2.1

theorem set_bucket_get (m : concurrent_unordered_map Key T) (i : Nat) (b : bucket_type Key T)
    (hi : i < m._buckets.length) :
    (concurrent_unordered_map.set_bucket m i b)._buckets[i]? = some b := by
  simp [concurrent_unordered_map.set_bucket, List.getElem?_set_self hi]

theorem set_bucket_length (m : concurrent_unordered_map Key T) (i : Nat)
    (b : bucket_type Key T) :
    (concurrent_unordered_map.set_bucket m i b)._buckets.length = m._buckets.length := by
  simp [concurrent_unordered_map.set_bucket]

/-- C5: single-threaded, when the bucket selected for `k` is free, no slot of it has the
stored hash `wrap(hash(k))` together with a key equal to `k`, a count of 0 goes with empty
slots only and the count can grow by one, then `emplace(k, v)` returns in its first round
(iterator bound to (that bucket, `off`), true), slot `off` of the bucket then holds
`(k, v, wrap(hash(k)))`, and `find(k)` on the resulting map returns in its first round an
iterator bound to the same bucket and slot, which is not the end iterator. The key
predicate is taken to hold of `k` and `k`; the user hash of `k` may be 0. -/
theorem emplace_absent_key_then_find (e : Params Key) (fuel fuel2 : Nat)
    (m : concurrent_unordered_map Key T) (k : Key) (v : T) (b : bucket_type Key T)
    (hbits : 0 < e.bits)
    (hb : m._buckets[concurrent_unordered_map.bucket e m k]? = some b)
    (hlock : b.lock = 0)
    (hinv : b.count = 0 → ∀ it ∈ b.items, it.hash = 0)
    (hroom : b.count + 1 < 2 ^ UINT_BITS)
    (habsent : ∀ it ∈ b.items,
      ¬ (it.hash = concurrent_unordered_map.non_zero_hasher e k ∧
          e.key_equal k it.p.1 = true))
    (hrefl : e.key_equal k k = true) :
    ∃ m2 b2 off,
      concurrent_unordered_map.emplace e (fuel + 1) m k v =
        Res.ok (m2, ⟨concurrent_unordered_map.bucket e m k, off, 0⟩, true) ∧
      m2._buckets[concurrent_unordered_map.bucket e m k]? = some b2 ∧
      b2.items[off]? = some ⟨(k, v), concurrent_unordered_map.non_zero_hasher e k⟩ ∧
      concurrent_unordered_map.find e (fuel2 + 1) m2 k =
        Res.ok (m2, ⟨concurrent_unordered_map.bucket e m k, off, 0⟩) ∧
      (⟨concurrent_unordered_map.bucket e m k, off, 0⟩ : iterator) ≠
        concurrent_unordered_map.end_ e m2 := by
  have hb2 : m._buckets[concurrent_unordered_map._get_bucket m
      (concurrent_unordered_map.non_zero_hasher e k)]? = some b := hb
  have hilt : concurrent_unordered_map._get_bucket m
      (concurrent_unordered_map.non_zero_hasher e k) < m._buckets.length :=
    (List.getElem?_eq_some.mp hb2).1
  obtain ⟨ei, hsearch, hei⟩ := emplace_search_absent e fuel k b hbits hlock hinv habsent
  obtain ⟨b1, off, hplace, hl1, hc1, hnew, hold, _, _⟩ :=
    emplace_place_spec k v (concurrent_unordered_map.non_zero_hasher e k) b ei hei
  have hround := emplace_round_placed e fuel m k v b b1 off ei hb2 hlock hsearch hplace
  have hget2 := set_bucket_get m _ { b1 with lock := spinlockbase.unlock 1 } hilt
  have hlen2 := set_bucket_length m (concurrent_unordered_map._get_bucket m
      (concurrent_unordered_map.non_zero_hasher e k)) { b1 with lock := spinlockbase.unlock 1 }
  refine ⟨_, { b1 with lock := spinlockbase.unlock 1 }, off, hround, hget2, hnew, ?_, ?_⟩
  · have hidx : concurrent_unordered_map._get_bucket
        (concurrent_unordered_map.set_bucket m (concurrent_unordered_map._get_bucket m
          (concurrent_unordered_map.non_zero_hasher e k))
          { b1 with lock := spinlockbase.unlock 1 })
        (concurrent_unordered_map.non_zero_hasher e k) =
        concurrent_unordered_map._get_bucket m
          (concurrent_unordered_map.non_zero_hasher e k) := by
      unfold concurrent_unordered_map._get_bucket
      rw [set_bucket_length]
    have hget3 : (concurrent_unordered_map.set_bucket m (concurrent_unordered_map._get_bucket m
          (concurrent_unordered_map.non_zero_hasher e k))
          { b1 with lock := spinlockbase.unlock 1 })._buckets[
        concurrent_unordered_map._get_bucket
          (concurrent_unordered_map.set_bucket m (concurrent_unordered_map._get_bucket m
            (concurrent_unordered_map.non_zero_hasher e k))
            { b1 with lock := spinlockbase.unlock 1 })
          (concurrent_unordered_map.non_zero_hasher e k)]? =
        some { b1 with lock := spinlockbase.unlock 1 } := by
      rw [hidx]
      exact hget2
    have hcnt : ({ b1 with lock := spinlockbase.unlock 1 } : bucket_type Key T).count ≠ 0 := by
      show b1.count ≠ 0
      rw [hc1, Nat.mod_eq_of_lt hroom]
      omega
    have hfind := find_round_free e fuel2 _ k _ hget3 rfl hcnt
    have hscan : concurrent_unordered_map.find_loop e k
        (concurrent_unordered_map.non_zero_hasher e k) b1.items 0 = some (0 + off) := by
      apply find_loop_of_lowest e k _ b1.items 0 off _ hnew
      · simp [concurrent_unordered_map.slot_matches, hrefl]
      · intro j it2 hj hgetj
        rw [hold j (by omega)] at hgetj
        have := habsent it2 (mem_of_getElem?_some b.items j it2 hgetj)
        simpa [concurrent_unordered_map.slot_matches] using this
    simp only [hscan, Nat.zero_add, hidx] at hfind
    exact hfind
  · intro hcon
    have h1 := congrArg iterator._itb hcon
    simp only [concurrent_unordered_map.end_, hlen2] at h1
    have : concurrent_unordered_map.bucket e m k < m._buckets.length := hilt
    omega


/-- Witness of C5: scenario A and C, the key 0, whose user hash is 0, put into a fresh
3-bucket map. -/
theorem emplace_absent_key_then_find_witness :
    ∃ m2 b2 off,
      concurrent_unordered_map.emplace scenario_params 1
          (concurrent_unordered_map.new_n 3 : concurrent_unordered_map Nat Nat) 0 97 =
        Res.ok (m2, ⟨concurrent_unordered_map.bucket scenario_params
          (concurrent_unordered_map.new_n 3 : concurrent_unordered_map Nat Nat) 0, off, 0⟩,
          true) ∧
      m2._buckets[concurrent_unordered_map.bucket scenario_params
        (concurrent_unordered_map.new_n 3 : concurrent_unordered_map Nat Nat) 0]? = some b2 ∧
      b2.items[off]? =
        some ⟨(0, 97), concurrent_unordered_map.non_zero_hasher scenario_params 0⟩ ∧
      concurrent_unordered_map.find scenario_params 1 m2 0 =
        Res.ok (m2, ⟨concurrent_unordered_map.bucket scenario_params
          (concurrent_unordered_map.new_n 3 : concurrent_unordered_map Nat Nat) 0, off, 0⟩) ∧
      (⟨concurrent_unordered_map.bucket scenario_params
        (concurrent_unordered_map.new_n 3 : concurrent_unordered_map Nat Nat) 0, off, 0⟩ :
          iterator) ≠ concurrent_unordered_map.end_ scenario_params m2 :=
  emplace_absent_key_then_find scenario_params 0 0
    (concurrent_unordered_map.new_n 3 : concurrent_unordered_map Nat Nat) 0 97 bucket_type.new
    (by decide) (by decide) rfl (fun _ it hit => absurd hit (List.not_mem_nil it))
    (by decide) (fun it hit => absurd hit (List.not_mem_nil it)) rfl

/-! ### What the operations touch -/

theorem lock_only_if_not_spin (x w : Nat) (hw : w ≠ 0) (hx : w ≠ x) (fuel n : Nat) :
    spinlock.lock_only_if_not no_spurious x fuel n w = Res.fuel_out := by
  induction fuel generalizing n with
  | zero => rfl
  | succ fuel ih =>
    simp only [spinlock.lock_only_if_not, spinlockbase.try_lock_expected, hw, ne_eq,
      not_false_eq_true, if_true, Bool.false_eq_true, if_false, hx]
    exact ih (n + 1)

theorem lock_only_if_not_result (fuel w w2 : Nat) (r : Bool)
    (h : spinlock.lock_only_if_not no_spurious 2 fuel 0 w = Res.ok (r, w2)) :
    (r = true ∧ w = 0 ∧ w2 = 1) ∨ (r = false ∧ w = 2 ∧ w2 = 2) := by
  cases fuel with
  | zero => simp [spinlock.lock_only_if_not] at h
  | succ fuel =>
    by_cases h0 : w = 0
    · subst h0
      rw [lock_only_if_not_free] at h
      simp only [Res.ok.injEq, Prod.mk.injEq] at h
      exact Or.inl ⟨h.1.symm, rfl, h.2.symm⟩
    · by_cases h2 : w = 2
      · subst h2
        rw [lock_only_if_not_sentinel fuel 2 (by decide)] at h
        simp only [Res.ok.injEq, Prod.mk.injEq] at h
        exact Or.inr ⟨h.1.symm, rfl, h.2.symm⟩
      · rw [lock_only_if_not_spin 2 w h0 h2] at h
        exact absurd h (by simp)

theorem bucket_lock_same (b : bucket_type Key T) (w : Nat) (hlock : b.lock = w) :
    ({ b with lock := w } : bucket_type Key T) = b := by
  obtain ⟨l, c, its⟩ := b
  simp only at hlock
  simp [hlock]

/-- Whenever `find` returns, the map is as before and the iterator is the end iterator or
is bound to the bucket `bucket(k)`. -/
theorem find_frame (e : Params Key) (fuel : Nat) (m m2 : concurrent_unordered_map Key T)
    (k : Key) (it : iterator)
    (hres : concurrent_unordered_map.find e fuel m k = Res.ok (m2, it)) :
    m2 = m ∧ (it = concurrent_unordered_map.end_ e m ∨
      (it._itb = concurrent_unordered_map.bucket e m k ∧ it._pending_incr = 0)) := by
  induction fuel with
  | zero => simp [concurrent_unordered_map.find] at hres
  | succ fuel ih =>
    unfold concurrent_unordered_map.find at hres
    simp only at hres
    split at hres
    · exact absurd hres (by simp)
    · split at hres
      · exact absurd hres (by simp)
      · rename_i b hb
        split at hres
        · split at hres
          · rename_i w hlk
            rcases lock_only_if_not_result _ _ _ _ hlk with ⟨_, h0, _⟩ | ⟨hf, _, _⟩
            · rw [bucket_lock_zero b h0, set_bucket_same m _ b hb] at hres
              split at hres
              · simp only [Res.ok.injEq, Prod.mk.injEq] at hres
                refine ⟨hres.1.symm, Or.inr ?_⟩
                rw [← hres.2]
                exact ⟨rfl, rfl⟩
              · simp only [Res.ok.injEq, Prod.mk.injEq] at hres
                exact ⟨hres.1.symm, Or.inl hres.2.symm⟩
            · exact absurd hf (by decide)
          · rename_i w hlk
            rcases lock_only_if_not_result _ _ _ _ hlk with ⟨hf, _, _⟩ | ⟨_, h2, hw⟩
            · exact absurd hf (by decide)
            · rw [bucket_lock_same b w (by rw [h2, hw]), set_bucket_same m _ b hb] at hres
              exact ih hres
          · exact absurd hres (by simp)
          · exact absurd hres (by simp)
          · exact absurd hres (by simp)
        · exact ih hres


theorem set_bucket_get_ne (m : concurrent_unordered_map Key T) (i j : Nat)
    (b : bucket_type Key T) (hj : j ≠ i) :
    (concurrent_unordered_map.set_bucket m i b)._buckets[j]? = m._buckets[j]? := by
  simp [concurrent_unordered_map.set_bucket, List.getElem?_set_ne (Ne.symm hj)]

theorem bucket_set_bucket (e : Params Key) (m : concurrent_unordered_map Key T) (i : Nat)
    (b : bucket_type Key T) (k : Key) :
    concurrent_unordered_map.bucket e (concurrent_unordered_map.set_bucket m i b) k =
      concurrent_unordered_map.bucket e m k := by
  unfold concurrent_unordered_map.bucket
  rw [set_bucket_length]

/-- Whenever `emplace` returns, its iterator is bound to the bucket `bucket(k)` and no
other bucket has changed. -/
theorem emplace_frame (e : Params Key) (fuel : Nat) (m m2 : concurrent_unordered_map Key T)
    (k : Key) (v : T) (it : iterator) (ins : Bool)
    (hres : concurrent_unordered_map.emplace e fuel m k v = Res.ok (m2, it, ins)) :
    it._itb = concurrent_unordered_map.bucket e m k ∧ it._pending_incr = 0 ∧
    m2._buckets.length = m._buckets.length ∧
    ∀ j, j ≠ concurrent_unordered_map.bucket e m k → m2._buckets[j]? = m._buckets[j]? := by
  induction fuel generalizing m with
  | zero => simp [concurrent_unordered_map.emplace] at hres
  | succ fuel ih =>
    have hrec : ∀ bx : bucket_type Key T,
        concurrent_unordered_map.emplace e fuel
          (concurrent_unordered_map.set_bucket m (concurrent_unordered_map._get_bucket m
            (concurrent_unordered_map.non_zero_hasher e k)) bx) k v = Res.ok (m2, it, ins) →
        it._itb = concurrent_unordered_map.bucket e m k ∧ it._pending_incr = 0 ∧
        m2._buckets.length = m._buckets.length ∧
        ∀ j, j ≠ concurrent_unordered_map.bucket e m k →
          m2._buckets[j]? = m._buckets[j]? := by
      intro bx hx
      obtain ⟨h1, h2, h3, h4⟩ := ih _ hx
      rw [bucket_set_bucket] at h1 h4
      rw [set_bucket_length] at h3
      refine ⟨h1, h2, h3, ?_⟩
      intro j hj
      rw [h4 j hj]
      exact set_bucket_get_ne m _ j bx hj
    have hdone : ∀ (bx : bucket_type Key T) (off : Nat) (flag : Bool),
        (Res.ok (concurrent_unordered_map.set_bucket m (concurrent_unordered_map._get_bucket m
            (concurrent_unordered_map.non_zero_hasher e k)) bx,
          (⟨concurrent_unordered_map._get_bucket m
            (concurrent_unordered_map.non_zero_hasher e k), off, 0⟩ : iterator), flag) :
          Res (concurrent_unordered_map Key T × iterator × Bool)) = Res.ok (m2, it, ins) →
        it._itb = concurrent_unordered_map.bucket e m k ∧ it._pending_incr = 0 ∧
        m2._buckets.length = m._buckets.length ∧
        ∀ j, j ≠ concurrent_unordered_map.bucket e m k →
          m2._buckets[j]? = m._buckets[j]? := by
      intro bx off flag hx
      simp only [Res.ok.injEq, Prod.mk.injEq] at hx
      obtain ⟨hm2, hit, _⟩ := hx
      subst hm2
      subst hit
      refine ⟨rfl, rfl, set_bucket_length m _ bx, ?_⟩
      intro j hj
      exact set_bucket_get_ne m _ j bx hj
    unfold concurrent_unordered_map.emplace at hres
    simp only at hres
    split at hres
    · exact absurd hres (by simp)
    · split at hres
      · exact absurd hres (by simp)
      · split at hres
        · exact hdone _ _ _ hres
        · split at hres
          · split at hres
            · exact hdone _ _ _ hres
            · exact hrec _ hres
          · exact hrec _ hres
          · exact absurd hres (by simp)
          · exact absurd hres (by simp)
          · exact absurd hres (by simp)
        · exact absurd hres (by simp)
        · exact absurd hres (by simp)
        · exact absurd hres (by simp)

/-- Whenever `erase(key)` returns, it has erased at most one item and no bucket other than
`bucket(k)` has changed. -/
theorem erase_frame (e : Params Key) (fuel : Nat) (m m2 : concurrent_unordered_map Key T)
    (k : Key) (n : Nat)
    (hres : concurrent_unordered_map.erase e fuel m k = Res.ok (m2, n)) :
    n ≤ 1 ∧ m2._buckets.length = m._buckets.length ∧
    ∀ j, j ≠ concurrent_unordered_map.bucket e m k → m2._buckets[j]? = m._buckets[j]? := by
  induction fuel generalizing m with
  | zero => simp [concurrent_unordered_map.erase] at hres
  | succ fuel ih =>
    have hdone : ∀ (bx : bucket_type Key T) (c : Nat), c ≤ 1 →
        (Res.ok (concurrent_unordered_map.set_bucket m (concurrent_unordered_map._get_bucket m
            (concurrent_unordered_map.non_zero_hasher e k)) bx, c) :
          Res (concurrent_unordered_map Key T × Nat)) = Res.ok (m2, n) →
        n ≤ 1 ∧ m2._buckets.length = m._buckets.length ∧
        ∀ j, j ≠ concurrent_unordered_map.bucket e m k →
          m2._buckets[j]? = m._buckets[j]? := by
      intro bx c hc hx
      simp only [Res.ok.injEq, Prod.mk.injEq] at hx
      obtain ⟨hm2, hn⟩ := hx
      subst hm2
      subst hn
      refine ⟨hc, set_bucket_length m _ bx, ?_⟩
      intro j hj
      exact set_bucket_get_ne m _ j bx hj
    unfold concurrent_unordered_map.erase at hres
    simp only at hres
    split at hres
    · exact absurd hres (by simp)
    · split at hres
      · exact absurd hres (by simp)
      · split at hres
        · split at hres
          · split at hres
            · exact hdone _ 1 (le_refl _) hres
            · exact hdone _ 0 (by omega) hres
          · obtain ⟨h1, h3, h4⟩ := ih _ hres
            rw [bucket_set_bucket] at h4
            rw [set_bucket_length] at h3
            refine ⟨h1, h3, ?_⟩
            intro j hj
            rw [h4 j hj]
            exact set_bucket_get_ne m _ j _ hj
          · exact absurd hres (by simp)
          · exact absurd hres (by simp)
          · exact absurd hres (by simp)
        · exact ih _ hres


/-- C8: in a map with at least one bucket, `bucket(k)` is `wrap(hash(k))` modulo the
bucket count, an index below the bucket count, and the index `_get_bucket` computes from
the wrapped hash, which is the bucket the operations work on: an iterator `find` or
`emplace` returns is bound to it (or is the end iterator), and `emplace` and `erase`
leave every other bucket as it was. For a key with user hash 0, 64-bit words and 3
buckets it is `(2 ^ 64 - 1) % 3`. -/
theorem bucket_is_wrapped_hash_mod_bucket_count (e : Params Key)
    (m : concurrent_unordered_map Key T) (k : Key)
    (hn : 1 ≤ concurrent_unordered_map.bucket_count m) :
    concurrent_unordered_map.bucket e m k =
      concurrent_unordered_map.non_zero_hasher e k % concurrent_unordered_map.bucket_count m ∧
    concurrent_unordered_map.bucket e m k =
      concurrent_unordered_map._get_bucket m (concurrent_unordered_map.non_zero_hasher e k) ∧
    concurrent_unordered_map.bucket e m k < concurrent_unordered_map.bucket_count m ∧
    (∀ fuel m2 it, concurrent_unordered_map.find e fuel m k = Res.ok (m2, it) →
      it = concurrent_unordered_map.end_ e m ∨
        it._itb = concurrent_unordered_map.bucket e m k) ∧
    (∀ fuel v m2 it ins, concurrent_unordered_map.emplace e fuel m k v = Res.ok (m2, it, ins) →
      it._itb = concurrent_unordered_map.bucket e m k ∧
      ∀ j, j ≠ concurrent_unordered_map.bucket e m k → m2._buckets[j]? = m._buckets[j]?) ∧
    (∀ fuel m2 n, concurrent_unordered_map.erase e fuel m k = Res.ok (m2, n) →
      ∀ j, j ≠ concurrent_unordered_map.bucket e m k → m2._buckets[j]? = m._buckets[j]?) ∧
    (e.bits = 64 → e.hasher k = 0 → concurrent_unordered_map.bucket_count m = 3 →
      concurrent_unordered_map.bucket e m k = (2 ^ 64 - 1) % 3) := by
  refine ⟨rfl, rfl, ?_, ?_, ?_, ?_, ?_⟩
  · exact Nat.mod_lt _ hn
  · intro fuel m2 it hres
    rcases (find_frame e fuel m m2 k it hres).2 with h | h
    · exact Or.inl h
    · exact Or.inr h.1
  · intro fuel v m2 it ins hres
    obtain ⟨h1, _, _, h4⟩ := emplace_frame e fuel m m2 k v it ins hres
    exact ⟨h1, h4⟩
  · intro fuel m2 n hres
    exact (erase_frame e fuel m m2 k n hres).2.2
  · intro hbits hzero hcount
    simp only [concurrent_unordered_map.bucket_count] at hcount
    simp [concurrent_unordered_map.bucket, concurrent_unordered_map.non_zero_hasher,
      SIZE_MAX, hbits, hzero, hcount]

/-- Witness of C8: the key 0 in a fresh 3-bucket map with 64-bit words. -/
theorem bucket_is_wrapped_hash_mod_bucket_count_witness :
    1 ≤ concurrent_unordered_map.bucket_count
      (concurrent_unordered_map.new_n 3 : concurrent_unordered_map Nat Nat) ∧
    concurrent_unordered_map.bucket scenario_params
      (concurrent_unordered_map.new_n 3 : concurrent_unordered_map Nat Nat) 0 =
        (2 ^ 64 - 1) % 3 :=
  ⟨by decide,
    (bucket_is_wrapped_hash_mod_bucket_count scenario_params
      (concurrent_unordered_map.new_n 3 : concurrent_unordered_map Nat Nat) 0
      (by decide)).2.2.2.2.2.2 rfl rfl rfl⟩

/-! ### The rounds of erase -/

theorem erase_round_count_zero (e : Params Key) (fuel : Nat)
    (m : concurrent_unordered_map Key T) (k : Key) (b : bucket_type Key T)
    (hb : m._buckets[concurrent_unordered_map._get_bucket m
      (concurrent_unordered_map.non_zero_hasher e k)]? = some b)
    (hcount : b.count = 0) :
    concurrent_unordered_map.erase e fuel m k = Res.fuel_out := by
  induction fuel with
  | zero => rfl
  | succ fuel ih =>
    have hne := buckets_nonempty_of_get m _ b hb
    simp only [concurrent_unordered_map.erase, hne, if_false, hb, hcount, ne_eq,
      not_true_eq_false]
    exact ih

theorem erase_round_free (e : Params Key) (fuel : Nat) (m : concurrent_unordered_map Key T)
    (k : Key) (b : bucket_type Key T)
    (hb : m._buckets[concurrent_unordered_map._get_bucket m
      (concurrent_unordered_map.non_zero_hasher e k)]? = some b)
    (hlock : b.lock = 0) (hcount : b.count ≠ 0) :
    concurrent_unordered_map.erase e (fuel + 1) m k =
      match concurrent_unordered_map.find_loop e k
          (concurrent_unordered_map.non_zero_hasher e k) b.items 0 with
      | some offset =>
        Res.ok (concurrent_unordered_map.set_bucket m
          (concurrent_unordered_map._get_bucket m (concurrent_unordered_map.non_zero_hasher e k))
          { concurrent_unordered_map.erase_slot b offset with lock := spinlockbase.unlock 1 }, 1)
      | none => Res.ok (m, 0) := by
  have hne := buckets_nonempty_of_get m _ b hb
  simp only [concurrent_unordered_map.erase, hne, if_false, hb, hcount, ne_eq,
    not_false_eq_true, if_true, hlock, lock_only_if_not_free]
  cases concurrent_unordered_map.find_loop e k
      (concurrent_unordered_map.non_zero_hasher e k) b.items 0 with
  | some offset => rfl
  | none =>
    simp only
    rw [bucket_lock_zero b hlock, set_bucket_same m _ b hb]

theorem erase_fresh_fuel_out (e : Params Key) (n fuel : Nat) (k : Key) :
    concurrent_unordered_map.erase e fuel
      (concurrent_unordered_map.new_n n : concurrent_unordered_map Key T) k = Res.fuel_out := by
  apply erase_round_count_zero e fuel _ k bucket_type.new
  · simp only [concurrent_unordered_map.new_n, concurrent_unordered_map._get_bucket,
      List.length_replicate]
    apply fresh_bucket_get
    split <;> omega
  · rfl

/-- C6 (code defect): `erase(key)` sets `done` only inside `if(b.count.load(...))`, so on a
bucket whose count is 0 it does not return: on every freshly constructed map, for every
key and every step budget, `erase(k)` runs out of budget where the claim has it return 0.
In scenario A (3 buckets, identity hasher) `insert(0)` returns true and `erase(0)` then
returns 1 and leaves the fresh map behind, on which the closing `find(0)` does not return
either, where the claim has it return end. -/
theorem erase_on_count_zero_never_returns :
    (∀ (n fuel k : Nat),
      concurrent_unordered_map.erase scenario_params fuel
        (concurrent_unordered_map.new_n n : concurrent_unordered_map Nat Nat) k =
          Res.fuel_out) ∧
    concurrent_unordered_map.emplace scenario_params 1
        (concurrent_unordered_map.new_n 3 : concurrent_unordered_map Nat Nat) 0 97 =
      Res.ok (⟨0, [⟨0, 1, [⟨(0, 97), 2 ^ 64 - 1⟩]⟩, bucket_type.new, bucket_type.new]⟩,
        ⟨0, 0, 0⟩, true) ∧
    concurrent_unordered_map.erase scenario_params 1
        (⟨0, [⟨0, 1, [⟨(0, 97), 2 ^ 64 - 1⟩]⟩, bucket_type.new, bucket_type.new]⟩ :
          concurrent_unordered_map Nat Nat) 0 =
      Res.ok (concurrent_unordered_map.new_n 3, 1) ∧
    (∀ fuel : Nat,
      concurrent_unordered_map.find scenario_params fuel
        (concurrent_unordered_map.new_n 3 : concurrent_unordered_map Nat Nat) 0 =
          Res.fuel_out) := by
  refine ⟨?_, by decide, by decide, ?_⟩
  · intro n fuel k
    exact erase_fresh_fuel_out scenario_params n fuel k
  · intro fuel
    exact find_fresh_fuel_out scenario_params 3 fuel 0

/-! ### Comparison with the reference map -/

theorem run_op_find_fresh (e : Params Key) (n fuel : Nat) (k : Key) :
    run_op e fuel (concurrent_unordered_map.new_n n : concurrent_unordered_map Key T)
      (Op.find k) = Res.fuel_out := by
  simp [run_op, find_fresh_fuel_out]

theorem run_ops_find_fresh (e : Params Key) (n fuel : Nat) (k : Key) (ops : List (Op Key T)) :
    run_ops e fuel (concurrent_unordered_map.new_n n : concurrent_unordered_map Key T)
      (Op.find k :: ops) = Res.fuel_out := by
  simp [run_ops, run_op, find_fresh_fuel_out]

/-- C1 (code defect): the single-threaded comparison with the reference map fails at once.
On a default-constructed map the one-operation sequence `find(0)` does not return for any
step budget, while the reference reports a miss; and in the sequence `insert(0, 97)`,
`erase(0)`, `find(0)` on a fresh 3-bucket map the map agrees with the reference on the
first two results (true, 1) and then does not return from `find(0)`, for any budget. -/
theorem map_does_not_refine_reference :
    (∀ fuel : Nat,
      run_ops scenario_params fuel
        (concurrent_unordered_map.new : concurrent_unordered_map Nat Nat) [Op.find 0] =
          Res.fuel_out) ∧
    reference_run scenario_params ([] : List (Nat × Nat)) [Op.find 0] = [Ret.found none] ∧
    run_ops scenario_params 1
        (concurrent_unordered_map.new_n 3 : concurrent_unordered_map Nat Nat)
        [Op.insert 0 97, Op.erase 0] =
      Res.ok (concurrent_unordered_map.new_n 3, [Ret.inserted true, Ret.erased 1]) ∧
    (∀ fuel : Nat,
      run_ops scenario_params fuel
        (concurrent_unordered_map.new_n 3 : concurrent_unordered_map Nat Nat)
        [Op.insert 0 97, Op.erase 0, Op.find 0] = Res.fuel_out) ∧
    reference_run scenario_params ([] : List (Nat × Nat))
        [Op.insert 0 97, Op.erase 0, Op.find 0] =
      [Ret.inserted true, Ret.erased 1, Ret.found none] := by
  refine ⟨?_, by decide, by decide, ?_, by decide⟩
  · intro fuel
    exact run_ops_find_fresh scenario_params 13 fuel 0 []
  · intro fuel
    cases fuel with
    | zero => decide
    | succ fuel =>
      have h1 : run_op scenario_params (fuel + 1)
          (concurrent_unordered_map.new_n 3 : concurrent_unordered_map Nat Nat)
          (Op.insert 0 97) =
          Res.ok (⟨0, [⟨0, 1, [⟨(0, 97), 2 ^ 64 - 1⟩]⟩, bucket_type.new, bucket_type.new]⟩,
            Ret.inserted true) := by
        have := emplace_round_placed scenario_params fuel
          (concurrent_unordered_map.new_n 3 : concurrent_unordered_map Nat Nat) 0 97
          bucket_type.new ⟨0, 1, [⟨(0, 97), 2 ^ 64 - 1⟩]⟩ 0 none (by decide) rfl
          (emplace_search_count_zero scenario_params (fuel + 1) 0 _ bucket_type.new rfl)
          (by decide)
        simp only [run_op, concurrent_unordered_map.insert, this]
        decide
      have h2 : run_op scenario_params (fuel + 1)
          (⟨0, [⟨0, 1, [⟨(0, 97), 2 ^ 64 - 1⟩]⟩, bucket_type.new, bucket_type.new]⟩ :
            concurrent_unordered_map Nat Nat) (Op.erase 0) =
          Res.ok (concurrent_unordered_map.new_n 3, Ret.erased 1) := by
        have := erase_round_free scenario_params fuel
          (⟨0, [⟨0, 1, [⟨(0, 97), 2 ^ 64 - 1⟩]⟩, bucket_type.new, bucket_type.new]⟩ :
            concurrent_unordered_map Nat Nat) 0 ⟨0, 1, [⟨(0, 97), 2 ^ 64 - 1⟩]⟩
          (by decide) rfl (by decide)
        simp only [run_op, this]
        decide
      have h3 : run_op scenario_params (fuel + 1)
          (concurrent_unordered_map.new_n 3 : concurrent_unordered_map Nat Nat) (Op.find 0) =
          Res.fuel_out := run_op_find_fresh scenario_params 3 (fuel + 1) 0
      simp only [run_ops, h1, h2, h3]

/-! ### The conditional lock and the back-off stages -/

theorem lock_only_if_not_held_sentinel (sp : Nat → Bool) (x fuel n : Nat) (hx : x ≠ 0) :
    spinlock.lock_only_if_not sp x (fuel + 1) n x = Res.ok (false, x) := by
  simp [spinlock.lock_only_if_not, spinlockbase.try_lock_expected, hx]

theorem lock_only_if_not_acquires (sp : Nat → Bool) (x : Nat) (hx : x ≠ 0) (n0 : Nat)
    (hsp : sp n0 = false) (fuel n : Nat) (hle : n ≤ n0) (hlt : n0 < n + fuel) :
    spinlock.lock_only_if_not sp x fuel n 0 = Res.ok (true, 1) := by
  induction fuel generalizing n with
  | zero => omega
  | succ fuel ih =>
    by_cases hn : sp n = false
    · simp [spinlock.lock_only_if_not, spinlockbase.try_lock_expected, compare_exchange_weak,
        hn]
    · have hne : n ≠ n0 := by
        intro h
        rw [h] at hn
        exact hn hsp
      have hx0 : ¬ (0 = x) := fun h => hx h.symm
      have hn2 : sp n = true := by simpa using hn
      simp only [spinlock.lock_only_if_not, spinlockbase.try_lock_expected,
        compare_exchange_weak, hn2, ne_eq, not_true_eq_false, if_false,
        Bool.true_eq_false, and_false, Bool.false_eq_true, hx0]
      exact ih (n + 1) (by omega) (by omega)

/-- C11 (code defect): `lock(only_if_not = 0)` called on a word holding 0, the very value
it is told not to lock at, acquires: it returns true and leaves the word 1, where the
comment of the method has it return false. The test of `try_lock(expected)` comes before
the comparison of `expected` with `only_if_not_this`. -/
theorem lock_only_if_not_zero_acquires :
    spinlock.lock_only_if_not no_spurious 0 1 0 0 = Res.ok (true, 1) ∧
    ¬ (∀ x : Nat, spinlock.lock_only_if_not no_spurious x 1 0 x = Res.ok (false, x)) := by
  refine ⟨by decide, ?_⟩
  intro h
  have h0 := h 0
  revert h0
  decide

/-- For a nonzero `X` the method does what its comment says: `lock(only_if_not = X)`
called while the word holds `X` returns false at its first attempt, whatever the compare-exchange would do, and leaves the
word equal to `X`; called while the word holds 0 it returns true with the word set to 1 at
the first attempt whose compare-exchange does not fail spuriously. -/
theorem lock_only_if_not_nonzero_sentinel (sp : Nat → Bool) (x fuel n : Nat) (hx : x ≠ 0) :
    spinlock.lock_only_if_not sp x (fuel + 1) n x = Res.ok (false, x) ∧
    (∀ n0 fuel2, sp n0 = false → n ≤ n0 → n0 < n + fuel2 →
      spinlock.lock_only_if_not sp x fuel2 n 0 = Res.ok (true, 1)) :=
  ⟨lock_only_if_not_held_sentinel sp x fuel n hx,
    fun n0 fuel2 hsp hle hlt => lock_only_if_not_acquires sp x hx n0 hsp fuel2 n hle hlt⟩

/-- The sentinel 2 of the bucket locks: `lock(2)` against the word 2 and the word 0. -/
theorem lock_only_if_not_nonzero_sentinel_witness :
    (2 : Nat) ≠ 0 ∧
    spinlock.lock_only_if_not no_spurious 2 1 0 2 = Res.ok (false, 2) ∧
    spinlock.lock_only_if_not no_spurious 2 1 0 0 = Res.ok (true, 1) :=
  ⟨by decide, (lock_only_if_not_nonzero_sentinel no_spurious 2 0 0 (by decide)).1,
    (lock_only_if_not_nonzero_sentinel no_spurious 2 0 0 (by decide)).2 0 1 rfl
      (le_refl 0) (by decide)⟩

theorem int_yield_of_cases (S1 S2 n : Nat) :
    spinlock.int_yield_of S1 S2 n =
      if n < S1 then (true, [Backoff.smt_pause])
      else if n < S2 then (true, [Backoff.yield_timeslice])
      else (true, [Backoff.sleep_1ms]) := by
  unfold spinlock.int_yield_of spins_to_sleep.int_yield spins_to_yield.int_yield
    spins_to_loop.int_yield spinlockbase.int_yield
  by_cases h1 : n < S1
  · have h1b : ¬ (n ≥ S1) := by omega
    simp [h1, h1b]
  · have h1b : n ≥ S1 := by omega
    by_cases h2 : n < S2
    · have h2b : ¬ (n ≥ S2) := by omega
      simp [h1, h1b, h2, h2b]
    · have h2b : n ≥ S2 := by omega
      simp [h1, h1b, h2, h2b]

/-- C12, as stated, fails: at attempt 300 the default back-off sleeps, where the claim has
it yield on all of [125, 375); the yield stage compares the attempt index itself with 250. -/
theorem default_backoff_sleeps_at_300 :
    spinlock.int_yield 300 = (true, [Backoff.sleep_1ms]) ∧
    ¬ (∀ n : Nat, spinlock.int_yield n = (true, [Backoff.yield_timeslice]) ↔
        (125 ≤ n ∧ n < 375)) := by
  refine ⟨by decide, ?_⟩
  intro h
  have h2 := (h 300).2 (by decide)
  revert h2
  decide

/-- C12, amended: with the default policy stack the back-off at attempt `n` emits a CPU
pause exactly for `n` in [0, 125), yields exactly for `n` in [125, 250) and sleeps 1 ms
exactly for `n >= 250`, always returning true; for general `S1`, `S2` the pause stage
covers exactly [0, S1), the yield stage exactly [S1, S2) (empty when `S2 <= S1`) and the
sleep stage every attempt from `max S1 S2` on. -/
theorem backoff_stages_by_attempt_index (S1 S2 n : Nat) :
    (spinlock.int_yield n = (true, [Backoff.smt_pause]) ↔ n < 125) ∧
    (spinlock.int_yield n = (true, [Backoff.yield_timeslice]) ↔ (125 ≤ n ∧ n < 250)) ∧
    (spinlock.int_yield n = (true, [Backoff.sleep_1ms]) ↔ 250 ≤ n) ∧
    (spinlock.int_yield_of S1 S2 n = (true, [Backoff.smt_pause]) ↔ n < S1) ∧
    (spinlock.int_yield_of S1 S2 n = (true, [Backoff.yield_timeslice]) ↔
      (S1 ≤ n ∧ n < S2)) ∧
    (spinlock.int_yield_of S1 S2 n = (true, [Backoff.sleep_1ms]) ↔ (S1 ≤ n ∧ S2 ≤ n)) ∧
    (spinlock.int_yield_of S1 S2 n).1 = true := by
  have key : ∀ A B : Nat,
      (spinlock.int_yield_of A B n = (true, [Backoff.smt_pause]) ↔ n < A) ∧
      (spinlock.int_yield_of A B n = (true, [Backoff.yield_timeslice]) ↔ (A ≤ n ∧ n < B)) ∧
      (spinlock.int_yield_of A B n = (true, [Backoff.sleep_1ms]) ↔ (A ≤ n ∧ B ≤ n)) ∧
      (spinlock.int_yield_of A B n).1 = true := by
    intro A B
    rw [int_yield_of_cases]
    by_cases h1 : n < A <;> by_cases h2 : n < B <;> simp [h1, h2] <;> omega
  obtain ⟨d1, d2, d3, _⟩ := key 125 250
  obtain ⟨g1, g2, g3, g4⟩ := key S1 S2
  refine ⟨d1, d2, ?_, g1, g2, g3, g4⟩
  constructor
  · intro h
    exact (d3.mp h).2
  · intro h
    exact d3.mpr ⟨by omega, h⟩

/-! ### The pointer-tagged lock -/

theorem testBit_clear_mask (bits w i : Nat) (hbits : 0 < bits) (hw : w < 2 ^ bits) :
    (w &&& (SIZE_MAX bits - 1)).testBit i = (decide (i ≠ 0) && w.testBit i) := by
  have hone : 1 < 2 ^ bits := by
    calc 1 < 2 ^ 1 := by norm_num
      _ ≤ 2 ^ bits := Nat.pow_le_pow_right (by norm_num) hbits
  have hmask : SIZE_MAX bits - 1 = 2 ^ bits - (1 + 1) := by
    unfold SIZE_MAX
    omega
  rw [hmask, Nat.testBit_and, Nat.testBit_two_pow_sub_succ hone]
  by_cases hi : i < bits
  · by_cases h0 : i = 0
    · subst h0
      simp
    · have h1 : Nat.testBit 1 i = false := by
        cases i with
        | zero => exact absurd rfl h0
        | succ j => simp [Nat.testBit_succ]
      simp [hi, h0, h1]
  · have hwi : w.testBit i = false := by
      apply Nat.testBit_lt_two_pow
      calc w < 2 ^ bits := hw
        _ ≤ 2 ^ i := Nat.pow_le_pow_right (by norm_num) (by omega)
    simp [hwi]

theorem get_of_even (bits p : Nat) (hbits : 0 < bits) (hp : p < 2 ^ bits)
    (heven : p &&& 1 = 0) : lockable_ptr.get bits p = p := by
  unfold lockable_ptr.get
  apply Nat.eq_of_testBit_eq
  intro i
  rw [testBit_clear_mask bits p i hbits hp]
  by_cases h0 : i = 0
  · subst h0
    rw [Nat.and_one_is_mod] at heven
    simp [Nat.testBit_zero, heven]
  · simp [h0]

theorem or_one_lt (bits p : Nat) (hbits : 0 < bits) (hp : p < 2 ^ bits) :
    p ||| 1 < 2 ^ bits := by
  have hone : 1 < 2 ^ bits := by
    calc 1 < 2 ^ 1 := by norm_num
      _ ≤ 2 ^ bits := Nat.pow_le_pow_right (by norm_num) hbits
  exact Nat.or_lt_two_pow hp hone

theorem get_of_or_one (bits p : Nat) (hbits : 0 < bits) (hp : p < 2 ^ bits)
    (heven : p &&& 1 = 0) : lockable_ptr.get bits (p ||| 1) = p := by
  unfold lockable_ptr.get
  apply Nat.eq_of_testBit_eq
  intro i
  rw [testBit_clear_mask bits (p ||| 1) i hbits (or_one_lt bits p hbits hp), Nat.testBit_or]
  by_cases h0 : i = 0
  · subst h0
    rw [Nat.and_one_is_mod] at heven
    simp [Nat.testBit_zero, heven]
  · have h1 : Nat.testBit 1 i = false := by
      cases i with
      | zero => exact absurd rfl h0
      | succ j => simp [Nat.testBit_succ]
    simp [h0, h1]

theorem or_one_and_one (p : Nat) : (p ||| 1) &&& 1 = 1 := by
  apply Nat.eq_of_testBit_eq
  intro i
  rw [Nat.testBit_and, Nat.testBit_or]
  cases i with
  | zero => simp
  | succ j => simp [Nat.testBit_succ]

theorem and_one_cases (w : Nat) : w &&& 1 = 0 ∨ w &&& 1 = 1 := by
  rw [Nat.and_one_is_mod]
  omega

theorem ptr_set_result (sp : Nat → Bool) (a : Nat) (n0 : Nat) (hsp : sp n0 = false)
    (fuel n v : Nat) (hle : n ≤ n0) (hlt : n0 < n + fuel) :
    spinlockbase_ptr.set sp a fuel n v =
      Res.ok (if v &&& 1 ≠ 0 then a ||| 1 else a) := by
  induction fuel generalizing n with
  | zero => omega
  | succ fuel ih =>
    by_cases hn : sp n = false
    · simp [spinlockbase_ptr.set, compare_exchange_weak, hn]
    · have hne : n ≠ n0 := by
        intro h
        rw [h] at hn
        exact hn hsp
      have hn2 : sp n = true := by simpa using hn
      simp only [spinlockbase_ptr.set, compare_exchange_weak, hn2, Bool.true_eq_false,
        and_false, if_false, Bool.false_eq_true]
      exact ih (n + 1) (by omega) (by omega)

/-- C13: for a pointer `p` of a word of `bits >= 1` bits with low bit 0 and any stored
word `w`, lock bit set or clear, `set(p)` returns at the first attempt whose
compare-exchange does not fail spuriously, `get()` then returns `p`, and the lock bit of
the stored word is the one it was before. -/
theorem ptr_set_then_get (bits : Nat) (sp : Nat → Bool) (p w fuel n0 : Nat)
    (hbits : 0 < bits) (hp : p < 2 ^ bits) (heven : p &&& 1 = 0)
    (hsp : sp n0 = false) (hfuel : n0 < fuel) :
    ∃ w2, spinlockbase_ptr.set sp p fuel 0 w = Res.ok w2 ∧
      lockable_ptr.get bits w2 = p ∧ w2 &&& 1 = w &&& 1 := by
  have hres := ptr_set_result sp p n0 hsp fuel 0 w (Nat.zero_le _) (by omega)
  refine ⟨_, hres, ?_, ?_⟩
  · by_cases hl : w &&& 1 = 0
    · simp only [hl, ne_eq, not_true_eq_false, if_false]
      exact get_of_even bits p hbits hp heven
    · simp only [hl, ne_eq, not_false_eq_true, if_true]
      exact get_of_or_one bits p hbits hp heven
  · by_cases hl : w &&& 1 = 0
    · simp only [hl, ne_eq, not_true_eq_false, if_false]
      exact heven
    · simp only [hl, ne_eq, not_false_eq_true, if_true]
      rw [or_one_and_one]
      rcases and_one_cases w with h | h
      · exact absurd h hl
      · exact h.symm

/-- Witness of C13: the pointer 0x1000 set into a locked word holding 0x2001. -/
theorem ptr_set_then_get_witness :
    ∃ w2, spinlockbase_ptr.set no_spurious 4096 1 0 8193 = Res.ok w2 ∧
      lockable_ptr.get 64 w2 = 4096 ∧ w2 &&& 1 = 8193 &&& 1 :=
  ptr_set_then_get 64 no_spurious 4096 8193 1 0 (by decide) (by decide) (by decide) rfl
    (by decide)

/-- C14: for a stored word `w` of `bits >= 1` bits: when the low bit is clear, every
successful `try_lock()` leaves the word `w | 1`, `try_lock()` succeeds unless the weak
compare-exchange fails spuriously (then the word stays `w`), `get()` on `w | 1` still
returns `w`, and `unlock()` on `w | 1` stores exactly `w`; when the low bit is set,
`try_lock()` returns false and leaves the word unchanged. -/
theorem ptr_try_lock_unlock_roundtrip (bits w : Nat) (hbits : 0 < bits) (hw : w < 2 ^ bits) :
    (w &&& 1 = 0 →
      (∀ s : Bool, (spinlockbase_ptr.try_lock s w).1 = true →
        (spinlockbase_ptr.try_lock s w).2 = w ||| 1) ∧
      spinlockbase_ptr.try_lock false w = (true, w ||| 1) ∧
      spinlockbase_ptr.try_lock true w = (false, w) ∧
      lockable_ptr.get bits (w ||| 1) = w ∧
      spinlockbase_ptr.unlock bits (w ||| 1) = Res.ok w) ∧
    (w &&& 1 ≠ 0 → ∀ s : Bool, spinlockbase_ptr.try_lock s w = (false, w)) := by
  constructor
  · intro hclear
    have hget := get_of_or_one bits w hbits hw hclear
    refine ⟨?_, ?_, ?_, hget, ?_⟩
    · intro s hs
      cases s with
      | false => simp [spinlockbase_ptr.try_lock, compare_exchange_weak, hclear]
      | true => simp [spinlockbase_ptr.try_lock, compare_exchange_weak, hclear] at hs
    · simp [spinlockbase_ptr.try_lock, compare_exchange_weak, hclear]
    · simp [spinlockbase_ptr.try_lock, compare_exchange_weak, hclear]
    · have h1 : (w ||| 1) &&& 1 ≠ 0 := by
        rw [or_one_and_one]
        decide
      unfold lockable_ptr.get at hget
      simp only [spinlockbase_ptr.unlock, h1, if_false, hget]
  · intro hset s
    simp only [spinlockbase_ptr.try_lock, hset, ne_eq, not_false_eq_true, if_true]

/-- Witness of C14: the stored pointer 0x1000 on a 64-bit word. -/
theorem ptr_try_lock_unlock_roundtrip_witness :
    0 < 64 ∧ 4096 < 2 ^ 64 ∧
    spinlockbase_ptr.try_lock false 4096 = (true, 4096 ||| 1) ∧
    spinlockbase_ptr.unlock 64 (4096 ||| 1) = Res.ok 4096 :=
  ⟨by decide, by decide,
    ((ptr_try_lock_unlock_roundtrip 64 4096 (by decide) (by decide)).1 (by decide)).2.1,
    ((ptr_try_lock_unlock_roundtrip 64 4096 (by decide) (by decide)).1 (by decide)).2.2.2.2⟩

/-! ### Mutual exclusion -/

theorem holders_set (s : Threads) (t : Nat) (old new : Pc) (hget : s.pcs[t]? = some old) :
    (s.pcs.set t new).count Pc.holding =
      (s.pcs.count Pc.holding - if old = Pc.holding then 1 else 0) +
        if new = Pc.holding then 1 else 0 := by
  obtain ⟨hlt, heq⟩ := List.getElem?_eq_some.mp hget
  rw [List.count_set new Pc.holding s.pcs t hlt, heq]
  simp

theorem holders_pos_of_holding (s : Threads) (t : Nat) (hget : s.pcs[t]? = some Pc.holding) :
    0 < s.pcs.count Pc.holding := by
  obtain ⟨hlt, heq⟩ := List.getElem?_eq_some.mp hget
  apply List.count_pos_iff.mpr
  rw [← heq]
  exact List.getElem_mem hlt

/-- One atomic step keeps: at most one thread holds the lock, and none does while the
word is 0. -/
theorem thread_step_keeps (s : Threads) (t : Nat) (sp : Bool)
    (h1 : holders s ≤ 1) (h2 : s.v = 0 → holders s = 0) :
    holders (thread_step s t sp) ≤ 1 ∧
      ((thread_step s t sp).v = 0 → holders (thread_step s t sp) = 0) := by
  unfold holders at *
  unfold thread_step
  cases hget : s.pcs[t]? with
  | none => exact ⟨h1, h2⟩
  | some pc =>
    cases pc with
    | at_load =>
      simp only
      by_cases hv : s.v = 0
      · simp only [hv, ne_eq, not_true_eq_false, if_false]
        rw [holders_set s t Pc.at_load Pc.at_cas hget]
        simp only [reduceCtorEq, if_false, Nat.sub_zero, Nat.add_zero]
        exact ⟨h1, fun _ => h2 hv⟩
      · simp only [hv, ne_eq, not_false_eq_true, if_true]
        exact ⟨h1, fun h => absurd h (by simp)⟩
    | at_cas =>
      simp only
      by_cases hok : s.v = 0 ∧ sp = false
      · have hzero := h2 hok.1
        simp only [compare_exchange_weak, hok, and_self, if_true]
        rw [holders_set s t Pc.at_cas Pc.holding hget]
        simp only [reduceCtorEq, if_false, Nat.sub_zero, if_true, hzero]
        exact ⟨by omega, fun h => absurd h (by decide)⟩
      · simp only [compare_exchange_weak, hok, if_false, Bool.false_eq_true]
        rw [holders_set s t Pc.at_cas Pc.at_load hget]
        simp only [reduceCtorEq, if_false, Nat.sub_zero, Nat.add_zero]
        exact ⟨h1, h2⟩
    | holding =>
      simp only
      rw [holders_set s t Pc.holding Pc.at_load hget]
      have hpos := holders_pos_of_holding s t hget
      simp only [if_true, reduceCtorEq, if_false, Nat.add_zero]
      exact ⟨by omega, fun _ => by omega⟩

theorem run_schedule_keeps (s : Threads) (sched : List (Nat × Bool))
    (h1 : holders s ≤ 1) (h2 : s.v = 0 → holders s = 0) :
    holders (run_schedule s sched) ≤ 1 ∧
      ((run_schedule s sched).v = 0 → holders (run_schedule s sched) = 0) := by
  induction sched generalizing s with
  | nil => exact ⟨h1, h2⟩
  | cons step rest ih =>
    obtain ⟨g1, g2⟩ := thread_step_keeps s step.1 step.2 h1 h2
    exact ih (thread_step s step.1 step.2) g1 g2

theorem holders_start (n : Nat) : holders (Threads.start n) = 0 := by
  simp [holders, Threads.start, List.count_replicate]

/-! ### Erasing through an iterator -/

theorem shrink_eq_rdropWhile (l : List (item_type Key T)) :
    concurrent_unordered_map.shrink l = l.rdropWhile (fun s => decide (s.hash = 0)) := rfl

theorem shrink_decomp (l : List (item_type Key T)) :
    ∃ tail, l = concurrent_unordered_map.shrink l ++ tail ∧ ∀ s ∈ tail, s.hash = 0 := by
  refine ⟨(l.reverse.takeWhile (fun s => decide (s.hash = 0))).reverse, ?_, ?_⟩
  · have h := List.takeWhile_append_dropWhile (fun s : item_type Key T => decide (s.hash = 0))
      l.reverse
    have h2 := congrArg List.reverse h
    rw [List.reverse_append, List.reverse_reverse] at h2
    exact h2.symm
  · intro s hs
    rw [List.mem_reverse] at hs
    have := List.mem_takeWhile_imp hs
    simpa using this

theorem shrink_last_occupied (l : List (item_type Key T))
    (hl : concurrent_unordered_map.shrink l ≠ []) :
    ((concurrent_unordered_map.shrink l).getLast hl).hash ≠ 0 := by
  have h := List.rdropWhile_last_not (fun s : item_type Key T => decide (s.hash = 0)) l hl
  simpa using h

theorem shrink_concat_empty (l : List (item_type Key T)) (x : item_type Key T)
    (hx : x.hash = 0) :
    concurrent_unordered_map.shrink (l ++ [x]) = concurrent_unordered_map.shrink l := by
  rw [shrink_eq_rdropWhile, shrink_eq_rdropWhile]
  exact List.rdropWhile_concat_pos (fun s : item_type Key T => decide (s.hash = 0)) l x
    (by simp [hx])

theorem modify_last (l : List (item_type Key T)) (f : item_type Key T → item_type Key T)
    (off : Nat) (slot : item_type Key T) (hget : l[off]? = some slot)
    (hoff : off + 1 = l.length) : l.modify f off = l.take off ++ [f slot] := by
  apply List.ext_getElem?
  intro j
  by_cases hj : j = off
  · subst hj
    rw [List.getElem?_modify_eq, hget]
    rw [List.getElem?_append_right (by simp)]
    simp only [List.length_take, Option.map_some']
    have : j - min j l.length = 0 := by omega
    rw [this]
    simp
  · rw [List.getElem?_modify_ne f l (Ne.symm hj)]
    rcases Nat.lt_or_ge j off with hlt | hge
    · rw [List.getElem?_append_left (by simp; omega), List.getElem?_take_of_lt hlt]
    · have h1 : l[j]? = none := List.getElem?_eq_none (by omega)
      have h2 : (l.take off ++ [f slot])[j]? = none :=
        List.getElem?_eq_none (by simp; omega)
      rw [h1, h2]

theorem erase_iterator_round (e : Params Key) (fuel : Nat) (m : concurrent_unordered_map Key T)
    (it : iterator) (b : bucket_type Key T)
    (hb : m._buckets[it._itb]? = some b) (hlock : b.lock = 0) :
    concurrent_unordered_map.erase_iterator e (fuel + 1) m it =
      match b.items[it._offset]? with
      | some slot =>
        if slot.hash ≠ 0 then
          Res.ok (concurrent_unordered_map.set_bucket m it._itb
            { concurrent_unordered_map.erase_slot b it._offset with
                lock := spinlockbase.unlock 1 },
            concurrent_unordered_map.iterator_incr e m it)
        else Res.ok (m, concurrent_unordered_map.end_ e m)
      | none => Res.ok (m, concurrent_unordered_map.end_ e m) := by
  have hlt : it._itb < m._buckets.length := (List.getElem?_eq_some.mp hb).1
  have hne : it ≠ concurrent_unordered_map.end_ e m := by
    intro h
    have := congrArg iterator._itb h
    simp only [concurrent_unordered_map.end_] at this
    omega
  simp only [concurrent_unordered_map.erase_iterator, hne, if_false, hb, hlock,
    lock_only_if_not_free, bucket_lock_zero b hlock, set_bucket_same m _ b hb]

/-- C16: `erase(iterator)` on an iterator bound to a free bucket `b` of the map. If the
slot index is within the item sequence and the slot is occupied, then the result is the
iterator with one more pending increment, the count is one less (modulo the width of
`unsigned`; exactly one less when it was not 0), and the item sequence is the old one
with the hash of that slot set to 0 when the slot was not the last one, and, when it was
the last one, the old sequence cut before that slot and before the empty slots straight
in front of it, so that it is empty or ends in an occupied slot. Otherwise (index out of
range or slot already empty) the result is end and the map, item sequence and count
included, is unchanged; so it is for the end iterator. -/
theorem erase_iterator_spec (e : Params Key) (fuel : Nat) (m : concurrent_unordered_map Key T)
    (it : iterator) (b : bucket_type Key T)
    (hb : m._buckets[it._itb]? = some b) (hlock : b.lock = 0) :
    (∀ slot, b.items[it._offset]? = some slot → slot.hash ≠ 0 →
      ∃ b2, concurrent_unordered_map.erase_iterator e (fuel + 1) m it =
          Res.ok (concurrent_unordered_map.set_bucket m it._itb b2,
            { it with _pending_incr := (it._pending_incr + 1) % 2 ^ e.bits }) ∧
        b2.lock = 0 ∧
        b2.count = (b.count + 2 ^ UINT_BITS - 1) % 2 ^ UINT_BITS ∧
        (0 < b.count → b.count < 2 ^ UINT_BITS → b2.count + 1 = b.count) ∧
        (it._offset + 1 < b.items.length →
          b2.items.length = b.items.length ∧
          b2.items[it._offset]? = some { slot with hash := 0 } ∧
          ∀ j, j ≠ it._offset → b2.items[j]? = b.items[j]?) ∧
        (it._offset + 1 = b.items.length →
          (∃ tail, b.items.take it._offset = b2.items ++ tail ∧ ∀ s ∈ tail, s.hash = 0) ∧
          ∀ hl : b2.items ≠ [], (b2.items.getLast hl).hash ≠ 0)) ∧
    ((b.items[it._offset]? = none ∨
        ∃ slot, b.items[it._offset]? = some slot ∧ slot.hash = 0) →
      concurrent_unordered_map.erase_iterator e (fuel + 1) m it =
        Res.ok (m, concurrent_unordered_map.end_ e m)) ∧
    concurrent_unordered_map.erase_iterator e fuel m (concurrent_unordered_map.end_ e m) =
      Res.ok (m, concurrent_unordered_map.end_ e m) := by
  have hround := erase_iterator_round e fuel m it b hb hlock
  have hlt : it._itb < m._buckets.length := (List.getElem?_eq_some.mp hb).1
  refine ⟨?_, ?_, ?_⟩
  · intro slot hget hocc
    have hofflt : it._offset < b.items.length := (List.getElem?_eq_some.mp hget).1
    rw [hget] at hround
    simp only [hocc, ne_eq, not_false_eq_true, if_true] at hround
    have hincr : concurrent_unordered_map.iterator_incr e m it =
        { it with _pending_incr := (it._pending_incr + 1) % 2 ^ e.bits } := by
      have : it._itb ≠ m._buckets.length := by omega
      simp [concurrent_unordered_map.iterator_incr, this]
    rw [hincr] at hround
    refine ⟨_, hround, rfl, rfl, ?_, ?_, ?_⟩
    · intro hpos hlt32
      show (b.count + 2 ^ UINT_BITS - 1) % 2 ^ UINT_BITS + 1 = b.count
      have : b.count + 2 ^ UINT_BITS - 1 = (b.count - 1) + 2 ^ UINT_BITS := by omega
      rw [this, Nat.add_mod_right, Nat.mod_eq_of_lt (by omega)]
      omega
    · intro hnotlast
      have hne : ¬ (it._offset = b.items.length - 1) := by omega
      have hitems : ({ concurrent_unordered_map.erase_slot b it._offset with
          lock := spinlockbase.unlock 1 } : bucket_type Key T).items =
          b.items.modify (fun s => { s with hash := 0 }) it._offset := by
        show (if it._offset = b.items.length - 1 then _ else _ : List (item_type Key T)) = _
        simp only [hne, if_false]
      rw [hitems]
      refine ⟨by simp, ?_, ?_⟩
      · rw [List.getElem?_modify_eq, hget]
        rfl
      · intro j hj
        rw [List.getElem?_modify_ne _ _ (Ne.symm hj)]
    · intro hlast
      have heq : it._offset = b.items.length - 1 := by omega
      have hitems : ({ concurrent_unordered_map.erase_slot b it._offset with
          lock := spinlockbase.unlock 1 } : bucket_type Key T).items =
          concurrent_unordered_map.shrink (b.items.take it._offset) := by
        show (if it._offset = b.items.length - 1 then _ else _ : List (item_type Key T)) = _
        simp only [heq, if_true]
        rw [← heq, modify_last b.items _ it._offset slot hget hlast]
        exact shrink_concat_empty _ _ rfl
      rw [hitems]
      exact ⟨shrink_decomp _, shrink_last_occupied _⟩
  · intro hcase
    rcases hcase with hnone | ⟨slot, hget, hz⟩
    · rw [hnone] at hround
      exact hround
    · rw [hget] at hround
      simp only [hz, ne_eq, not_true_eq_false, if_false] at hround
      exact hround
  · simp [concurrent_unordered_map.erase_iterator]

/-- Witness of C16: the iterator bound to slot 1 (the key 6, the last slot) of bucket 0 of
the map of scenario B; the count goes from 2 to 1. -/
theorem erase_iterator_spec_witness :
    ∃ b2, concurrent_unordered_map.erase_iterator scenario_params 1 scenario_b_map ⟨0, 1, 0⟩ =
        Res.ok (concurrent_unordered_map.set_bucket scenario_b_map 0 b2, ⟨0, 1, 1⟩) ∧
      b2.lock = 0 ∧ b2.count + 1 = 2 ∧
      ∀ hl : b2.items ≠ [], (b2.items.getLast hl).hash ≠ 0 := by
  obtain ⟨b2, h1, h2, _, h4, _, h6⟩ :=
    (erase_iterator_spec scenario_params 0 scenario_b_map ⟨0, 1, 0⟩ scenario_b_bucket
      rfl rfl).1 ⟨(6, 60), 6⟩ rfl (by decide)
  exact ⟨b2, h1, h2, h4 (by decide) (by decide), (h6 rfl).2⟩

/-! ### The lock word while a bucket is modified -/

theorem lock_only_if_not_true_any (sp : Nat → Bool) (x fuel n w w2 : Nat)
    (h : spinlock.lock_only_if_not sp x fuel n w = Res.ok (true, w2)) : w = 0 ∧ w2 = 1 := by
  induction fuel generalizing n with
  | zero => simp [spinlock.lock_only_if_not] at h
  | succ fuel ih =>
    by_cases hw : w = 0
    · subst hw
      cases hsp : sp n with
      | false =>
        simp [spinlock.lock_only_if_not, spinlockbase.try_lock_expected,
          compare_exchange_weak, hsp] at h
        exact ⟨rfl, h.symm⟩
      | true =>
        by_cases hx : 0 = x
        · simp [spinlock.lock_only_if_not, spinlockbase.try_lock_expected,
            compare_exchange_weak, hsp, hx] at h
        · simp only [spinlock.lock_only_if_not, spinlockbase.try_lock_expected,
            compare_exchange_weak, hsp, ne_eq, not_true_eq_false, if_false,
            Bool.true_eq_false, and_false, Bool.false_eq_true, hx] at h
          exact ih (n + 1) h
    · by_cases hx : w = x
      · subst hx
        simp [spinlock.lock_only_if_not, spinlockbase.try_lock_expected, hw] at h
      · simp only [spinlock.lock_only_if_not, spinlockbase.try_lock_expected, hw, ne_eq,
          not_false_eq_true, if_true, Bool.false_eq_true, if_false, hx] at h
        exact ih (n + 1) h

theorem lock_only_if_not_spin_any (sp : Nat → Bool) (x w : Nat) (hw : w ≠ 0) (hx : w ≠ x)
    (fuel n : Nat) : spinlock.lock_only_if_not sp x fuel n w = Res.fuel_out := by
  induction fuel generalizing n with
  | zero => rfl
  | succ fuel ih =>
    simp only [spinlock.lock_only_if_not, spinlockbase.try_lock_expected, hw, ne_eq,
      not_false_eq_true, if_true, Bool.false_eq_true, if_false, hx]
    exact ih (n + 1)

/-! ### Properties kept by every operation, bucket by bucket -/

theorem set_bucket_keeps (P : Nat → Nat → bucket_type Key T → Prop)
    (m : concurrent_unordered_map Key T) (i : Nat) (b2 : bucket_type Key T)
    (hinv : ∀ j b, m._buckets[j]? = some b → P m._buckets.length j b)
    (hb2 : P m._buckets.length i b2) :
    ∀ j b, (concurrent_unordered_map.set_bucket m i b2)._buckets[j]? = some b →
      P (concurrent_unordered_map.set_bucket m i b2)._buckets.length j b := by
  intro j b hj
  rw [set_bucket_length]
  by_cases hji : j = i
  · subst hji
    rcases Nat.lt_or_ge j m._buckets.length with hlt | hge
    · rw [set_bucket_get m j b2 hlt] at hj
      simp only [Option.some.injEq] at hj
      subst hj
      exact hb2
    · have : (concurrent_unordered_map.set_bucket m j b2)._buckets[j]? = none :=
        List.getElem?_eq_none (by rw [set_bucket_length]; exact hge)
      rw [this] at hj
      exact absurd hj (by simp)
  · rw [set_bucket_get_ne m i j b2 hji] at hj
    exact hinv j b hj

theorem emplace_search_bucket (e : Params Key) (fuel : Nat) (k : Key) (h : Nat)
    (b b1 : bucket_type Key T) (f ei : Option Nat)
    (hs : concurrent_unordered_map.emplace_search e fuel k h b = Res.ok (b1, f, ei)) :
    ∃ w, b1 = { b with lock := w } := by
  unfold concurrent_unordered_map.emplace_search at hs
  split at hs
  · split at hs
    · simp only [Res.ok.injEq, Prod.mk.injEq] at hs
      exact ⟨_, hs.1.symm⟩
    · simp only [Res.ok.injEq, Prod.mk.injEq] at hs
      exact ⟨_, hs.1.symm⟩
    · exact absurd hs (by simp)
    · exact absurd hs (by simp)
    · exact absurd hs (by simp)
  · split at hs
    · simp only [Res.ok.injEq, Prod.mk.injEq] at hs
      exact ⟨b.lock, hs.1.symm⟩
    · simp only [Res.ok.injEq, Prod.mk.injEq] at hs
      exact ⟨b.lock, hs.1.symm⟩

/-- A property of the buckets that the lock word does not affect and that the insertion of
`emplace` keeps is kept by `emplace`. -/
theorem emplace_keeps (P : Nat → Nat → bucket_type Key T → Prop) (e : Params Key)
    (k : Key) (v : T)
    (hlock : ∀ n i b w, P n i b → P n i { b with lock := w })
    (hplace : ∀ n b ei,
      P n (concurrent_unordered_map.non_zero_hasher e k % n) b →
      P n (concurrent_unordered_map.non_zero_hasher e k % n)
        (concurrent_unordered_map.emplace_place k v
          (concurrent_unordered_map.non_zero_hasher e k) b ei).1)
    (fuel : Nat) (m m2 : concurrent_unordered_map Key T) (it : iterator) (ins : Bool)
    (hinv : ∀ j b, m._buckets[j]? = some b → P m._buckets.length j b)
    (hres : concurrent_unordered_map.emplace e fuel m k v = Res.ok (m2, it, ins)) :
    ∀ j b, m2._buckets[j]? = some b → P m2._buckets.length j b := by
  induction fuel generalizing m with
  | zero => simp [concurrent_unordered_map.emplace] at hres
  | succ fuel ih =>
    unfold concurrent_unordered_map.emplace at hres
    simp only at hres
    split at hres
    · exact absurd hres (by simp)
    · split at hres
      · exact absurd hres (by simp)
      · rename_i b hb
        have hPb := hinv _ b hb
        split at hres
        · rename_i b1 offset ei hsearch
          obtain ⟨w, hw⟩ := emplace_search_bucket e _ k _ b b1 _ _ hsearch
          simp only [Res.ok.injEq, Prod.mk.injEq] at hres
          rw [← hres.1]
          apply set_bucket_keeps P m _ b1 hinv
          rw [hw]
          exact hlock _ _ b w hPb
        · rename_i b1 ei hsearch
          obtain ⟨w, hw⟩ := emplace_search_bucket e _ k _ b b1 _ _ hsearch
          have hPb1 : P m._buckets.length (concurrent_unordered_map._get_bucket m
              (concurrent_unordered_map.non_zero_hasher e k)) b1 := by
            rw [hw]
            exact hlock _ _ b w hPb
          split at hres
          · split at hres
            · simp only [Res.ok.injEq, Prod.mk.injEq] at hres
              rw [← hres.1]
              apply set_bucket_keeps P m _ _ hinv
              apply hlock
              exact hplace _ b1 ei hPb1
            · apply ih _ _ hres
              apply set_bucket_keeps P m _ _ hinv
              apply hlock
              exact hplace _ b1 ei hPb1
          · apply ih _ _ hres
            apply set_bucket_keeps P m _ _ hinv
            exact hlock _ _ b1 _ hPb1
          · exact absurd hres (by simp)
          · exact absurd hres (by simp)
          · exact absurd hres (by simp)
        · exact absurd hres (by simp)
        · exact absurd hres (by simp)
        · exact absurd hres (by simp)

theorem mem_of_getElem?_some' {α : Type} (l : List α) (j : Nat) (a : α)
    (hget : l[j]? = some a) : a ∈ l := by
  obtain ⟨hlt, heq⟩ := List.getElem?_eq_some.mp hget
  rw [← heq]
  exact List.getElem_mem hlt

/-- A property of the buckets that the lock word does not affect and that the removal of
a slot found by the scan keeps is kept by `erase(key)`. -/
theorem erase_keeps (P : Nat → Nat → bucket_type Key T → Prop) (e : Params Key) (k : Key)
    (hlock : ∀ n i b w, P n i b → P n i { b with lock := w })
    (herase : ∀ n i b off slot, P n i b → b.items[off]? = some slot →
      slot.hash = concurrent_unordered_map.non_zero_hasher e k →
      P n i (concurrent_unordered_map.erase_slot b off))
    (fuel : Nat) (m m2 : concurrent_unordered_map Key T) (cnt : Nat)
    (hinv : ∀ j b, m._buckets[j]? = some b → P m._buckets.length j b)
    (hres : concurrent_unordered_map.erase e fuel m k = Res.ok (m2, cnt)) :
    ∀ j b, m2._buckets[j]? = some b → P m2._buckets.length j b := by
  induction fuel generalizing m with
  | zero => simp [concurrent_unordered_map.erase] at hres
  | succ fuel ih =>
    unfold concurrent_unordered_map.erase at hres
    simp only at hres
    split at hres
    · exact absurd hres (by simp)
    · split at hres
      · exact absurd hres (by simp)
      · rename_i b hb
        have hPb := hinv _ b hb
        split at hres
        · split at hres
          · split at hres
            · rename_i offset hscan
              obtain ⟨j, slot, hj, hget, hmatch, _⟩ := find_loop_some e k _ b.items 0 offset hscan
              have hoff : offset = j := by omega
              subst hoff
              simp only [concurrent_unordered_map.slot_matches, Bool.and_eq_true,
                decide_eq_true_eq] at hmatch
              simp only [Res.ok.injEq, Prod.mk.injEq] at hres
              rw [← hres.1]
              apply set_bucket_keeps P m _ _ hinv
              apply hlock
              exact herase _ _ b offset slot hPb hget hmatch.1
            · simp only [Res.ok.injEq, Prod.mk.injEq] at hres
              rw [← hres.1]
              apply set_bucket_keeps P m _ _ hinv
              exact hlock _ _ b _ hPb
          · apply ih _ _ hres
            apply set_bucket_keeps P m _ _ hinv
            exact hlock _ _ b _ hPb
          · exact absurd hres (by simp)
          · exact absurd hres (by simp)
          · exact absurd hres (by simp)
        · exact ih _ hinv hres

/-- A property of the buckets that the lock word does not affect and that the removal of
an occupied slot keeps is kept by `erase(iterator)`. -/
theorem erase_iterator_keeps (P : Nat → Nat → bucket_type Key T → Prop) (e : Params Key)
    (hlock : ∀ n i b w, P n i b → P n i { b with lock := w })
    (herase : ∀ n i b off slot, P n i b → b.items[off]? = some slot → slot.hash ≠ 0 →
      P n i (concurrent_unordered_map.erase_slot b off))
    (fuel : Nat) (m m2 : concurrent_unordered_map Key T) (it ret : iterator)
    (hinv : ∀ j b, m._buckets[j]? = some b → P m._buckets.length j b)
    (hres : concurrent_unordered_map.erase_iterator e fuel m it = Res.ok (m2, ret)) :
    ∀ j b, m2._buckets[j]? = some b → P m2._buckets.length j b := by
  unfold concurrent_unordered_map.erase_iterator at hres
  simp only at hres
  split at hres
  · simp only [Res.ok.injEq, Prod.mk.injEq] at hres
    rw [← hres.1]
    exact hinv
  · split at hres
    · exact absurd hres (by simp)
    · rename_i b hb
      have hPb := hinv _ b hb
      split at hres
      · split at hres
        · rename_i slot hget
          split at hres
          · rename_i hocc
            simp only [Res.ok.injEq, Prod.mk.injEq] at hres
            rw [← hres.1]
            apply set_bucket_keeps P m _ _ hinv
            apply hlock
            exact herase _ _ b it._offset slot hPb hget hocc
          · simp only [Res.ok.injEq, Prod.mk.injEq] at hres
            rw [← hres.1]
            apply set_bucket_keeps P m _ _ hinv
            exact hlock _ _ b _ hPb
        · simp only [Res.ok.injEq, Prod.mk.injEq] at hres
          rw [← hres.1]
          apply set_bucket_keeps P m _ _ hinv
          exact hlock _ _ b _ hPb
      · exact absurd hres (by simp)
      · exact absurd hres (by simp)
      · exact absurd hres (by simp)
      · exact absurd hres (by simp)

theorem clear_pass_keeps (P : Nat → Nat → bucket_type Key T → Prop)
    (hlock : ∀ n i b w, P n i b → P n i { b with lock := w })
    (hclear : ∀ n i b w, P n i b → P n i { b with lock := w, items := [] })
    (fuel n : Nat) (bs bs2 : List (bucket_type Key T)) (done : Bool) (base : Nat)
    (hinv : ∀ j b, bs[j]? = some b → P n (base + j) b)
    (hres : concurrent_unordered_map.clear_pass fuel bs = Res.ok (bs2, done)) :
    bs2.length = bs.length ∧ ∀ j b, bs2[j]? = some b → P n (base + j) b := by
  induction bs generalizing bs2 done base with
  | nil =>
    simp only [concurrent_unordered_map.clear_pass, Res.ok.injEq, Prod.mk.injEq] at hres
    rw [← hres.1]
    exact ⟨rfl, hinv⟩
  | cons b rest ih =>
    have hb : P n (base + 0) b := hinv 0 b (by simp)
    have hrest : ∀ j b2, rest[j]? = some b2 → P n (base + 1 + j) b2 := by
      intro j b2 hj
      have := hinv (j + 1) b2 (by simpa using hj)
      rw [show base + 1 + j = base + (j + 1) by omega]
      exact this
    unfold concurrent_unordered_map.clear_pass at hres
    split at hres
    · split at hres
      · rename_i rest2 done2 hrec
        obtain ⟨hlen, hall⟩ := ih rest2 done2 (base + 1) hrest hrec
        simp only [Res.ok.injEq, Prod.mk.injEq] at hres
        rw [← hres.1]
        refine ⟨by simp [hlen], ?_⟩
        intro j b2 hj
        cases j with
        | zero =>
          simp only [List.getElem?_cons_zero, Option.some.injEq] at hj
          rw [← hj]
          exact hclear _ _ b _ hb
        | succ j =>
          simp only [List.getElem?_cons_succ] at hj
          have := hall j b2 hj
          rw [show base + (j + 1) = base + 1 + j by omega]
          exact this
      · exact absurd hres (by simp)
      · exact absurd hres (by simp)
      · exact absurd hres (by simp)
    · simp only [Res.ok.injEq, Prod.mk.injEq] at hres
      rw [← hres.1]
      refine ⟨by simp, ?_⟩
      intro j b2 hj
      cases j with
      | zero =>
        simp only [List.getElem?_cons_zero, Option.some.injEq] at hj
        rw [← hj]
        exact hlock _ _ b _ hb
      | succ j =>
        simp only [List.getElem?_cons_succ] at hj
        have := hrest j b2 hj
        rw [show base + (j + 1) = base + 1 + j by omega]
        exact this
    · exact absurd hres (by simp)
    · exact absurd hres (by simp)
    · exact absurd hres (by simp)

/-- A property of the buckets that the lock word does not affect and that emptying the
item sequence keeps is kept by `clear`. -/
theorem clear_keeps (P : Nat → Nat → bucket_type Key T → Prop)
    (hlock : ∀ n i b w, P n i b → P n i { b with lock := w })
    (hclear : ∀ n i b w, P n i b → P n i { b with lock := w, items := [] })
    (fuel : Nat) (m m2 : concurrent_unordered_map Key T)
    (hinv : ∀ j b, m._buckets[j]? = some b → P m._buckets.length j b)
    (hres : concurrent_unordered_map.clear fuel m = Res.ok m2) :
    ∀ j b, m2._buckets[j]? = some b → P m2._buckets.length j b := by
  induction fuel generalizing m with
  | zero => simp [concurrent_unordered_map.clear] at hres
  | succ fuel ih =>
    unfold concurrent_unordered_map.clear at hres
    split at hres
    · rename_i bs hpass
      obtain ⟨hlen, hall⟩ := clear_pass_keeps P hlock hclear _ m._buckets.length m._buckets bs
        true 0 (by simpa using hinv) hpass
      simp only [Res.ok.injEq] at hres
      rw [← hres]
      simp only [hlen]
      simpa using hall
    · rename_i bs hpass
      obtain ⟨hlen, hall⟩ := clear_pass_keeps P hlock hclear _ m._buckets.length m._buckets bs
        false 0 (by simpa using hinv) hpass
      apply ih _ _ hres
      simp only [hlen]
      simpa using hall
    · exact absurd hres (by simp)
    · exact absurd hres (by simp)
    · exact absurd hres (by simp)

/-- Every reachable state has a property of the buckets that holds of a fresh bucket and
that the lock word does not affect, once the insertion of `emplace`, the removal of a slot
and (when `clear` is among the operations) the emptying of the item sequence keep it. -/
theorem reachable_keeps (P : Nat → Nat → bucket_type Key T → Prop) (e : Params Key)
    (with_clear : Bool)
    (hfresh : ∀ n i, P n i (bucket_type.new : bucket_type Key T))
    (hlock : ∀ n i b w, P n i b → P n i { b with lock := w })
    (hplace : ∀ k v n b ei,
      P n (concurrent_unordered_map.non_zero_hasher e k % n) b →
      P n (concurrent_unordered_map.non_zero_hasher e k % n)
        (concurrent_unordered_map.emplace_place k v
          (concurrent_unordered_map.non_zero_hasher e k) b ei).1)
    (herase : ∀ n i b off slot, P n i b → b.items[off]? = some slot →
      (slot.hash ≠ 0 ∨ ∃ k, slot.hash = concurrent_unordered_map.non_zero_hasher e k) →
      P n i (concurrent_unordered_map.erase_slot b off))
    (hclear : with_clear = true →
      ∀ n i b w, P n i b → P n i { b with lock := w, items := [] })
    (m : concurrent_unordered_map Key T)
    (hreach : concurrent_unordered_map.reachable e with_clear m) :
    ∀ j b, m._buckets[j]? = some b → P m._buckets.length j b := by
  induction hreach with
  | fresh =>
    intro j b hj
    have hmem := mem_of_getElem?_some' _ j b hj
    simp only [concurrent_unordered_map.new, List.mem_replicate] at hmem
    rw [hmem.2]
    exact hfresh _ _
  | fresh_n n =>
    intro j b hj
    have hmem := mem_of_getElem?_some' _ j b hj
    simp only [concurrent_unordered_map.new_n, List.mem_replicate] at hmem
    rw [hmem.2]
    exact hfresh _ _
  | by_emplace fuel m m2 k v it ins _ hres ih =>
    exact emplace_keeps P e k v hlock (hplace k v) fuel m m2 it ins ih hres
  | by_insert fuel m m2 v it ins _ hres ih =>
    exact emplace_keeps P e v.1 v.2 hlock (hplace v.1 v.2) fuel m m2 it ins ih hres
  | by_erase fuel m m2 k n _ hres ih =>
    exact erase_keeps P e k hlock
      (fun n i b off slot h1 h2 h3 => herase n i b off slot h1 h2 (Or.inr ⟨k, h3⟩))
      fuel m m2 n ih hres
  | by_erase_iterator fuel m m2 it ret _ hres ih =>
    exact erase_iterator_keeps P e hlock
      (fun n i b off slot h1 h2 h3 => herase n i b off slot h1 h2 (Or.inl h3))
      fuel m m2 it ret ih hres
  | by_clear fuel m m2 hc _ hres ih =>
    exact clear_keeps P hlock (hclear hc) fuel m m2 ih hres

/-! ### The slot-placement invariant -/

theorem emplace_place_mem (k : Key) (v : T) (h : Nat) (b : bucket_type Key T)
    (ei : Option Nat) (s : item_type Key T)
    (hs : s ∈ (concurrent_unordered_map.emplace_place k v h b ei).1.items) :
    s ∈ b.items ∨ s = ⟨(k, v), h⟩ := by
  unfold concurrent_unordered_map.emplace_place at hs
  split at hs
  · split at hs
    · split at hs
      · exact List.mem_or_eq_of_mem_set hs
      · exact Or.inl hs
    · exact Or.inl hs
  · simp only [List.mem_append, List.mem_singleton] at hs
    exact hs

theorem erase_slot_mem (b : bucket_type Key T) (off : Nat) (s : item_type Key T)
    (hs : s ∈ (concurrent_unordered_map.erase_slot b off).items) (hocc : s.hash ≠ 0) :
    s ∈ b.items := by
  have hmod : s ∈ b.items.modify (fun x => { x with hash := 0 }) off := by
    unfold concurrent_unordered_map.erase_slot at hs
    simp only at hs
    split at hs
    · obtain ⟨tail, hdec, _⟩ := shrink_decomp
        (b.items.modify (fun x => { x with hash := 0 }) off)
      rw [hdec]
      exact List.mem_append_left _ hs
    · exact hs
  obtain ⟨j, hj⟩ := List.mem_iff_getElem?.mp hmod
  by_cases hjo : j = off
  · subst hjo
    rw [List.getElem?_modify_eq] at hj
    cases hget : b.items[j]? with
    | none => simp [hget] at hj
    | some x =>
      rw [hget] at hj
      have hj2 : ({ x with hash := 0 } : item_type Key T) = s := by
        simpa using hj
      rw [← hj2] at hocc
      exact absurd rfl hocc
  · rw [List.getElem?_modify_ne _ _ (Ne.symm hjo)] at hj
    exact mem_of_getElem?_some b.items j s hj

/-- C18: in every state a single thread reaches from a freshly constructed map through
`emplace`, `insert`, `erase(key)`, `erase(iterator)` and `clear`, every occupied slot `s`
of the bucket with index `i` has `s.hash = wrap(hash(s.key))` and
`s.hash mod bucket_count = i`. -/
theorem slot_placement_invariant (e : Params Key) (m : concurrent_unordered_map Key T)
    (hreach : concurrent_unordered_map.reachable e true m)
    (i : Nat) (b : bucket_type Key T) (s : item_type Key T)
    (hb : m._buckets[i]? = some b) (hs : s ∈ b.items) (hocc : s.hash ≠ 0) :
    s.hash = concurrent_unordered_map.non_zero_hasher e s.p.1 ∧
    s.hash % concurrent_unordered_map.bucket_count m = i := by
  have key := reachable_keeps
    (fun n i (b : bucket_type Key T) => ∀ s ∈ b.items, s.hash ≠ 0 →
      s.hash = concurrent_unordered_map.non_zero_hasher e s.p.1 ∧ s.hash % n = i)
    e true
    (by
      intro n i s hs
      simp [bucket_type.new] at hs)
    (by
      intro n i b w hP
      exact hP)
    (by
      intro k v n b ei hP s hs hocc
      rcases emplace_place_mem k v _ b ei s hs with hold | hnew
      · exact hP s hold hocc
      · rw [hnew]
        exact ⟨rfl, rfl⟩)
    (by
      intro n i b off slot hP _ _ s hs hocc
      exact hP s (erase_slot_mem b off s hs hocc) hocc)
    (by
      intro _ n i b w _ s hs
      simp at hs)
    m hreach
  exact key i b hb s hs hocc

/-- Witness of C18: the state after `emplace(0, 97)` on a fresh 3-bucket map; the slot of
bucket 0 holds the wrapped hash of the key 0. -/
theorem slot_placement_invariant_witness :
    (2 ^ 64 - 1 : Nat) = concurrent_unordered_map.non_zero_hasher scenario_params 0 ∧
    (2 ^ 64 - 1) % concurrent_unordered_map.bucket_count
      (⟨0, [⟨0, 1, [⟨(0, 97), 2 ^ 64 - 1⟩]⟩, bucket_type.new, bucket_type.new]⟩ :
        concurrent_unordered_map Nat Nat) = 0 :=
  slot_placement_invariant scenario_params
    (⟨0, [⟨0, 1, [⟨(0, 97), 2 ^ 64 - 1⟩]⟩, bucket_type.new, bucket_type.new]⟩ :
      concurrent_unordered_map Nat Nat)
    (concurrent_unordered_map.reachable.by_emplace 1 (concurrent_unordered_map.new_n 3) _ 0 97
      ⟨0, 0, 0⟩ true (concurrent_unordered_map.reachable.fresh_n 3) (by decide))
    0 ⟨0, 1, [⟨(0, 97), 2 ^ 64 - 1⟩]⟩ ⟨(0, 97), 2 ^ 64 - 1⟩ rfl (by simp) (by decide)

/-! ### rehash and clear -/

theorem scenario_rehash_map_reachable :
    concurrent_unordered_map.reachable scenario_params true scenario_rehash_map :=
  concurrent_unordered_map.reachable.by_emplace 1
    (⟨0, [⟨0, 1, [⟨(6, 60), 6⟩]⟩, bucket_type.new, bucket_type.new]⟩ :
      concurrent_unordered_map Nat Nat) scenario_rehash_map 4 40 ⟨1, 0, 0⟩ true
    (concurrent_unordered_map.reachable.by_emplace 1 (concurrent_unordered_map.new_n 3) _ 6 60
      ⟨0, 0, 0⟩ true (concurrent_unordered_map.reachable.fresh_n 3) (by decide))
    (by decide)

theorem scenario_a_map_reachable :
    concurrent_unordered_map.reachable scenario_params true scenario_a_map :=
  concurrent_unordered_map.reachable.by_emplace 1 (concurrent_unordered_map.new_n 3) _ 0 97
    ⟨0, 0, 0⟩ true (concurrent_unordered_map.reachable.fresh_n 3) (by decide)

/-- C19 (code defect): `rehash(n)` is `_buckets.resize(n)` and nothing else. On the
reachable 3-bucket map holding the key 6 in bucket 0 and the key 4 in bucket 1,
`rehash(2)` does not refuse: whatever the capacity of the vector, it cuts the bucket
sequence to two buckets and leaves the slot with hash 4 in bucket 1 although
`4 mod 2 = 0`; `find(4)`, a hit before the call, returns end after it. `rehash(4)` on a
vector of capacity 3 moves the buckets through the move constructor, which drops their
items: every bucket is empty afterwards. -/
theorem rehash_leaves_item_in_wrong_bucket :
    concurrent_unordered_map.reachable scenario_params true scenario_rehash_map ∧
    (∀ capacity : Nat,
      concurrent_unordered_map.rehash capacity scenario_rehash_map 2 =
        ⟨0, [⟨0, 1, [⟨(6, 60), 6⟩]⟩, ⟨0, 1, [⟨(4, 40), 4⟩]⟩]⟩) ∧
    (concurrent_unordered_map.rehash 3 scenario_rehash_map 2)._buckets[1]? =
      some ⟨0, 1, [⟨(4, 40), 4⟩]⟩ ∧
    4 % concurrent_unordered_map.bucket_count
      (concurrent_unordered_map.rehash 3 scenario_rehash_map 2) = 0 ∧
    concurrent_unordered_map.find scenario_params 1 scenario_rehash_map 4 =
      Res.ok (scenario_rehash_map, ⟨1, 0, 0⟩) ∧
    concurrent_unordered_map.find scenario_params 1
        (concurrent_unordered_map.rehash 3 scenario_rehash_map 2) 4 =
      Res.ok (concurrent_unordered_map.rehash 3 scenario_rehash_map 2,
        concurrent_unordered_map.end_ scenario_params
          (concurrent_unordered_map.rehash 3 scenario_rehash_map 2)) ∧
    concurrent_unordered_map.rehash 3 scenario_rehash_map 4 =
      concurrent_unordered_map.new_n 4 := by
  refine ⟨scenario_rehash_map_reachable, ?_, by decide, by decide, by decide, by decide,
    by decide⟩
  intro capacity
  rfl

/-- C20 (code defect): `clear` empties the item sequences and leaves the counts as they
were. On the reachable 3-bucket map holding the key 0, `clear()` returns a reachable map
whose bucket 0 has count 1 and no slot at all, so that the count is not the number of
occupied slots, `size()` returns 1 and `empty()` returns false. -/
theorem clear_leaves_count_stale :
    concurrent_unordered_map.reachable scenario_params true scenario_a_map ∧
    concurrent_unordered_map.clear 1 scenario_a_map =
      Res.ok ⟨0, [⟨0, 1, []⟩, bucket_type.new, bucket_type.new]⟩ ∧
    concurrent_unordered_map.reachable scenario_params true
      (⟨0, [⟨0, 1, []⟩, bucket_type.new, bucket_type.new]⟩ :
        concurrent_unordered_map Nat Nat) ∧
    (⟨0, 1, []⟩ : bucket_type Nat Nat).count ≠
      concurrent_unordered_map.occupied (⟨0, 1, []⟩ : bucket_type Nat Nat).items ∧
    concurrent_unordered_map.size scenario_params 1
        (⟨0, [⟨0, 1, []⟩, bucket_type.new, bucket_type.new]⟩ :
          concurrent_unordered_map Nat Nat) = Res.ok 1 ∧
    concurrent_unordered_map.empty 1
        (⟨0, [⟨0, 1, []⟩, bucket_type.new, bucket_type.new]⟩ :
          concurrent_unordered_map Nat Nat) = Res.ok false := by
  refine ⟨scenario_a_map_reachable, by decide, ?_, by decide, by decide, by decide⟩
  exact concurrent_unordered_map.reachable.by_clear 1 scenario_a_map _ rfl
    scenario_a_map_reachable (by decide)

/-! ### Mutual exclusion of the pointer-tagged lock -/

theorem clear_mask_and_one (bits x : Nat) : (x &&& (SIZE_MAX bits - 1)) &&& 1 = 0 := by
  have hm : (SIZE_MAX bits - 1) &&& 1 = 0 := by
    rw [Nat.and_one_is_mod]
    unfold SIZE_MAX
    cases bits with
    | zero => rfl
    | succ b =>
      have : 2 ^ (b + 1) = 2 * 2 ^ b := by rw [Nat.pow_succ]; omega
      have hpos : 0 < 2 ^ b := Nat.two_pow_pos b
      omega
  rw [Nat.and_assoc, hm]
  simp

theorem get_set_cases {α : Type} (l : List α) (t t2 : Nat) (new a : α)
    (h : (l.set t new)[t2]? = some a) : a = new ∨ l[t2]? = some a := by
  by_cases ht : t = t2
  · subst ht
    rcases Nat.lt_or_ge t l.length with hlt | hge
    · rw [List.getElem?_set_self hlt] at h
      simp only [Option.some.injEq] at h
      exact Or.inl h.symm
    · rw [List.getElem?_eq_none (by simp; omega)] at h
      exact absurd h (by simp)
  · rw [List.getElem?_set_ne ht] at h
    exact Or.inr h

theorem ptr_holders_set (s : PtrThreads) (t : Nat) (old new : PtrPc)
    (hget : s.pcs[t]? = some old) :
    (s.pcs.set t new).countP PtrPc.is_holder =
      (s.pcs.countP PtrPc.is_holder - if old.is_holder = true then 1 else 0) +
        if new.is_holder = true then 1 else 0 := by
  obtain ⟨hlt, heq⟩ := List.getElem?_eq_some.mp hget
  rw [List.countP_set PtrPc.is_holder s.pcs t new hlt, heq]

theorem ptr_holders_pos (s : PtrThreads) (t : Nat) (pc : PtrPc) (hget : s.pcs[t]? = some pc)
    (hpc : pc.is_holder = true) : 0 < s.pcs.countP PtrPc.is_holder := by
  apply List.countP_pos_iff.mpr
  exact ⟨pc, mem_of_getElem?_some' s.pcs t pc hget, hpc⟩

/-- One atomic step on the pointer-tagged lock keeps: at most one thread holds the lock,
none does while the low bit of the word is clear, and every word a thread is about to
compare with or to store has its low bit clear. -/
theorem ptr_thread_step_keeps (bits : Nat) (s : PtrThreads) (t : Nat) (sp : Bool)
    (h1 : ptr_holders s ≤ 1) (h2 : s.v &&& 1 = 0 → ptr_holders s = 0)
    (h3 : ∀ (t2 x : Nat), s.pcs[t2]? = some (PtrPc.at_cas x) → x &&& 1 = 0) :
    ptr_holders (ptr_thread_step bits s t sp) ≤ 1 ∧
    ((ptr_thread_step bits s t sp).v &&& 1 = 0 →
      ptr_holders (ptr_thread_step bits s t sp) = 0) ∧
    (∀ (t2 x : Nat), (ptr_thread_step bits s t sp).pcs[t2]? = some (PtrPc.at_cas x) →
      x &&& 1 = 0) := by
  unfold ptr_holders at *
  unfold ptr_thread_step
  cases hget : s.pcs[t]? with
  | none => exact ⟨h1, h2, h3⟩
  | some pc =>
    cases pc with
    | at_load =>
      simp only
      by_cases hv : s.v &&& 1 = 0
      · simp only [hv, ne_eq, not_true_eq_false, if_false]
        rw [ptr_holders_set s t PtrPc.at_load (PtrPc.at_cas s.v) hget]
        simp only [PtrPc.is_holder, Bool.false_eq_true, if_false, Nat.sub_zero, Nat.add_zero]
        refine ⟨h1, fun _ => h2 hv, ?_⟩
        intro t2 x hx
        rcases get_set_cases _ _ _ _ _ hx with hnew | hold
        · simp only [PtrPc.at_cas.injEq] at hnew
          rw [hnew]
          exact hv
        · exact h3 t2 x hold
      · simp only [hv, ne_eq, not_false_eq_true, if_true]
        exact ⟨h1, fun h => absurd h (by simp), h3⟩
    | at_cas expected =>
      simp only
      have hexp : expected &&& 1 = 0 := h3 t expected hget
      by_cases hok : s.v = expected ∧ sp = false
      · have hzero : s.pcs.countP PtrPc.is_holder = 0 := h2 (by rw [hok.1]; exact hexp)
        simp only [compare_exchange_weak, hok, and_self, if_true]
        rw [ptr_holders_set s t (PtrPc.at_cas expected) PtrPc.holding hget]
        simp only [PtrPc.is_holder, Bool.false_eq_true, if_false, Nat.sub_zero, if_true, hzero]
        refine ⟨by omega, ?_, ?_⟩
        · intro h
          rw [or_one_and_one] at h
          exact absurd h (by decide)
        · intro t2 x hx
          rcases get_set_cases _ _ _ _ _ hx with hnew | hold
          · exact absurd hnew (by simp)
          · exact h3 t2 x hold
      · simp only [compare_exchange_weak, hok, if_false, Bool.false_eq_true]
        rw [ptr_holders_set s t (PtrPc.at_cas expected) PtrPc.at_load hget]
        simp only [PtrPc.is_holder, Bool.false_eq_true, if_false, Nat.sub_zero, Nat.add_zero]
        refine ⟨h1, h2, ?_⟩
        intro t2 x hx
        rcases get_set_cases _ _ _ _ _ hx with hnew | hold
        · exact absurd hnew (by simp)
        · exact h3 t2 x hold
    | holding =>
      simp only
      by_cases hv : s.v &&& 1 = 0
      · simp only [hv, if_true]
        exact ⟨h1, fun _ => h2 hv, h3⟩
      · simp only [hv, if_false]
        rw [ptr_holders_set s t PtrPc.holding _ hget]
        have hpos := ptr_holders_pos s t PtrPc.holding hget rfl
        simp only [PtrPc.is_holder, if_true]
        refine ⟨by omega, fun h => absurd h (by simp), ?_⟩
        intro t2 x hx
        rcases get_set_cases _ _ _ _ _ hx with hnew | hold
        · exact absurd hnew (by simp)
        · exact h3 t2 x hold
    | at_store value =>
      simp only
      rw [ptr_holders_set s t (PtrPc.at_store value) PtrPc.at_load hget]
      have hpos := ptr_holders_pos s t (PtrPc.at_store value) hget rfl
      simp only [PtrPc.is_holder, if_true, Bool.false_eq_true, if_false, Nat.add_zero]
      refine ⟨by omega, fun _ => by omega, ?_⟩
      intro t2 x hx
      rcases get_set_cases _ _ _ _ _ hx with hnew | hold
      · exact absurd hnew (by simp)
      · exact h3 t2 x hold

theorem ptr_run_schedule_keeps (bits : Nat) (s : PtrThreads) (sched : List (Nat × Bool))
    (h1 : ptr_holders s ≤ 1) (h2 : s.v &&& 1 = 0 → ptr_holders s = 0)
    (h3 : ∀ (t2 x : Nat), s.pcs[t2]? = some (PtrPc.at_cas x) → x &&& 1 = 0) :
    ptr_holders (ptr_run_schedule bits s sched) ≤ 1 := by
  induction sched generalizing s with
  | nil => exact h1
  | cons step rest ih =>
    obtain ⟨g1, g2, g3⟩ := ptr_thread_step_keeps bits s step.1 step.2 h1 h2 h3
    exact ih (ptr_thread_step bits s step.1 step.2) g1 g2 g3

theorem ptr_start_holders (p n : Nat) : ptr_holders (PtrThreads.start p n) = 0 := by
  unfold ptr_holders PtrThreads.start
  apply List.countP_eq_zero.mpr
  intro a ha
  rw [List.mem_replicate] at ha
  rw [ha.2]
  simp [PtrPc.is_holder]

theorem ptr_mutual_exclusion (bits p n : Nat) (sched : List (Nat × Bool)) :
    ptr_holders (ptr_run_schedule bits (PtrThreads.start p n) sched) ≤ 1 := by
  apply ptr_run_schedule_keeps bits _ sched
  · rw [ptr_start_holders]
    omega
  · intro _
    exact ptr_start_holders p n
  · intro t2 x hx
    have hmem := mem_of_getElem?_some' _ t2 _ hx
    simp only [PtrThreads.start, List.mem_replicate] at hmem
    exact absurd hmem.2 (by simp)

/-- C15: mutual exclusion, for the plain spin lock and for the pointer-tagged one. For
every number of threads that each run `lock(); ...; unlock();` again and again, and for
every interleaving of their atomic steps (the load and the compare-exchange of
`try_lock()`, with or without spurious failure, and the load and store of `unlock()`), at
most one thread is between the return of its `lock()` and the end of its `unlock()`,
after every prefix of the interleaving; and the lock can be taken: two steps of one
thread make it the holder. -/
theorem spin_lock_mutual_exclusion (n : Nat) (sched : List (Nat × Bool)) :
    holders (run_schedule (Threads.start n) sched) ≤ 1 ∧
    (∀ k : Nat, holders (run_schedule (Threads.start n) (sched.take k)) ≤ 1) ∧
    holders (run_schedule (Threads.start 2) [(0, false), (0, false)]) = 1 ∧
    (∀ bits p k : Nat,
      ptr_holders (ptr_run_schedule bits (PtrThreads.start p n) (sched.take k)) ≤ 1) ∧
    ptr_holders (ptr_run_schedule 64 (PtrThreads.start 4096 2) [(0, false), (0, false)]) = 1 := by
  have h0 := holders_start n
  refine ⟨?_, ?_, by decide, ?_, by decide⟩
  · exact (run_schedule_keeps (Threads.start n) sched (by omega) (fun _ => h0)).1
  · intro k
    exact (run_schedule_keeps (Threads.start n) (sched.take k) (by omega) (fun _ => h0)).1
  · intro bits p k
    exact ptr_mutual_exclusion bits p n (sched.take k)

/-! ### Iterator catch-up -/

/-- Once the offset is at or past the size of the bound bucket, the spill loop of
`catch_up` runs the bucket position to the end of the vector: every later round compares
`(size_t) -1` with the size of the same bucket. -/
theorem catch_up_spill_to_end (bits size nbuckets : Nat) (hsz : size ≤ SIZE_MAX bits) :
    ∀ steps itb offset : Nat, size ≤ offset → itb < nbuckets → nbuckets - itb ≤ steps →
      concurrent_unordered_map.catch_up_spill bits size nbuckets steps itb offset =
        (nbuckets, SIZE_MAX bits) := by
  intro steps
  induction steps with
  | zero => intro itb offset _ hlt hsteps; omega
  | succ steps ih =>
    intro itb offset hoff hlt hsteps
    unfold concurrent_unordered_map.catch_up_spill
    rw [if_pos ⟨hoff, Nat.ne_of_lt hlt⟩]
    by_cases hlast : itb + 1 = nbuckets
    · rw [hlast]
      cases steps with
      | zero => rfl
      | succ s =>
        unfold concurrent_unordered_map.catch_up_spill
        rw [if_neg (fun h => h.2 rfl)]
    · exact ih (itb + 1) (SIZE_MAX bits) hsz (by omega) (by omega)

/-- C22 (code defect): the spill loop of `catch_up` tests `_offset >= b.items.size()`
against the bucket bound before the loop, so after its first round, with `_offset` at
`(size_t) -1`, it runs on to the end of the bucket vector. On every map whose bucket 0 is
free and holds no slot, catching up `begin()` ends at the position of `end()` with the
increment still pending, whatever the later buckets hold. -/
theorem catch_up_skips_later_buckets (e : Params Key) (fuel : Nat)
    (m : concurrent_unordered_map Key T) (b : bucket_type Key T) (hbits : 0 < e.bits)
    (hb : m._buckets[0]? = some b) (hlock : b.lock = 0) (hitems : b.items = []) :
    concurrent_unordered_map.catch_up e false (fuel + 2) m
        (concurrent_unordered_map.begin_ e m) =
      Res.ok (m, ⟨m._buckets.length, SIZE_MAX e.bits, 1⟩) := by
  have hlen : 0 < m._buckets.length := by
    rcases List.getElem?_eq_some.mp hb with ⟨h, _⟩
    exact h
  have hpow : 2 ≤ 2 ^ e.bits := by
    calc 2 = 2 ^ 1 := rfl
      _ ≤ 2 ^ e.bits := Nat.pow_le_pow_right (by decide) hbits
  have hstart : (SIZE_MAX e.bits + 1) % 2 ^ e.bits = 0 := by
    unfold SIZE_MAX
    rw [Nat.sub_add_cancel (by omega)]
    exact Nat.mod_self _
  obtain ⟨lk, cnt, its⟩ := b
  simp only at hlock hitems
  subst hlock
  subst hitems
  have hsame : concurrent_unordered_map.set_bucket m 0
      (⟨spinlockbase.unlock 1, cnt, []⟩ : bucket_type Key T) = m :=
    set_bucket_same m 0 _ hb
  unfold concurrent_unordered_map.catch_up
  simp only [concurrent_unordered_map.begin_]
  rw [if_pos ⟨by decide, by omega⟩]
  simp only [Bool.false_eq_true, if_false, hb]
  rw [lock_only_if_not_free]
  simp only [hstart, List.drop_nil, concurrent_unordered_map.catch_up_scan,
    List.length_nil, ne_eq, one_ne_zero, not_false_eq_true, if_true, Nat.sub_zero]
  rw [catch_up_spill_to_end e.bits 0 m._buckets.length (Nat.zero_le _) _ 0 0 (Nat.le_refl 0)
    hlen (by omega)]
  rw [hsame]
  unfold concurrent_unordered_map.catch_up
  rw [if_neg (fun h => h.2 rfl)]

theorem catch_up_skips_later_buckets_witness :
    concurrent_unordered_map.emplace scenario_params 3
        (concurrent_unordered_map.new_n 3) 4 40 =
      Res.ok (scenario_one_key_map, ⟨1, 0, 0⟩, true) ∧
    concurrent_unordered_map.value_at scenario_one_key_map ⟨1, 0, 0⟩ = some (4, 40) ∧
    concurrent_unordered_map.catch_up scenario_params false 2 scenario_one_key_map
        (concurrent_unordered_map.begin_ scenario_params scenario_one_key_map) =
      Res.ok (scenario_one_key_map, ⟨3, SIZE_MAX 64, 1⟩) :=
  ⟨by decide, by decide,
    catch_up_skips_later_buckets scenario_params 0 scenario_one_key_map bucket_type.new
      (by decide) rfl rfl rfl⟩

/-! ### Whether a lockable is locked, and iterator comparison -/

/-- C24 (code defect): the generic `is_lockable_locked` returns true when its `try_lock()`
succeeds, which is when the lockable was free, and false when the lockable is held. On a
lockable with the spin lock's own `try_lock` and `unlock`: a free one (word 0) is
reported as locked, a held one (any word other than 0) as not locked; the word is left
as found in both cases. The two overloads for `spinlock` report the opposite: the loaded
word, and its low bit. -/
theorem is_lockable_locked_reports_free_as_locked :
    is_lockable_locked (spinlockbase.try_lock false) spinlockbase.unlock 0 = (true, 0) ∧
    (∀ (spurious : Bool) (v : Nat),
      is_lockable_locked (spinlockbase.try_lock spurious) spinlockbase.unlock (v + 1) =
        (false, v + 1)) ∧
    is_lockable_locked_spinlock 0 = 0 ∧
    (∀ v : Nat, is_lockable_locked_spinlock (v + 1) ≠ 0) ∧
    (∀ p : Nat, is_lockable_locked_ptr (2 * p) = false ∧
      is_lockable_locked_ptr (2 * p ||| 1) = true) := by
  refine ⟨by decide, ?_, rfl, ?_, ?_⟩
  · intro spurious v
    simp [is_lockable_locked, spinlockbase.try_lock]
  · intro v
    simp [is_lockable_locked_spinlock]
  · intro p
    constructor
    · simp [is_lockable_locked_ptr, Nat.and_one_is_mod]
    · simp only [is_lockable_locked_ptr, or_one_and_one]
      decide

/-- C25 (code defect): `operator!=` ends in `_pending_incr|=o._pending_incr`, an
or-assignment where `operator==` compares the two counters. An iterator with a pending
increment is both `==` and `!=` to itself (so is `begin()` on any map); `!=` is the
negation of `==` only between iterators with no pending increment. -/
theorem operator_ne_is_not_negation_of_operator_eq :
    (∀ a o : iterator, iterator.operator_eq a o = true ↔ a = o) ∧
    (∀ itb offset pending : Nat,
      iterator.operator_eq ⟨itb, offset, pending + 1⟩ ⟨itb, offset, pending + 1⟩ = true ∧
      iterator.operator_ne ⟨itb, offset, pending + 1⟩ ⟨itb, offset, pending + 1⟩ = true) ∧
    (∀ itb offset itb2 offset2 : Nat,
      iterator.operator_ne ⟨itb, offset, 0⟩ ⟨itb2, offset2, 0⟩ =
        !iterator.operator_eq ⟨itb, offset, 0⟩ ⟨itb2, offset2, 0⟩) := by
  refine ⟨?_, ?_, ?_⟩
  · intro a o
    cases a
    cases o
    simp [iterator.operator_eq, and_assoc]
  · intro itb offset pending
    constructor
    · simp [iterator.operator_eq]
    · simp only [iterator.operator_ne, Nat.or_self]
      simp
  · intro itb offset itb2 offset2
    simp only [iterator.operator_ne, iterator.operator_eq, Nat.or_self]
    by_cases h1 : itb = itb2 <;> by_cases h2 : offset = offset2 <;> simp [h1, h2]

/-! ### The bucket count -/

/-- C28 (code defect): the constructor turns a bucket count of 0 into 1, `rehash` does
not. After `rehash(0)` on a map from either constructor the bucket vector is empty,
`bucket_count()` is 0, and `find`, `emplace` and `erase`, which reduce the hash modulo
the bucket count, are undefined. -/
theorem rehash_zero_leaves_no_bucket (e : Params Key) (capacity n fuel : Nat) (k : Key)
    (v : T) :
    concurrent_unordered_map.bucket_count
      (concurrent_unordered_map.new_n n : concurrent_unordered_map Key T) ≥ 1 ∧
    concurrent_unordered_map.bucket_count
      (concurrent_unordered_map.rehash capacity
        (concurrent_unordered_map.new_n n : concurrent_unordered_map Key T) 0) = 0 ∧
    concurrent_unordered_map.bucket_count
      (concurrent_unordered_map.rehash capacity
        (concurrent_unordered_map.new : concurrent_unordered_map Key T) 0) = 0 ∧
    concurrent_unordered_map.find e (fuel + 1)
      (concurrent_unordered_map.rehash capacity
        (concurrent_unordered_map.new_n n : concurrent_unordered_map Key T) 0) k =
      Res.undef ∧
    concurrent_unordered_map.emplace e (fuel + 1)
      (concurrent_unordered_map.rehash capacity
        (concurrent_unordered_map.new_n n : concurrent_unordered_map Key T) 0) k v =
      Res.undef ∧
    concurrent_unordered_map.erase e (fuel + 1)
      (concurrent_unordered_map.rehash capacity
        (concurrent_unordered_map.new_n n : concurrent_unordered_map Key T) 0) k =
      Res.undef := by
  have hz : ∀ m : concurrent_unordered_map Key T,
      (concurrent_unordered_map.rehash capacity m 0)._buckets = [] := by
    intro m
    simp [concurrent_unordered_map.rehash]
  refine ⟨?_, ?_, ?_, ?_, ?_, ?_⟩
  · simp only [concurrent_unordered_map.bucket_count, concurrent_unordered_map.new_n,
      List.length_replicate]
    split <;> omega
  · simp [concurrent_unordered_map.bucket_count, hz]
  · simp [concurrent_unordered_map.bucket_count, hz]
  · simp [concurrent_unordered_map.find, hz]
  · simp [concurrent_unordered_map.emplace, hz]
  · simp [concurrent_unordered_map.erase, hz]

/-! ### What a call that returns has done

Run by a single thread, a call that returns finds the lock of its bucket free and leaves
it free: the bucket it writes back is the bucket as the insertion or the removal left
it, and a round that does neither leaves the map as it was. -/

theorem emplace_search_same (e : Params Key) (fuel : Nat) (k : Key) (h : Nat)
    (b b1 : bucket_type Key T) (f ei : Option Nat)
    (hs : concurrent_unordered_map.emplace_search e fuel k h b = Res.ok (b1, f, ei)) :
    b1 = b ∧ (f ≠ none → b.lock = 0) := by
  unfold concurrent_unordered_map.emplace_search at hs
  split at hs
  · split at hs
    · rename_i w hlk
      rcases lock_only_if_not_result _ _ _ _ hlk with ⟨_, h0, _⟩ | ⟨hf, _, _⟩
      · simp only [Res.ok.injEq, Prod.mk.injEq] at hs
        rw [← hs.1]
        exact ⟨bucket_lock_zero b h0, fun _ => h0⟩
      · exact absurd hf (by simp)
    · rename_i w hlk
      rcases lock_only_if_not_result _ _ _ _ hlk with ⟨ht, _, _⟩ | ⟨_, h2, hw⟩
      · exact absurd ht (by simp)
      · simp only [Res.ok.injEq, Prod.mk.injEq] at hs
        rw [← hs.1, ← hs.2.1]
        exact ⟨bucket_lock_same b w (by rw [h2, hw]), fun hne => absurd rfl hne⟩
    · exact absurd hs (by simp)
    · exact absurd hs (by simp)
    · exact absurd hs (by simp)
  · split at hs
    · simp only [Res.ok.injEq, Prod.mk.injEq] at hs
      rw [← hs.1, ← hs.2.1]
      exact ⟨rfl, fun hne => absurd rfl hne⟩
    · simp only [Res.ok.injEq, Prod.mk.injEq] at hs
      rw [← hs.1, ← hs.2.1]
      exact ⟨rfl, fun hne => absurd rfl hne⟩

theorem emplace_search_any_fuel (e : Params Key) (fuel fuel2 : Nat) (k : Key) (h : Nat)
    (b : bucket_type Key T) (hlock : b.lock = 0) :
    concurrent_unordered_map.emplace_search e (fuel + 1) k h b =
      concurrent_unordered_map.emplace_search e (fuel2 + 1) k h b := by
  by_cases hcount : b.count = 0
  · rw [emplace_search_count_zero e _ k h b hcount, emplace_search_count_zero e _ k h b hcount]
  · rw [emplace_search_free e fuel k h b hlock hcount,
      emplace_search_free e fuel2 k h b hlock hcount]

theorem emplace_place_lock (k : Key) (v : T) (h : Nat) (b : bucket_type Key T)
    (ei : Option Nat) :
    (concurrent_unordered_map.emplace_place k v h b ei).1.lock = b.lock := by
  unfold concurrent_unordered_map.emplace_place
  split
  · split
    · split <;> rfl
    · rfl
  · rfl

theorem emplace_place_none (k : Key) (v : T) (h : Nat) (b : bucket_type Key T)
    (ei : Option Nat)
    (hnone : (concurrent_unordered_map.emplace_place k v h b ei).2 = none) :
    (concurrent_unordered_map.emplace_place k v h b ei).1 = b := by
  cases ei with
  | none => simp [concurrent_unordered_map.emplace_place] at hnone
  | some idx =>
    cases hget : b.items[idx]? with
    | none => simp [concurrent_unordered_map.emplace_place, hget]
    | some slot =>
      by_cases hz : slot.hash = 0
      · simp [concurrent_unordered_map.emplace_place, hget, hz] at hnone
      · simp [concurrent_unordered_map.emplace_place, hget, hz]

/-- A call of `emplace` that returns found the lock of the bucket free; it either met an
equal key and left the map as it was, or wrote the bucket as `emplace_place` left it. -/
theorem emplace_result (e : Params Key) (fuel : Nat) (m m2 : concurrent_unordered_map Key T)
    (k : Key) (v : T) (it : iterator) (ins : Bool)
    (hres : concurrent_unordered_map.emplace e fuel m k v = Res.ok (m2, it, ins)) :
    ∃ b found ei,
      m._buckets[concurrent_unordered_map._get_bucket m
        (concurrent_unordered_map.non_zero_hasher e k)]? = some b ∧ b.lock = 0 ∧
      concurrent_unordered_map.emplace_search e 1 k
        (concurrent_unordered_map.non_zero_hasher e k) b = Res.ok (b, found, ei) ∧
      ((∃ off, found = some off ∧ m2 = m ∧ ins = false ∧
          it = ⟨concurrent_unordered_map._get_bucket m
            (concurrent_unordered_map.non_zero_hasher e k), off, 0⟩) ∨
       (found = none ∧ ∃ b2 off,
          concurrent_unordered_map.emplace_place k v
            (concurrent_unordered_map.non_zero_hasher e k) b ei = (b2, some off) ∧
          m2 = concurrent_unordered_map.set_bucket m
            (concurrent_unordered_map._get_bucket m
              (concurrent_unordered_map.non_zero_hasher e k)) b2 ∧
          ins = true ∧
          it = ⟨concurrent_unordered_map._get_bucket m
            (concurrent_unordered_map.non_zero_hasher e k), off, 0⟩)) := by
  induction fuel with
  | zero => simp [concurrent_unordered_map.emplace] at hres
  | succ fuel ih =>
    unfold concurrent_unordered_map.emplace at hres
    simp only at hres
    split at hres
    · exact absurd hres (by simp)
    · split at hres
      · exact absurd hres (by simp)
      · rename_i b hb
        split at hres
        · rename_i b1 offset ei hsearch
          obtain ⟨hb1, hl⟩ := emplace_search_same e _ k _ b b1 _ _ hsearch
          have hlock : b.lock = 0 := hl (by simp)
          rw [hb1] at hsearch hres
          rw [set_bucket_same m _ b hb] at hres
          simp only [Res.ok.injEq, Prod.mk.injEq] at hres
          refine ⟨b, some offset, ei, hb, hlock, ?_, Or.inl ⟨offset, rfl, hres.1.symm,
            hres.2.2.symm, hres.2.1.symm⟩⟩
          rw [← hsearch]
          exact emplace_search_any_fuel e 0 fuel k _ b hlock
        · rename_i b1 ei hsearch
          obtain ⟨hb1, _⟩ := emplace_search_same e _ k _ b b1 _ _ hsearch
          rw [hb1] at hsearch hres
          split at hres
          · rename_i w hlk
            have hlock : b.lock = 0 := by
              rcases lock_only_if_not_result _ _ _ _ hlk with ⟨_, h0, _⟩ | ⟨hf, _, _⟩
              · exact h0
              · exact absurd hf (by simp)
            have hpl := emplace_place_lock k v (concurrent_unordered_map.non_zero_hasher e k)
              b ei
            split at hres
            · rename_i off hoff
              rw [bucket_lock_zero _ (by rw [hpl]; exact hlock)] at hres
              simp only [Res.ok.injEq, Prod.mk.injEq] at hres
              refine ⟨b, none, ei, hb, hlock, ?_, Or.inr ⟨rfl, _, off, ?_, hres.1.symm,
                hres.2.2.symm, hres.2.1.symm⟩⟩
              · rw [← hsearch]
                exact emplace_search_any_fuel e 0 fuel k _ b hlock
              · exact Prod.ext rfl hoff
            · rename_i hoff
              rw [bucket_lock_zero _ (by rw [hpl]; exact hlock),
                emplace_place_none k v _ b ei hoff, set_bucket_same m _ b hb] at hres
              exact ih hres
          · rename_i w hlk
            have hw : b.lock = w := by
              rcases lock_only_if_not_result _ _ _ _ hlk with ⟨ht, _, _⟩ | ⟨_, h2, hw⟩
              · exact absurd ht (by simp)
              · rw [h2, hw]
            rw [bucket_lock_same b w hw, set_bucket_same m _ b hb] at hres
            exact ih hres
          · exact absurd hres (by simp)
          · exact absurd hres (by simp)
          · exact absurd hres (by simp)
        · exact absurd hres (by simp)
        · exact absurd hres (by simp)
        · exact absurd hres (by simp)

theorem erase_slot_lock (b : bucket_type Key T) (off : Nat) :
    (concurrent_unordered_map.erase_slot b off).lock = b.lock := by
  cases b
  rfl

/-- A call of `erase(key)` that returns found the lock of the bucket free and its count
not 0; it either met no equal key and left the map as it was, or removed the slot the
scan stopped at. -/
theorem erase_result (e : Params Key) (fuel : Nat) (m m2 : concurrent_unordered_map Key T)
    (k : Key) (n : Nat)
    (hres : concurrent_unordered_map.erase e fuel m k = Res.ok (m2, n)) :
    ∃ b,
      m._buckets[concurrent_unordered_map._get_bucket m
        (concurrent_unordered_map.non_zero_hasher e k)]? = some b ∧ b.lock = 0 ∧
      b.count ≠ 0 ∧
      ((concurrent_unordered_map.find_loop e k
          (concurrent_unordered_map.non_zero_hasher e k) b.items 0 = none ∧
        m2 = m ∧ n = 0) ∨
       (∃ off, concurrent_unordered_map.find_loop e k
          (concurrent_unordered_map.non_zero_hasher e k) b.items 0 = some off ∧
        m2 = concurrent_unordered_map.set_bucket m
          (concurrent_unordered_map._get_bucket m
            (concurrent_unordered_map.non_zero_hasher e k))
          (concurrent_unordered_map.erase_slot b off) ∧ n = 1)) := by
  induction fuel with
  | zero => simp [concurrent_unordered_map.erase] at hres
  | succ fuel ih =>
    unfold concurrent_unordered_map.erase at hres
    simp only at hres
    split at hres
    · exact absurd hres (by simp)
    · split at hres
      · exact absurd hres (by simp)
      · rename_i b hb
        split at hres
        · rename_i hcount
          split at hres
          · rename_i w hlk
            have hlock : b.lock = 0 := by
              rcases lock_only_if_not_result _ _ _ _ hlk with ⟨_, h0, _⟩ | ⟨hf, _, _⟩
              · exact h0
              · exact absurd hf (by simp)
            refine ⟨b, hb, hlock, hcount, ?_⟩
            split at hres
            · rename_i off hfind
              rw [bucket_lock_zero _ (by rw [erase_slot_lock]; exact hlock)] at hres
              simp only [Res.ok.injEq, Prod.mk.injEq] at hres
              exact Or.inr ⟨off, hfind, hres.1.symm, hres.2.symm⟩
            · rename_i hfind
              rw [bucket_lock_zero b hlock, set_bucket_same m _ b hb] at hres
              simp only [Res.ok.injEq, Prod.mk.injEq] at hres
              exact Or.inl ⟨hfind, hres.1.symm, hres.2.symm⟩
          · rename_i w hlk
            have hw : b.lock = w := by
              rcases lock_only_if_not_result _ _ _ _ hlk with ⟨ht, _, _⟩ | ⟨_, h2, hw⟩
              · exact absurd ht (by simp)
              · rw [h2, hw]
            rw [bucket_lock_same b w hw, set_bucket_same m _ b hb] at hres
            exact ih hres
          · exact absurd hres (by simp)
          · exact absurd hres (by simp)
          · exact absurd hres (by simp)
        · exact ih hres

/-- A call of `erase(iterator)` that returns either left the map as it was, or found the
lock of the bucket free and removed the occupied slot the iterator is bound to. -/
theorem erase_iterator_result (e : Params Key) (fuel : Nat)
    (m m2 : concurrent_unordered_map Key T) (it ret : iterator)
    (hres : concurrent_unordered_map.erase_iterator e fuel m it = Res.ok (m2, ret)) :
    m2 = m ∨
    ∃ b slot, m._buckets[it._itb]? = some b ∧ b.lock = 0 ∧
      b.items[it._offset]? = some slot ∧ slot.hash ≠ 0 ∧
      m2 = concurrent_unordered_map.set_bucket m it._itb
        (concurrent_unordered_map.erase_slot b it._offset) := by
  unfold concurrent_unordered_map.erase_iterator at hres
  simp only at hres
  split at hres
  · simp only [Res.ok.injEq, Prod.mk.injEq] at hres
    exact Or.inl hres.1.symm
  · split at hres
    · exact absurd hres (by simp)
    · rename_i b hb
      split at hres
      · rename_i w hlk
        have hlock : b.lock = 0 := by
          rcases lock_only_if_not_result _ _ _ _ hlk with ⟨_, h0, _⟩ | ⟨hf, _, _⟩
          · exact h0
          · exact absurd hf (by simp)
        split at hres
        · rename_i slot hslot
          split at hres
          · rename_i hocc
            rw [bucket_lock_zero _ (by rw [erase_slot_lock]; exact hlock)] at hres
            simp only [Res.ok.injEq, Prod.mk.injEq] at hres
            exact Or.inr ⟨b, slot, hb, hlock, hslot, hocc, hres.1.symm⟩
          · rw [bucket_lock_zero b hlock, set_bucket_same m _ b hb] at hres
            simp only [Res.ok.injEq, Prod.mk.injEq] at hres
            exact Or.inl hres.1.symm
        · rw [bucket_lock_zero b hlock, set_bucket_same m _ b hb] at hres
          simp only [Res.ok.injEq, Prod.mk.injEq] at hres
          exact Or.inl hres.1.symm
      · exact absurd hres (by simp)
      · exact absurd hres (by simp)
      · exact absurd hres (by simp)
      · exact absurd hres (by simp)

theorem clear_pass_result (fuel : Nat) (bs bs2 : List (bucket_type Key T)) (done : Bool)
    (hres : concurrent_unordered_map.clear_pass fuel bs = Res.ok (bs2, done)) :
    (done = false → ∃ b ∈ bs2, b.lock ≠ 0) ∧
    (done = true → (∀ b ∈ bs, b.lock = 0) ∧
      bs2 = bs.map (fun b => { b with items := [] })) := by
  induction bs generalizing bs2 done with
  | nil =>
    simp only [concurrent_unordered_map.clear_pass, Res.ok.injEq, Prod.mk.injEq] at hres
    rw [← hres.1, ← hres.2]
    simp
  | cons b rest ih =>
    unfold concurrent_unordered_map.clear_pass at hres
    split at hres
    · rename_i w hlk
      have hlock : b.lock = 0 := by
        rcases lock_only_if_not_result _ _ _ _ hlk with ⟨_, h0, _⟩ | ⟨hf, _, _⟩
        · exact h0
        · exact absurd hf (by simp)
      split at hres
      · rename_i rest2 done2 hrest
        simp only [Res.ok.injEq, Prod.mk.injEq] at hres
        obtain ⟨ih1, ih2⟩ := ih rest2 done2 hrest
        have hbb : ({ b with lock := spinlockbase.unlock 1, items := [] } : bucket_type Key T)
            = { b with items := [] } := by
          cases b
          simp only [spinlockbase.unlock] at *
          simp [hlock]
        rw [← hres.1, ← hres.2]
        constructor
        · intro hd
          obtain ⟨b', hb', hne⟩ := ih1 hd
          exact ⟨b', List.mem_cons_of_mem _ hb', hne⟩
        · intro hd
          obtain ⟨hl, hm⟩ := ih2 hd
          refine ⟨?_, ?_⟩
          · intro b' hb'
            rcases List.mem_cons.mp hb' with h | h
            · rw [h]; exact hlock
            · exact hl b' h
          · rw [hbb, hm]
            rfl
      · exact absurd hres (by simp)
      · exact absurd hres (by simp)
      · exact absurd hres (by simp)
    · rename_i w hlk
      have hw : w = 2 := by
        rcases lock_only_if_not_result _ _ _ _ hlk with ⟨ht, _, _⟩ | ⟨_, _, hw⟩
        · exact absurd ht (by simp)
        · exact hw
      simp only [Res.ok.injEq, Prod.mk.injEq] at hres
      rw [← hres.1, ← hres.2]
      refine ⟨fun _ => ⟨_, List.mem_cons_self _ _, ?_⟩, fun h => absurd h (by simp)⟩
      show w ≠ 0
      omega
    · exact absurd hres (by simp)
    · exact absurd hres (by simp)
    · exact absurd hres (by simp)

/-- A call of `clear` that returns found every bucket lock free and emptied every item
sequence, leaving the counts as they were. -/
theorem clear_result (fuel : Nat) (m m2 : concurrent_unordered_map Key T)
    (hres : concurrent_unordered_map.clear fuel m = Res.ok m2) :
    (∀ b ∈ m._buckets, b.lock = 0) ∧
    m2 = { m with _buckets := m._buckets.map (fun b => { b with items := [] }) } := by
  induction fuel generalizing m with
  | zero => simp [concurrent_unordered_map.clear] at hres
  | succ fuel ih =>
    unfold concurrent_unordered_map.clear at hres
    split at hres
    · rename_i bs hpass
      obtain ⟨hl, hm⟩ := (clear_pass_result _ _ _ _ hpass).2 rfl
      simp only [Res.ok.injEq] at hres
      rw [← hres, hm]
      exact ⟨hl, rfl⟩
    · rename_i bs hpass
      obtain ⟨b, hb, hne⟩ := (clear_pass_result _ _ _ _ hpass).1 rfl
      exact absurd ((ih _ hres).1 b hb) hne
    · exact absurd hres (by simp)
    · exact absurd hres (by simp)
    · exact absurd hres (by simp)

/-- A property of the buckets that holds of a new bucket and is kept by the insertion
`emplace` makes after its search, by the removal of an occupied slot and (with `clear`)
by emptying the item sequence, each on a bucket whose lock is free, holds of every
bucket of every reachable state. -/
theorem reachable_inv (P : Nat → Nat → bucket_type Key T → Prop) (e : Params Key)
    (with_clear : Bool) (hbits : 0 < e.bits)
    (hfresh : ∀ n i, P n i (bucket_type.new : bucket_type Key T))
    (hplace : ∀ n k v b ei b2 off,
      P n (concurrent_unordered_map.non_zero_hasher e k % n) b → b.lock = 0 →
      concurrent_unordered_map.emplace_search e 1 k
        (concurrent_unordered_map.non_zero_hasher e k) b = Res.ok (b, none, ei) →
      concurrent_unordered_map.emplace_place k v
        (concurrent_unordered_map.non_zero_hasher e k) b ei = (b2, some off) →
      P n (concurrent_unordered_map.non_zero_hasher e k % n) b2)
    (herase : ∀ n i b off slot, P n i b → b.lock = 0 → b.items[off]? = some slot →
      slot.hash ≠ 0 → P n i (concurrent_unordered_map.erase_slot b off))
    (hclear : with_clear = true →
      ∀ n i b, P n i b → b.lock = 0 → P n i { b with items := [] })
    (m : concurrent_unordered_map Key T)
    (hreach : concurrent_unordered_map.reachable e with_clear m) :
    ∀ j b, m._buckets[j]? = some b → P m._buckets.length j b := by
  have hemp : ∀ (fuel : Nat) (m m2 : concurrent_unordered_map Key T) (k : Key) (v : T)
      (it : iterator) (ins : Bool),
      (∀ j b, m._buckets[j]? = some b → P m._buckets.length j b) →
      concurrent_unordered_map.emplace e fuel m k v = Res.ok (m2, it, ins) →
      ∀ j b, m2._buckets[j]? = some b → P m2._buckets.length j b := by
    intro fuel m m2 k v it ins ih hres
    obtain ⟨b, found, ei, hb, hlock, hsearch, hcase⟩ := emplace_result e fuel m m2 k v it ins hres
    rcases hcase with ⟨off, _, hm2, _, _⟩ | ⟨hfound, b2, off, hpl, hm2, _, _⟩
    · rw [hm2]
      exact ih
    · rw [hm2]
      apply set_bucket_keeps P m _ b2 ih
      rw [hfound] at hsearch
      exact hplace _ k v b ei b2 off (ih _ b hb) hlock hsearch hpl
  induction hreach with
  | fresh =>
    intro j b hj
    have hmem := mem_of_getElem?_some' _ j b hj
    simp only [concurrent_unordered_map.new, List.mem_replicate] at hmem
    rw [hmem.2]
    exact hfresh _ _
  | fresh_n n =>
    intro j b hj
    have hmem := mem_of_getElem?_some' _ j b hj
    simp only [concurrent_unordered_map.new_n, List.mem_replicate] at hmem
    rw [hmem.2]
    exact hfresh _ _
  | by_emplace fuel m m2 k v it ins _ hres ih =>
    exact hemp fuel m m2 k v it ins ih hres
  | by_insert fuel m m2 v it ins _ hres ih =>
    exact hemp fuel m m2 v.1 v.2 it ins ih hres
  | by_erase fuel m m2 k n _ hres ih =>
    obtain ⟨b, hb, hlock, _, hcase⟩ := erase_result e fuel m m2 k n hres
    rcases hcase with ⟨_, hm2, _⟩ | ⟨off, hfind, hm2, _⟩
    · rw [hm2]
      exact ih
    · rw [hm2]
      apply set_bucket_keeps P m _ _ ih
      obtain ⟨j, slot, hj, hget, hmatch, _⟩ := find_loop_some e k _ b.items 0 off hfind
      have hoff : off = j := by omega
      rw [hoff]
      have hh : slot.hash = concurrent_unordered_map.non_zero_hasher e k := by
        simp only [concurrent_unordered_map.slot_matches, Bool.and_eq_true,
          decide_eq_true_eq] at hmatch
        exact hmatch.1
      exact herase _ _ b j slot (ih _ b hb) hlock hget
        (by rw [hh]; exact non_zero_hasher_ne_zero e k hbits)
  | by_erase_iterator fuel m m2 it ret _ hres ih =>
    rcases erase_iterator_result e fuel m m2 it ret hres with hm2 |
      ⟨b, slot, hb, hlock, hget, hocc, hm2⟩
    · rw [hm2]
      exact ih
    · rw [hm2]
      apply set_bucket_keeps P m _ _ ih
      exact herase _ _ b _ slot (ih _ b hb) hlock hget hocc
  | by_clear fuel m m2 hc _ hres ih =>
    obtain ⟨hl, hm2⟩ := clear_result fuel m m2 hres
    intro j b hj
    rw [hm2] at hj ⊢
    simp only [List.getElem?_map, List.length_map] at hj ⊢
    cases hget : m._buckets[j]? with
    | none => rw [hget] at hj; exact absurd hj (by simp)
    | some b0 =>
      rw [hget] at hj
      simp only [Option.map_some', Option.some.injEq] at hj
      rw [← hj]
      exact hclear hc _ _ b0 (ih j b0 hget) (hl b0 (mem_of_getElem?_some' _ j b0 hget))

/-! ### Counts, occupied slots and the last slot -/

/-- What `emplace_place` did when it wrote a slot: it appended one (no empty slot was
recorded) or overwrote the recorded slot, which was empty. -/
theorem emplace_place_some (k : Key) (v : T) (h : Nat) (b b2 : bucket_type Key T)
    (ei : Option Nat) (off : Nat)
    (hpl : concurrent_unordered_map.emplace_place k v h b ei = (b2, some off)) :
    (ei = none ∧ off = b.items.length ∧
      b2 = { b with items := b.items ++ [⟨(k, v), h⟩],
                    count := (b.count + 1) % 2 ^ UINT_BITS }) ∨
    (ei = some off ∧ (∃ slot, b.items[off]? = some slot ∧ slot.hash = 0) ∧
      b2 = { b with items := b.items.set off ⟨(k, v), h⟩,
                    count := (b.count + 1) % 2 ^ UINT_BITS }) := by
  cases ei with
  | none =>
    simp only [concurrent_unordered_map.emplace_place, Prod.mk.injEq, Option.some.injEq] at hpl
    exact Or.inl ⟨rfl, hpl.2.symm, hpl.1.symm⟩
  | some idx =>
    cases hget : b.items[idx]? with
    | none => simp [concurrent_unordered_map.emplace_place, hget] at hpl
    | some slot =>
      by_cases hz : slot.hash = 0
      · simp only [concurrent_unordered_map.emplace_place, hget, hz, if_true, Prod.mk.injEq,
          Option.some.injEq] at hpl
        rw [← hpl.2]
        exact Or.inr ⟨rfl, ⟨slot, hget, hz⟩, hpl.1.symm⟩
      · simp [concurrent_unordered_map.emplace_place, hget, hz] at hpl

theorem occupied_le_length (items : List (item_type Key T)) :
    concurrent_unordered_map.occupied items ≤ items.length :=
  List.countP_le_length _

theorem occupied_append_one (items : List (item_type Key T)) (s : item_type Key T)
    (hs : s.hash ≠ 0) :
    concurrent_unordered_map.occupied (items ++ [s]) =
      concurrent_unordered_map.occupied items + 1 := by
  simp [concurrent_unordered_map.occupied, List.countP_append, hs]

theorem occupied_set_empty (items : List (item_type Key T)) (idx : Nat)
    (slot s : item_type Key T) (hget : items[idx]? = some slot) (hz : slot.hash = 0)
    (hs : s.hash ≠ 0) :
    concurrent_unordered_map.occupied (items.set idx s) =
      concurrent_unordered_map.occupied items + 1 := by
  obtain ⟨hlt, heq⟩ := List.getElem?_eq_some.mp hget
  unfold concurrent_unordered_map.occupied
  rw [List.countP_set _ _ _ _ hlt, heq]
  simp [hz, hs]

theorem occupied_set_occupied (items : List (item_type Key T)) (idx : Nat)
    (slot s : item_type Key T) (hget : items[idx]? = some slot) (hocc : slot.hash ≠ 0)
    (hs : s.hash = 0) :
    concurrent_unordered_map.occupied (items.set idx s) + 1 =
      concurrent_unordered_map.occupied items := by
  obtain ⟨hlt, heq⟩ := List.getElem?_eq_some.mp hget
  have hpos : 0 < concurrent_unordered_map.occupied items := by
    unfold concurrent_unordered_map.occupied
    rw [List.countP_pos_iff]
    exact ⟨slot, mem_of_getElem?_some' _ idx slot hget, by simp [hocc]⟩
  unfold concurrent_unordered_map.occupied at hpos ⊢
  rw [List.countP_set _ _ _ _ hlt, heq]
  simp only [hocc, hs, ne_eq, not_false_eq_true, decide_True, if_true, not_true_eq_false,
    decide_False, Bool.false_eq_true, if_false, Nat.add_zero]
  exact Nat.sub_add_cancel hpos

theorem occupied_shrink (items : List (item_type Key T)) :
    concurrent_unordered_map.occupied (concurrent_unordered_map.shrink items) =
      concurrent_unordered_map.occupied items := by
  obtain ⟨tail, hdec, htail⟩ := shrink_decomp items
  have hz : concurrent_unordered_map.occupied tail = 0 := by
    unfold concurrent_unordered_map.occupied
    rw [List.countP_eq_zero]
    intro s hs
    simp [htail s hs]
  have h2 : concurrent_unordered_map.occupied items =
      concurrent_unordered_map.occupied (concurrent_unordered_map.shrink items) +
        concurrent_unordered_map.occupied tail := by
    conv_lhs => rw [hdec]
    unfold concurrent_unordered_map.occupied
    exact List.countP_append _ _ _
  omega

/-- The removal of an occupied slot lowers the number of occupied slots by one. -/
theorem occupied_erase_slot (b : bucket_type Key T) (off : Nat) (slot : item_type Key T)
    (hget : b.items[off]? = some slot) (hocc : slot.hash ≠ 0) :
    concurrent_unordered_map.occupied (concurrent_unordered_map.erase_slot b off).items + 1 =
      concurrent_unordered_map.occupied b.items := by
  obtain ⟨hlt, heq⟩ := List.getElem?_eq_some.mp hget
  have hmod : b.items.modify (fun it => { it with hash := 0 }) off =
      b.items.set off { slot with hash := 0 } := by
    rw [List.modify_eq_set_get _ hlt]
    simp only [List.get_eq_getElem, heq]
  have h1 := occupied_set_occupied b.items off slot { slot with hash := 0 } hget hocc rfl
  simp only [concurrent_unordered_map.erase_slot, hmod]
  split
  · rw [occupied_shrink]
    exact h1
  · exact h1

theorem shrink_last (l : List (item_type Key T)) (s : item_type Key T)
    (hs : (concurrent_unordered_map.shrink l)[(concurrent_unordered_map.shrink l).length - 1]?
      = some s) : s.hash ≠ 0 := by
  have hne : concurrent_unordered_map.shrink l ≠ [] := by
    intro h
    rw [h] at hs
    simp at hs
  have h1 := shrink_last_occupied l hne
  rw [List.getLast_eq_getElem] at h1
  obtain ⟨hlt, heq⟩ := List.getElem?_eq_some.mp hs
  rw [← heq]
  exact h1

/-- The removal of a slot keeps the last slot of the item sequence occupied. -/
theorem erase_slot_last (b : bucket_type Key T) (off : Nat)
    (hlast : ∀ s, b.items[b.items.length - 1]? = some s → s.hash ≠ 0) :
    ∀ s, (concurrent_unordered_map.erase_slot b off).items[
        (concurrent_unordered_map.erase_slot b off).items.length - 1]? = some s →
      s.hash ≠ 0 := by
  intro s hs
  simp only [concurrent_unordered_map.erase_slot] at hs
  split at hs
  · exact shrink_last _ s hs
  · rename_i hoff
    rw [List.length_modify, List.getElem?_modify_ne _ _ hoff] at hs
    exact hlast s hs

/-- The insertion of `emplace` keeps the last slot of the item sequence occupied. -/
theorem emplace_place_last (k : Key) (v : T) (h : Nat) (hh : h ≠ 0)
    (b b2 : bucket_type Key T) (ei : Option Nat) (off : Nat)
    (hpl : concurrent_unordered_map.emplace_place k v h b ei = (b2, some off))
    (hlast : ∀ s, b.items[b.items.length - 1]? = some s → s.hash ≠ 0) :
    ∀ s, b2.items[b2.items.length - 1]? = some s → s.hash ≠ 0 := by
  intro s hs
  rcases emplace_place_some k v h b b2 ei off hpl with ⟨_, _, hb2⟩ | ⟨_, ⟨slot, hget, _⟩, hb2⟩
  · rw [hb2] at hs
    simp only [List.length_append, List.length_singleton, Nat.add_sub_cancel] at hs
    rw [List.getElem?_append_right (Nat.le_refl _)] at hs
    simp only [Nat.sub_self, List.getElem?_cons_zero, Option.some.injEq] at hs
    rw [← hs]
    exact hh
  · rw [hb2] at hs
    simp only [List.length_set] at hs
    obtain ⟨hlt, _⟩ := List.getElem?_eq_some.mp hget
    by_cases hoff : off = b.items.length - 1
    · rw [← hoff, List.getElem?_set_self hlt] at hs
      simp only [Option.some.injEq] at hs
      rw [← hs]
      exact hh
    · rw [List.getElem?_set_ne hoff] at hs
      exact hlast s hs

/-- In every state reached without `clear` each bucket has its lock free, a count equal
to its number of occupied slots (reduced modulo 2^32, the width of the counter), and an
item sequence whose last slot is occupied. -/
theorem reachable_count_last (e : Params Key) (hbits : 0 < e.bits)
    (m : concurrent_unordered_map Key T)
    (hreach : concurrent_unordered_map.reachable e false m) :
    ∀ (j : Nat) (b : bucket_type Key T), m._buckets[j]? = some b →
      b.lock = 0 ∧
      b.count = concurrent_unordered_map.occupied b.items % 2 ^ UINT_BITS ∧
      ∀ s : item_type Key T, b.items[b.items.length - 1]? = some s → s.hash ≠ 0 := by
  refine reachable_inv (fun _ _ (b : bucket_type Key T) => b.lock = 0 ∧
      b.count = concurrent_unordered_map.occupied b.items % 2 ^ UINT_BITS ∧
      ∀ s, b.items[b.items.length - 1]? = some s → s.hash ≠ 0) e false hbits ?_ ?_ ?_ ?_
    m hreach
  · intro _ _
    refine ⟨rfl, ?_, ?_⟩
    · simp [bucket_type.new, concurrent_unordered_map.occupied]
    · intro s hs
      simp [bucket_type.new] at hs
  · intro n k v b ei b2 off ⟨hl, hc, hlast⟩ _ _ hpl
    have hh := non_zero_hasher_ne_zero e k hbits
    refine ⟨?_, ?_, emplace_place_last k v _ hh b b2 ei off hpl hlast⟩
    · have := emplace_place_lock k v (concurrent_unordered_map.non_zero_hasher e k) b ei
      rw [hpl] at this
      rw [this]
      exact hl
    · rcases emplace_place_some k v _ b b2 ei off hpl with ⟨_, _, hb2⟩ |
        ⟨_, ⟨slot, hget, hz⟩, hb2⟩
      · rw [hb2]
        simp only
        rw [occupied_append_one _ _ hh, hc]
        simp only [UINT_BITS]
        omega
      · rw [hb2]
        simp only
        rw [occupied_set_empty _ _ slot _ hget hz hh, hc]
        simp only [UINT_BITS]
        omega
  · intro n i b off slot ⟨hl, hc, hlast⟩ _ hget hocc
    refine ⟨by rw [erase_slot_lock]; exact hl, ?_, erase_slot_last b off hlast⟩
    have h1 := occupied_erase_slot b off slot hget hocc
    have h2 : (concurrent_unordered_map.erase_slot b off).count =
        (b.count + 2 ^ UINT_BITS - 1) % 2 ^ UINT_BITS := by
      cases b
      rfl
    rw [h2, hc, ← h1]
    simp only [UINT_BITS]
    omega
  · intro h
    exact absurd h (by simp)

theorem scenario_b_map_reachable :
    concurrent_unordered_map.reachable scenario_params false scenario_b_map :=
  concurrent_unordered_map.reachable.by_insert 1
    (⟨0, [⟨0, 1, [⟨(3, 30), 3⟩]⟩, bucket_type.new, bucket_type.new]⟩ :
      concurrent_unordered_map Nat Nat) scenario_b_map (6, 60) ⟨0, 1, 0⟩ true
    (concurrent_unordered_map.reachable.by_insert 1 (concurrent_unordered_map.new_n 3) _
      (3, 30) ⟨0, 0, 0⟩ true (concurrent_unordered_map.reachable.fresh_n 3) (by decide))
    (by decide)

theorem scenario_b_erased_map_reachable :
    concurrent_unordered_map.reachable scenario_params false scenario_b_erased_map :=
  concurrent_unordered_map.reachable.by_erase 1 scenario_b_map scenario_b_erased_map 3 1
    scenario_b_map_reachable (by decide)

/-- C26: in every state reached from a freshly constructed map by `emplace`, `insert`,
`erase(key)` and `erase(iterator)`, the last slot of every non-empty item sequence is
occupied, and a bucket whose count is 0 has an empty item sequence (the item sequence
being shorter than 2^32, the range of the counter). -/
theorem no_trailing_empty_slot (e : Params Key) (hbits : 0 < e.bits)
    (m : concurrent_unordered_map Key T)
    (hreach : concurrent_unordered_map.reachable e false m) (j : Nat)
    (b : bucket_type Key T) (hb : m._buckets[j]? = some b) :
    (∀ hne : b.items ≠ [], (b.items.getLast hne).hash ≠ 0) ∧
    (b.items.length < 2 ^ UINT_BITS → b.count = 0 → b.items = []) := by
  obtain ⟨_, hc, hlast⟩ := reachable_count_last e hbits m hreach j b hb
  have h1 : ∀ hne : b.items ≠ [], (b.items.getLast hne).hash ≠ 0 := by
    intro hne
    rw [List.getLast_eq_getElem]
    apply hlast
    exact List.getElem?_eq_getElem _
  refine ⟨h1, ?_⟩
  intro hlen hzero
  by_contra hne
  have hpos : 0 < concurrent_unordered_map.occupied b.items := by
    unfold concurrent_unordered_map.occupied
    rw [List.countP_pos_iff]
    exact ⟨b.items.getLast hne, List.getLast_mem hne, by simp [h1 hne]⟩
  have hle := occupied_le_length b.items
  rw [hzero, Nat.mod_eq_of_lt (by omega)] at hc
  omega

theorem no_trailing_empty_slot_witness :
    concurrent_unordered_map.reachable scenario_params false scenario_b_erased_map ∧
    scenario_b_erased_map._buckets[0]? = some ⟨0, 1, [⟨(3, 30), 0⟩, ⟨(6, 60), 6⟩]⟩ ∧
    ((∀ hne : ([⟨(3, 30), 0⟩, ⟨(6, 60), 6⟩] : List (item_type Nat Nat)) ≠ [],
        (([⟨(3, 30), 0⟩, ⟨(6, 60), 6⟩] : List (item_type Nat Nat)).getLast hne).hash ≠ 0) ∧
      (([⟨(3, 30), 0⟩, ⟨(6, 60), 6⟩] : List (item_type Nat Nat)).length < 2 ^ UINT_BITS →
        (1 : Nat) = 0 → ([⟨(3, 30), 0⟩, ⟨(6, 60), 6⟩] : List (item_type Nat Nat)) = [])) :=
  ⟨scenario_b_erased_map_reachable, rfl,
    no_trailing_empty_slot scenario_params (by decide) scenario_b_erased_map
      scenario_b_erased_map_reachable 0 ⟨0, 1, [⟨(3, 30), 0⟩, ⟨(6, 60), 6⟩]⟩ rfl⟩

/-! ### size and empty -/

/-- With no lock word at 2, one pass of `size` visits every bucket and adds up the
counts, modulo the range of `size_type`. -/
theorem size_pass_free (bits : Nat) (bs : List (bucket_type Key T)) :
    ∀ ret : Nat, (∀ b ∈ bs, b.lock ≠ 2) → ret < 2 ^ bits →
      concurrent_unordered_map.size_pass bits bs ret =
        ((ret + (bs.map (fun b => b.count)).sum) % 2 ^ bits, true) := by
  induction bs with
  | nil =>
    intro ret _ hret
    simp only [concurrent_unordered_map.size_pass, List.map_nil, List.sum_nil, Nat.add_zero,
      Nat.mod_eq_of_lt hret]
  | cons b rest ih =>
    intro ret hl hret
    have hb : b.lock ≠ 2 := hl b (List.mem_cons_self _ _)
    unfold concurrent_unordered_map.size_pass
    rw [if_neg hb, ih ((ret + b.count) % 2 ^ bits)
      (fun b2 hb2 => hl b2 (List.mem_cons_of_mem _ hb2))
      (Nat.mod_lt _ (Nat.two_pow_pos bits))]
    simp only [List.map_cons, List.sum_cons, Nat.mod_add_mod, Nat.add_assoc]

/-- With no lock word at 2, one pass of `empty` ends the method: with false at the first
bucket whose count is not 0, with true when every count is 0. -/
theorem empty_pass_free (bs : List (bucket_type Key T)) (hl : ∀ b ∈ bs, b.lock ≠ 2) :
    concurrent_unordered_map.empty_pass bs =
      some (decide ((bs.map (fun b => b.count)).sum = 0)) := by
  induction bs with
  | nil => simp [concurrent_unordered_map.empty_pass]
  | cons b rest ih =>
    have hb : b.lock ≠ 2 := hl b (List.mem_cons_self _ _)
    unfold concurrent_unordered_map.empty_pass
    rw [if_neg hb]
    by_cases hc : b.count = 0
    · rw [if_neg (fun h => h hc), ih (fun b2 hb2 => hl b2 (List.mem_cons_of_mem _ hb2))]
      simp [hc]
    · rw [if_pos hc]
      simp [hc]

/-- C21: in every state reached from a freshly constructed map by `emplace`, `insert`,
`erase(key)` and `erase(iterator)`, `size()` returns, and returns the number of occupied
slots over all buckets, and `empty()` returns true exactly when that number is 0. The
item sequences are shorter than 2^32 (the range of the bucket counter) and the total is
within the range of `size_type`. -/
theorem size_counts_occupied_slots (e : Params Key) (hbits : 0 < e.bits)
    (m : concurrent_unordered_map Key T)
    (hreach : concurrent_unordered_map.reachable e false m) (fuel : Nat)
    (hsmall : ∀ b ∈ m._buckets, b.items.length < 2 ^ UINT_BITS)
    (htotal : (m._buckets.map
      (fun b => concurrent_unordered_map.occupied b.items)).sum < 2 ^ e.bits) :
    concurrent_unordered_map.size e (fuel + 1) m =
      Res.ok (m._buckets.map (fun b => concurrent_unordered_map.occupied b.items)).sum ∧
    concurrent_unordered_map.empty (fuel + 1) m =
      Res.ok (decide ((m._buckets.map
        (fun b => concurrent_unordered_map.occupied b.items)).sum = 0)) := by
  have hinv := reachable_count_last e hbits m hreach
  have hmem : ∀ b ∈ m._buckets, b.lock = 0 ∧
      b.count = concurrent_unordered_map.occupied b.items := by
    intro b hb
    obtain ⟨j, hj⟩ := List.mem_iff_getElem?.mp hb
    obtain ⟨hl, hc, _⟩ := hinv j b hj
    refine ⟨hl, ?_⟩
    have hle := occupied_le_length b.items
    have hs := hsmall b hb
    rw [hc]
    exact Nat.mod_eq_of_lt (by omega)
  have hlocks : ∀ b ∈ m._buckets, b.lock ≠ 2 := by
    intro b hb
    rw [(hmem b hb).1]
    decide
  have hsum : (m._buckets.map (fun b => b.count)).sum =
      (m._buckets.map (fun b => concurrent_unordered_map.occupied b.items)).sum := by
    congr 1
    apply List.map_congr_left
    intro b hb
    exact (hmem b hb).2
  constructor
  · unfold concurrent_unordered_map.size concurrent_unordered_map.size_loop
    rw [size_pass_free e.bits m._buckets 0 hlocks (Nat.two_pow_pos _)]
    simp only [if_true, Nat.zero_add]
    rw [hsum, Nat.mod_eq_of_lt htotal]
  · unfold concurrent_unordered_map.empty
    rw [empty_pass_free m._buckets hlocks, hsum]

theorem size_counts_occupied_slots_witness :
    concurrent_unordered_map.insert scenario_params 1
        (concurrent_unordered_map.new_n 3) (3, 30) =
      Res.ok (⟨0, [⟨0, 1, [⟨(3, 30), 3⟩]⟩, bucket_type.new, bucket_type.new]⟩,
        ⟨0, 0, 0⟩, true) ∧
    concurrent_unordered_map.insert scenario_params 1
        ⟨0, [⟨0, 1, [⟨(3, 30), 3⟩]⟩, bucket_type.new, bucket_type.new]⟩ (6, 60) =
      Res.ok (scenario_b_map, ⟨0, 1, 0⟩, true) ∧
    concurrent_unordered_map.size scenario_params 1 scenario_b_map = Res.ok 2 ∧
    concurrent_unordered_map.empty 1 scenario_b_map = Res.ok false :=
  ⟨by decide, by decide,
    size_counts_occupied_slots scenario_params (by decide) scenario_b_map
      scenario_b_map_reachable 0 (by decide) (by decide)⟩

/-! ### Where emplace writes -/

/-- C23: `emplace(k, v)` of a key absent from its bucket, the lock of the bucket free and
the bucket obeying the count invariant (count 0 only with an empty item sequence),
returns after one round having written the slot `(k, v, wrap(hash(k)))` and raised the
count by one. When the bucket holds an empty slot the slot written is the highest-index
empty slot, the one the top-down scan meets first, and the length of the item sequence
is unchanged; when it holds none the slot is appended at the end. -/
theorem emplace_reuses_highest_empty_slot (e : Params Key) (fuel : Nat)
    (m : concurrent_unordered_map Key T) (k : Key) (v : T) (b : bucket_type Key T)
    (hbits : 0 < e.bits)
    (hb : m._buckets[concurrent_unordered_map._get_bucket m
      (concurrent_unordered_map.non_zero_hasher e k)]? = some b)
    (hlock : b.lock = 0) (hinv : b.count = 0 → b.items = [])
    (habsent : ∀ it ∈ b.items,
      ¬ (it.hash = concurrent_unordered_map.non_zero_hasher e k ∧
          e.key_equal k it.p.1 = true)) :
    ∃ b2 off,
      concurrent_unordered_map.emplace e (fuel + 1) m k v =
        Res.ok (concurrent_unordered_map.set_bucket m
          (concurrent_unordered_map._get_bucket m
            (concurrent_unordered_map.non_zero_hasher e k)) b2,
          ⟨concurrent_unordered_map._get_bucket m
            (concurrent_unordered_map.non_zero_hasher e k), off, 0⟩, true) ∧
      b2.lock = 0 ∧
      b2.count = (b.count + 1) % 2 ^ UINT_BITS ∧
      (b.count + 1 < 2 ^ UINT_BITS → b2.count = b.count + 1) ∧
      b2.items[off]? = some ⟨(k, v), concurrent_unordered_map.non_zero_hasher e k⟩ ∧
      ((∃ slot ∈ b.items, slot.hash = 0) →
        (∃ slot, b.items[off]? = some slot ∧ slot.hash = 0) ∧
        (∀ j s, off < j → b.items[j]? = some s → s.hash ≠ 0) ∧
        b2.items = b.items.set off ⟨(k, v), concurrent_unordered_map.non_zero_hasher e k⟩ ∧
        b2.items.length = b.items.length) ∧
      ((∀ slot ∈ b.items, slot.hash ≠ 0) →
        off = b.items.length ∧
        b2.items = b.items ++ [⟨(k, v), concurrent_unordered_map.non_zero_hasher e k⟩]) := by
  have hh := non_zero_hasher_ne_zero e k hbits
  -- the outcome of the search: no equal key, and the recorded empty slot
  have hsearch : ∃ ei, concurrent_unordered_map.emplace_search e (fuel + 1) k
        (concurrent_unordered_map.non_zero_hasher e k) b = Res.ok (b, none, ei) ∧
      (∀ idx, ei = some idx →
        (∃ slot, b.items[idx]? = some slot ∧ slot.hash = 0) ∧
        ∀ j s, idx < j → b.items[j]? = some s → s.hash ≠ 0) ∧
      (ei = none → ∀ slot ∈ b.items, slot.hash ≠ 0) := by
    by_cases hcount : b.count = 0
    · have hitems := hinv hcount
      refine ⟨none, ?_, fun idx h => absurd h (by simp), ?_⟩
      · rw [emplace_search_count_zero e _ k _ b hcount, hitems]
        rfl
      · intro _ slot hslot
        rw [hitems] at hslot
        exact absurd hslot (List.not_mem_nil slot)
    · have hnone : (concurrent_unordered_map.emplace_loop e k
          (concurrent_unordered_map.non_zero_hasher e k) b.items b.items.length none).1
          = none := by
        cases hf : (concurrent_unordered_map.emplace_loop e k
          (concurrent_unordered_map.non_zero_hasher e k) b.items b.items.length none).1 with
        | none => rfl
        | some off =>
          obtain ⟨_, ⟨it, hget, hmatch⟩, _⟩ :=
            (emplace_loop_found e k _ b.items b.items.length none (Nat.le_refl _)).1 off hf
          simp only [concurrent_unordered_map.slot_matches, Bool.and_eq_true,
            decide_eq_true_eq] at hmatch
          exact absurd hmatch (habsent it (mem_of_getElem?_some' _ off it hget))
      obtain ⟨_, hsome, hnone2⟩ := emplace_loop_emptyidx e k _ hh b.items b.items.length none
        (Nat.le_refl _) hnone
      refine ⟨(concurrent_unordered_map.emplace_loop e k
          (concurrent_unordered_map.non_zero_hasher e k) b.items b.items.length none).2,
        ?_, ?_, ?_⟩
      · rw [emplace_search_free e fuel k _ b hlock hcount, hnone]
      · intro idx hidx
        obtain ⟨hlt, hempty, hhigh⟩ := hsome rfl idx hidx
        refine ⟨hempty, ?_⟩
        intro j s hj hget
        obtain ⟨hjlt, _⟩ := List.getElem?_eq_some.mp hget
        exact hhigh j s hj hjlt hget
      · intro hei slot hslot
        obtain ⟨j, hj⟩ := List.mem_iff_getElem?.mp hslot
        obtain ⟨hjlt, _⟩ := List.getElem?_eq_some.mp hj
        exact hnone2 rfl hei j slot hjlt hj
  obtain ⟨ei, hs, hsome, hnone⟩ := hsearch
  obtain ⟨b2, off, hpl, hl2, hc2, hnew, _, happ, hset⟩ :=
    emplace_place_spec k v (concurrent_unordered_map.non_zero_hasher e k) b ei
      (fun idx hidx => (hsome idx hidx).1)
  have hl0 : b2.lock = 0 := by rw [hl2]; exact hlock
  have hround := emplace_round_placed e fuel m k v b b2 off ei hb hlock hs hpl
  rw [bucket_lock_zero b2 hl0] at hround
  refine ⟨b2, off, hround, hl0, hc2, ?_, hnew, ?_, ?_⟩
  · intro hlt
    rw [hc2]
    exact Nat.mod_eq_of_lt hlt
  · intro ⟨slot, hslot, hz⟩
    cases hei : ei with
    | none => exact absurd hz (hnone hei slot hslot)
    | some idx =>
      obtain ⟨hoff, hitems⟩ := hset idx hei
      obtain ⟨hempty, hhigh⟩ := hsome idx hei
      rw [hoff]
      refine ⟨hempty, hhigh, hitems, ?_⟩
      rw [hitems, List.length_set]
  · intro hall
    cases hei : ei with
    | none => exact happ hei
    | some idx =>
      obtain ⟨⟨slot, hget, hz⟩, _⟩ := hsome idx hei
      exact absurd hz (hall slot (mem_of_getElem?_some' _ idx slot hget))

theorem emplace_reuses_highest_empty_slot_witness :
    ∃ b2 off,
      concurrent_unordered_map.emplace scenario_params 1 scenario_b_erased_map 9 90 =
        Res.ok (concurrent_unordered_map.set_bucket scenario_b_erased_map
          (concurrent_unordered_map._get_bucket scenario_b_erased_map
            (concurrent_unordered_map.non_zero_hasher scenario_params 9)) b2,
          ⟨concurrent_unordered_map._get_bucket scenario_b_erased_map
            (concurrent_unordered_map.non_zero_hasher scenario_params 9), off, 0⟩, true) ∧
      b2.lock = 0 ∧
      b2.count = (1 + 1) % 2 ^ UINT_BITS ∧
      (1 + 1 < 2 ^ UINT_BITS → b2.count = 1 + 1) ∧
      b2.items[off]? =
        some ⟨(9, 90), concurrent_unordered_map.non_zero_hasher scenario_params 9⟩ ∧
      ((∃ slot ∈ ([⟨(3, 30), 0⟩, ⟨(6, 60), 6⟩] : List (item_type Nat Nat)), slot.hash = 0) →
        (∃ slot, ([⟨(3, 30), 0⟩, ⟨(6, 60), 6⟩] : List (item_type Nat Nat))[off]? = some slot ∧
          slot.hash = 0) ∧
        (∀ j s, off < j →
          ([⟨(3, 30), 0⟩, ⟨(6, 60), 6⟩] : List (item_type Nat Nat))[j]? = some s →
          s.hash ≠ 0) ∧
        b2.items = ([⟨(3, 30), 0⟩, ⟨(6, 60), 6⟩] : List (item_type Nat Nat)).set off
          ⟨(9, 90), concurrent_unordered_map.non_zero_hasher scenario_params 9⟩ ∧
        b2.items.length = ([⟨(3, 30), 0⟩, ⟨(6, 60), 6⟩] : List (item_type Nat Nat)).length) ∧
      ((∀ slot ∈ ([⟨(3, 30), 0⟩, ⟨(6, 60), 6⟩] : List (item_type Nat Nat)), slot.hash ≠ 0) →
        off = ([⟨(3, 30), 0⟩, ⟨(6, 60), 6⟩] : List (item_type Nat Nat)).length ∧
        b2.items = ([⟨(3, 30), 0⟩, ⟨(6, 60), 6⟩] : List (item_type Nat Nat)) ++
          [⟨(9, 90), concurrent_unordered_map.non_zero_hasher scenario_params 9⟩]) :=
  emplace_reuses_highest_empty_slot scenario_params 0 scenario_b_erased_map 9 90
    ⟨0, 1, [⟨(3, 30), 0⟩, ⟨(6, 60), 6⟩]⟩ (by decide) rfl rfl
    (fun h => absurd h (by decide)) (by decide)

/-! ### Key uniqueness -/

theorem non_zero_hasher_congr (e : Params Key) (a b : Key) (h : e.hasher a = e.hasher b) :
    concurrent_unordered_map.non_zero_hasher e a =
      concurrent_unordered_map.non_zero_hasher e b := by
  unfold concurrent_unordered_map.non_zero_hasher
  rw [h]

theorem erase_slot_length_le (b : bucket_type Key T) (off : Nat) :
    (concurrent_unordered_map.erase_slot b off).items.length ≤ b.items.length := by
  have h : ∀ l : List (item_type Key T),
      (concurrent_unordered_map.shrink l).length ≤ l.length := by
    intro l
    obtain ⟨tail, hdec, _⟩ := shrink_decomp l
    have := congrArg List.length hdec
    rw [List.length_append] at this
    omega
  cases b with
  | mk lk cnt its =>
    show (if off = its.length - 1 then
        concurrent_unordered_map.shrink (its.modify (fun it => { it with hash := 0 }) off)
      else its.modify (fun it => { it with hash := 0 }) off).length ≤ its.length
    split
    · have := h (its.modify (fun it => { it with hash := 0 }) off)
      rw [List.length_modify] at this
      exact this
    · rw [List.length_modify]

/-- An occupied slot of the bucket after a removal sits at the same index before it. -/
theorem erase_slot_get (b : bucket_type Key T) (off i : Nat) (s : item_type Key T)
    (hs : (concurrent_unordered_map.erase_slot b off).items[i]? = some s)
    (hocc : s.hash ≠ 0) : b.items[i]? = some s := by
  have hmod : (b.items.modify (fun x => { x with hash := 0 }) off)[i]? = some s := by
    cases b with
    | mk lk cnt its =>
      change (if off = its.length - 1 then
          concurrent_unordered_map.shrink (its.modify (fun it => { it with hash := 0 }) off)
        else its.modify (fun it => { it with hash := 0 }) off)[i]? = some s at hs
      split at hs
      · obtain ⟨tail, hdec, _⟩ := shrink_decomp
          (its.modify (fun x => { x with hash := 0 }) off)
        obtain ⟨hlt, _⟩ := List.getElem?_eq_some.mp hs
        show (its.modify (fun x => { x with hash := 0 }) off)[i]? = some s
        rw [hdec, List.getElem?_append_left hlt]
        exact hs
      · exact hs
  by_cases hio : i = off
  · subst hio
    rw [List.getElem?_modify_eq] at hmod
    cases hget : b.items[i]? with
    | none => simp [hget] at hmod
    | some x =>
      rw [hget] at hmod
      have h2 : ({ x with hash := 0 } : item_type Key T) = s := by
        simpa using hmod
      rw [← h2] at hocc
      exact absurd rfl hocc
  · rw [List.getElem?_modify_ne _ _ (Ne.symm hio)] at hmod
    exact hmod

/-- What the search of `emplace` establishes on a bucket obeying the invariant when the
insertion that follows writes a slot: no occupied slot holds a key equal to `k`, and an
append (no empty slot recorded) leaves room in the range of the counter. -/
theorem keys_inv_search (e : Params Key) (hbits : 0 < e.bits)
    (hcons : ∀ a b, e.key_equal a b = true → e.hasher a = e.hasher b)
    (n : Nat) (k : Key) (v : T) (b b2 : bucket_type Key T) (ei : Option Nat) (off c : Nat)
    (hH : ∀ s ∈ b.items, s.hash ≠ 0 →
      s.hash = concurrent_unordered_map.non_zero_hasher e s.p.1 ∧
      s.hash % n = concurrent_unordered_map.non_zero_hasher e k % n)
    (hcM : c < 2 ^ UINT_BITS)
    (hcount : b.count = (c + concurrent_unordered_map.occupied b.items) % 2 ^ UINT_BITS)
    (hlen : b.items.length + c ≤ 2 ^ UINT_BITS)
    (hlock : b.lock = 0)
    (hsearch : concurrent_unordered_map.emplace_search e 1 k
      (concurrent_unordered_map.non_zero_hasher e k) b = Res.ok (b, none, ei))
    (hpl : concurrent_unordered_map.emplace_place k v
      (concurrent_unordered_map.non_zero_hasher e k) b ei = (b2, some off)) :
    (∀ s ∈ b.items, s.hash ≠ 0 → e.key_equal k s.p.1 = true → False) ∧
    (ei = none → b.items.length + c < 2 ^ UINT_BITS) := by
  have hh := non_zero_hasher_ne_zero e k hbits
  have hoccle := occupied_le_length b.items
  by_cases hcz : b.count = 0
  · rw [emplace_search_count_zero e 1 k _ b hcz] at hsearch
    simp only [Res.ok.injEq, Prod.mk.injEq, true_and] at hsearch
    have hsum : c + concurrent_unordered_map.occupied b.items = 0 ∨
        c + concurrent_unordered_map.occupied b.items = 2 ^ UINT_BITS := by
      rw [hcz] at hcount
      simp only [UINT_BITS] at hcM hcount hlen ⊢
      omega
    rcases hsum with h0 | hM
    · have hocc0 : concurrent_unordered_map.occupied b.items = 0 := by omega
      have hall : ∀ s ∈ b.items, s.hash = 0 := by
        unfold concurrent_unordered_map.occupied at hocc0
        rw [List.countP_eq_zero] at hocc0
        intro s hs
        simpa using hocc0 s hs
      refine ⟨fun s hs hocc _ => hocc (hall s hs), ?_⟩
      intro hei
      rw [hei] at hsearch
      cases hitems : b.items with
      | nil =>
        simp only [List.length_nil, Nat.zero_add]
        exact hcM
      | cons x xs =>
        rw [hitems] at hsearch
        simp at hsearch
    · exfalso
      have hoccl : concurrent_unordered_map.occupied b.items = b.items.length := by omega
      have hall : ∀ s ∈ b.items, s.hash ≠ 0 := by
        unfold concurrent_unordered_map.occupied at hoccl
        rw [List.countP_eq_length] at hoccl
        intro s hs
        simpa using hoccl s hs
      rcases emplace_place_some k v _ b b2 ei off hpl with ⟨hei, _, _⟩ |
        ⟨_, ⟨slot, hget, hz⟩, _⟩
      · rw [hei] at hsearch
        cases hitems : b.items with
        | nil =>
          rw [hitems] at hoccl hM
          simp only [concurrent_unordered_map.occupied, List.countP_nil, Nat.add_zero] at hM
          omega
        | cons x xs =>
          rw [hitems] at hsearch
          simp at hsearch
      · exact hall slot (mem_of_getElem?_some' _ off slot hget) hz
  · rw [emplace_search_free e 0 k _ b hlock hcz] at hsearch
    simp only [Res.ok.injEq, Prod.mk.injEq, true_and] at hsearch
    obtain ⟨hnone, hei2⟩ := hsearch
    have hscan := (emplace_loop_found e k (concurrent_unordered_map.non_zero_hasher e k)
      b.items b.items.length none (Nat.le_refl _)).2 hnone
    obtain ⟨_, _, hfull⟩ := emplace_loop_emptyidx e k _ hh b.items b.items.length none
      (Nat.le_refl _) hnone
    constructor
    · intro s hs hocc heq
      obtain ⟨j, hj⟩ := List.mem_iff_getElem?.mp hs
      obtain ⟨hjlt, _⟩ := List.getElem?_eq_some.mp hj
      have hm := hscan j s hjlt hj
      have hhash : s.hash = concurrent_unordered_map.non_zero_hasher e k := by
        rw [(hH s hs hocc).1]
        exact (non_zero_hasher_congr e k s.p.1 (hcons k s.p.1 heq)).symm
      simp [concurrent_unordered_map.slot_matches, hhash, heq] at hm
    · intro hei
      rw [hei] at hei2
      have hall : ∀ s ∈ b.items, s.hash ≠ 0 := by
        intro s hs
        obtain ⟨j, hj⟩ := List.mem_iff_getElem?.mp hs
        obtain ⟨hjlt, _⟩ := List.getElem?_eq_some.mp hj
        exact hfull rfl hei2 j s hjlt hj
      have hoccl : concurrent_unordered_map.occupied b.items = b.items.length := by
        unfold concurrent_unordered_map.occupied
        rw [List.countP_eq_length]
        intro s hs
        simpa using hall s hs
      rw [hoccl] at hcount
      simp only [UINT_BITS] at hcM hcount hlen ⊢
      omega

/-- The insertion of `emplace` after its search keeps the invariant of the bucket. -/
theorem keys_inv_place (e : Params Key) (hbits : 0 < e.bits)
    (hsymm : ∀ a b, e.key_equal a b = true → e.key_equal b a = true)
    (hcons : ∀ a b, e.key_equal a b = true → e.hasher a = e.hasher b)
    (n : Nat) (k : Key) (v : T) (b b2 : bucket_type Key T) (ei : Option Nat) (off : Nat)
    (hP : keys_inv e n (concurrent_unordered_map.non_zero_hasher e k % n) b)
    (hlock : b.lock = 0)
    (hsearch : concurrent_unordered_map.emplace_search e 1 k
      (concurrent_unordered_map.non_zero_hasher e k) b = Res.ok (b, none, ei))
    (hpl : concurrent_unordered_map.emplace_place k v
      (concurrent_unordered_map.non_zero_hasher e k) b ei = (b2, some off)) :
    keys_inv e n (concurrent_unordered_map.non_zero_hasher e k % n) b2 := by
  obtain ⟨hH, ⟨c, hcM, hcount, hlen⟩, hU⟩ := hP
  have hh := non_zero_hasher_ne_zero e k hbits
  obtain ⟨habs, hroom⟩ := keys_inv_search e hbits hcons n k v b b2 ei off c hH hcM hcount
    hlen hlock hsearch hpl
  have hcases := emplace_place_some k v _ b b2 ei off hpl
  have hei : ∀ idx, ei = some idx → ∃ it, b.items[idx]? = some it ∧ it.hash = 0 := by
    intro idx hidx
    rcases hcases with ⟨hn, _, _⟩ | ⟨hs, hslot, _⟩
    · rw [hn] at hidx
      exact absurd hidx (by simp)
    · rw [hs] at hidx
      simp only [Option.some.injEq] at hidx
      rw [← hidx]
      exact hslot
  obtain ⟨b3, off3, hpl3, _, hc3, hnew, hother, _, _⟩ :=
    emplace_place_spec k v (concurrent_unordered_map.non_zero_hasher e k) b ei hei
  rw [hpl] at hpl3
  simp only [Prod.mk.injEq, Option.some.injEq] at hpl3
  obtain ⟨hb3, hoff3⟩ := hpl3
  rw [← hb3, ← hoff3] at hnew hother
  rw [← hb3] at hc3
  refine ⟨?_, ?_, ?_⟩
  · intro s hs hocc
    have hmem := emplace_place_mem k v (concurrent_unordered_map.non_zero_hasher e k) b ei s
      (by rw [hpl]; exact hs)
    rcases hmem with hold | hnew2
    · exact hH s hold hocc
    · rw [hnew2]
      exact ⟨rfl, rfl⟩
  · refine ⟨c, hcM, ?_, ?_⟩
    · rcases hcases with ⟨_, _, hb2⟩ | ⟨_, ⟨slot, hget, hz⟩, hb2⟩
      · rw [hc3, hb2]
        simp only
        rw [occupied_append_one _ _ hh, hcount]
        simp only [UINT_BITS]
        omega
      · rw [hc3, hb2]
        simp only
        rw [occupied_set_empty _ _ slot _ hget hz hh, hcount]
        simp only [UINT_BITS]
        omega
    · rcases hcases with ⟨hn, _, hb2⟩ | ⟨_, _, hb2⟩
      · have := hroom hn
        rw [hb2]
        simp only [List.length_append, List.length_singleton]
        omega
      · rw [hb2]
        simp only [List.length_set]
        exact hlen
  · intro x y sx sy hx hy hox hoy heq
    by_cases hxo : x = off
    · by_cases hyo : y = off
      · rw [hxo, hyo]
      · exfalso
        rw [hxo, hnew] at hx
        simp only [Option.some.injEq] at hx
        rw [hother y hyo] at hy
        rw [← hx] at heq
        exact habs sy (mem_of_getElem?_some' _ y sy hy) hoy heq
    · by_cases hyo : y = off
      · exfalso
        rw [hyo, hnew] at hy
        simp only [Option.some.injEq] at hy
        rw [hother x hxo] at hx
        rw [← hy] at heq
        exact habs sx (mem_of_getElem?_some' _ x sx hx) hox (hsymm _ _ heq)
      · rw [hother x hxo] at hx
        rw [hother y hyo] at hy
        exact hU x y sx sy hx hy hox hoy heq

/-- The removal of an occupied slot keeps the invariant of the bucket. -/
theorem keys_inv_erase (e : Params Key) (n i : Nat) (b : bucket_type Key T) (off : Nat)
    (slot : item_type Key T) (hP : keys_inv e n i b)
    (hget : b.items[off]? = some slot) (hocc : slot.hash ≠ 0) :
    keys_inv e n i (concurrent_unordered_map.erase_slot b off) := by
  obtain ⟨hH, ⟨c, hcM, hcount, hlen⟩, hU⟩ := hP
  refine ⟨?_, ⟨c, hcM, ?_, ?_⟩, ?_⟩
  · intro s hs hso
    exact hH s (erase_slot_mem b off s hs hso) hso
  · have h1 := occupied_erase_slot b off slot hget hocc
    have h2 : (concurrent_unordered_map.erase_slot b off).count =
        (b.count + 2 ^ UINT_BITS - 1) % 2 ^ UINT_BITS := by
      cases b
      rfl
    rw [h2, hcount, ← h1]
    simp only [UINT_BITS]
    omega
  · have := erase_slot_length_le b off
    omega
  · intro x y sx sy hx hy hox hoy heq
    exact hU x y sx sy (erase_slot_get b off x sx hx hox) (erase_slot_get b off y sy hy hoy)
      hox hoy heq

/-- Emptying the item sequence, as `clear` does, keeps the invariant of the bucket: the
count left behind becomes the surplus. -/
theorem keys_inv_clear (e : Params Key) (n i : Nat) (b : bucket_type Key T)
    (hP : keys_inv e n i b) :
    keys_inv e n i ({ b with items := [] } : bucket_type Key T) := by
  obtain ⟨_, ⟨c, _, hcount, _⟩, _⟩ := hP
  have hlt : b.count < 2 ^ UINT_BITS := by
    rw [hcount]
    exact Nat.mod_lt _ (Nat.two_pow_pos _)
  refine ⟨?_, ⟨b.count, hlt, ?_, ?_⟩, ?_⟩
  · intro s hs
    exact absurd hs (List.not_mem_nil s)
  · simp only [concurrent_unordered_map.occupied, List.countP_nil, Nat.add_zero]
    exact (Nat.mod_eq_of_lt hlt).symm
  · simp only [List.length_nil, Nat.zero_add]
    exact Nat.le_of_lt hlt
  · intro x y sx sy hx
    simp at hx

/-- In every state reached from a freshly constructed map, `clear` included, each bucket
obeys the invariant behind key uniqueness. -/
theorem reachable_keys_inv (e : Params Key) (hbits : 0 < e.bits)
    (hsymm : ∀ a b, e.key_equal a b = true → e.key_equal b a = true)
    (hcons : ∀ a b, e.key_equal a b = true → e.hasher a = e.hasher b)
    (m : concurrent_unordered_map Key T)
    (hreach : concurrent_unordered_map.reachable e true m) :
    ∀ (j : Nat) (b : bucket_type Key T), m._buckets[j]? = some b →
      keys_inv e m._buckets.length j b := by
  refine reachable_inv (fun n i (b : bucket_type Key T) => keys_inv e n i b) e true hbits
    ?_ ?_ ?_ ?_ m hreach
  · intro n i
    refine ⟨?_, ⟨0, Nat.two_pow_pos _, ?_, ?_⟩, ?_⟩
    · intro s hs
      exact absurd hs (List.not_mem_nil s)
    · simp [bucket_type.new, concurrent_unordered_map.occupied]
    · simp [bucket_type.new]
    · intro x y sx sy hx
      simp [bucket_type.new] at hx
  · intro n k v b ei b2 off hP hlock hsearch hpl
    exact keys_inv_place e hbits hsymm hcons n k v b b2 ei off hP hlock hsearch hpl
  · intro n i b off slot hP _ hget hocc
    exact keys_inv_erase e n i b off slot hP hget hocc
  · intro _ n i b hP _
    exact keys_inv_clear e n i b hP

/-- C27: with a key equality that is symmetric and consistent with the hasher (equal
keys hash alike), in every state reached from a freshly constructed map by `emplace`,
`insert`, `erase(key)`, `erase(iterator)` and `clear`, two occupied slots holding equal
keys are the same slot of the same bucket. -/
theorem keys_are_unique (e : Params Key) (hbits : 0 < e.bits)
    (hsymm : ∀ a b, e.key_equal a b = true → e.key_equal b a = true)
    (hcons : ∀ a b, e.key_equal a b = true → e.hasher a = e.hasher b)
    (m : concurrent_unordered_map Key T)
    (hreach : concurrent_unordered_map.reachable e true m) :
    ∀ (j1 j2 i1 i2 : Nat) (b1 b2 : bucket_type Key T) (s1 s2 : item_type Key T),
      m._buckets[j1]? = some b1 → m._buckets[j2]? = some b2 →
      b1.items[i1]? = some s1 → b2.items[i2]? = some s2 →
      s1.hash ≠ 0 → s2.hash ≠ 0 → e.key_equal s1.p.1 s2.p.1 = true →
      j1 = j2 ∧ i1 = i2 := by
  intro j1 j2 i1 i2 b1 b2 s1 s2 hb1 hb2 hs1 hs2 ho1 ho2 heq
  obtain ⟨hH1, _, hU⟩ := reachable_keys_inv e hbits hsymm hcons m hreach j1 b1 hb1
  obtain ⟨hH2, _, _⟩ := reachable_keys_inv e hbits hsymm hcons m hreach j2 b2 hb2
  obtain ⟨hh1, hj1⟩ := hH1 s1 (mem_of_getElem?_some' _ i1 s1 hs1) ho1
  obtain ⟨hh2, hj2⟩ := hH2 s2 (mem_of_getElem?_some' _ i2 s2 hs2) ho2
  have hhash : s1.hash = s2.hash := by
    rw [hh1, hh2]
    exact non_zero_hasher_congr e _ _ (hcons _ _ heq)
  have hj : j1 = j2 := by
    rw [← hj1, ← hj2, hhash]
  subst hj
  rw [hb1] at hb2
  simp only [Option.some.injEq] at hb2
  subst hb2
  exact ⟨rfl, hU i1 i2 s1 s2 hs1 hs2 ho1 ho2 heq⟩

theorem keys_are_unique_witness :
    concurrent_unordered_map.reachable scenario_params true scenario_rehash_map ∧
    ∀ (j1 j2 i1 i2 : Nat) (b1 b2 : bucket_type Nat Nat) (s1 s2 : item_type Nat Nat),
      scenario_rehash_map._buckets[j1]? = some b1 →
      scenario_rehash_map._buckets[j2]? = some b2 →
      b1.items[i1]? = some s1 → b2.items[i2]? = some s2 →
      s1.hash ≠ 0 → s2.hash ≠ 0 → scenario_params.key_equal s1.p.1 s2.p.1 = true →
      j1 = j2 ∧ i1 = i2 :=
  ⟨scenario_rehash_map_reachable,
    keys_are_unique scenario_params (by decide)
      (fun a b h => by
        simp only [scenario_params, beq_iff_eq] at h ⊢
        exact h.symm)
      (fun a b h => by
        simp only [scenario_params, beq_iff_eq] at h ⊢
        exact h)
      scenario_rehash_map scenario_rehash_map_reachable⟩

/-! ### The traced operations and the plain ones -/

theorem agrees_drop {α E : Type} (P : E → Prop) (t : Res (α × List E)) (p : Res α)
    (h : agrees P t p) : drop_events t = p := by
  cases t <;> simp only [agrees] at h <;> simp only [drop_events]
  · exact h.1.symm
  · exact h.symm
  · exact h.symm
  · exact h.symm

theorem agrees_events {α E : Type} (P : E → Prop) (t : Res (α × List E)) (p : Res α)
    (h : agrees P t p) (r : α) (tr : List E) (ht : t = Res.ok (r, tr)) :
    ∀ ev ∈ tr, P ev := by
  rw [ht] at h
  exact h.2

theorem agrees_add {α E : Type} (P : E → Prop) (tr : List E) (t : Res (α × List E))
    (p : Res α) (h : agrees P t p) (htr : ∀ ev ∈ tr, P ev) :
    agrees P (add_events tr t) p := by
  cases t with
  | ok r =>
    simp only [agrees] at h
    simp only [add_events, agrees]
    refine ⟨h.1, ?_⟩
    intro ev hev
    rcases List.mem_append.mp hev with h1 | h2
    · exact htr ev h1
    · exact h.2 ev h2
  | fuel_out => exact h
  | undef => exact h
  | aborted => exact h

theorem emplace_place_held (k : Key) (v : T) (h : Nat) (b : bucket_type Key T) (w x : Nat)
    (ei : Option Nat) :
    (concurrent_unordered_map.emplace_place k v h { b with lock := w } ei).2 =
      (concurrent_unordered_map.emplace_place k v h b ei).2 ∧
    (concurrent_unordered_map.emplace_place k v h { b with lock := w } ei).1.lock = w ∧
    ({ (concurrent_unordered_map.emplace_place k v h { b with lock := w } ei).1 with
        lock := x } : bucket_type Key T) =
      { (concurrent_unordered_map.emplace_place k v h b ei).1 with lock := x } := by
  cases ei with
  | none => simp [concurrent_unordered_map.emplace_place]
  | some idx =>
    cases hget : b.items[idx]? with
    | none => simp [concurrent_unordered_map.emplace_place, hget]
    | some slot =>
      by_cases hz : slot.hash = 0
      · simp [concurrent_unordered_map.emplace_place, hget, hz]
      · simp [concurrent_unordered_map.emplace_place, hget, hz]

theorem erase_slot_held (b : bucket_type Key T) (w x off : Nat) :
    (concurrent_unordered_map.erase_slot { b with lock := w } off).lock = w ∧
    ({ concurrent_unordered_map.erase_slot { b with lock := w } off with lock := x } :
        bucket_type Key T) =
      { concurrent_unordered_map.erase_slot b off with lock := x } := by
  cases b
  exact ⟨rfl, rfl⟩

theorem emplace_search_agrees (e : Params Key) (fuel i : Nat) (k : Key) (h : Nat)
    (b : bucket_type Key T) :
    agrees Event.lock_word_ok
      (concurrent_unordered_map.emplace_search_traced e fuel i k h b)
      (concurrent_unordered_map.emplace_search e fuel k h b) := by
  unfold concurrent_unordered_map.emplace_search_traced
    concurrent_unordered_map.emplace_search
  by_cases hcount : b.count ≠ 0
  · rw [if_pos hcount, if_pos hcount]
    cases hlk : spinlock.lock_only_if_not no_spurious 2 fuel 0 b.lock with
    | ok r =>
      obtain ⟨res, w⟩ := r
      cases res with
      | true =>
        have hw : w = 1 := by
          rcases lock_only_if_not_result _ _ _ _ hlk with ⟨_, _, h1⟩ | ⟨hf, _, _⟩
          · exact h1
          · exact absurd hf (by simp)
        simp only [agrees, spinlockbase.unlock, List.mem_cons, List.mem_singleton,
          List.not_mem_nil, or_false, true_and]
        intro ev hev
        rcases hev with h1 | h1 <;> rw [h1]
        · exact hw
        · rfl
      | false =>
        simp only [agrees, List.not_mem_nil, true_and]
        intro ev hev
        exact absurd hev (by simp)
    | fuel_out => simp only [agrees]
    | undef => simp only [agrees]
    | aborted => simp only [agrees]
  · rw [if_neg hcount, if_neg hcount]
    split
    · simp only [agrees, true_and]
      intro ev hev
      exact absurd hev (List.not_mem_nil ev)
    · simp only [agrees, true_and]
      intro ev hev
      exact absurd hev (List.not_mem_nil ev)

theorem lock_word_one (fuel w w2 : Nat)
    (h : spinlock.lock_only_if_not no_spurious 2 fuel 0 w = Res.ok (true, w2)) : w2 = 1 := by
  rcases lock_only_if_not_result _ _ _ _ h with ⟨_, _, h1⟩ | ⟨hf, _, _⟩
  · exact h1
  · exact absurd hf (by simp)

/-- The traced `emplace` returns what `emplace` returns, and its stores show the lock
word 1 after each `lock(2)` and at the insertion, 0 after each release. -/
theorem emplace_agrees (e : Params Key) (fuel : Nat) (m : concurrent_unordered_map Key T)
    (k : Key) (v : T) :
    agrees Event.lock_word_ok (concurrent_unordered_map.emplace_traced e fuel m k v)
      (concurrent_unordered_map.emplace e fuel m k v) := by
  induction fuel generalizing m with
  | zero => simp only [concurrent_unordered_map.emplace_traced,
      concurrent_unordered_map.emplace, agrees]
  | succ fuel ih =>
    unfold concurrent_unordered_map.emplace_traced concurrent_unordered_map.emplace
    simp only
    by_cases hlen : m._buckets.length = 0
    · simp only [hlen, if_true, agrees]
    · simp only [hlen, if_false]
      cases hb : m._buckets[concurrent_unordered_map._get_bucket m
          (concurrent_unordered_map.non_zero_hasher e k)]? with
      | none => simp only [agrees]
      | some b =>
        simp only
        have hs := emplace_search_agrees e (fuel + 1)
          (concurrent_unordered_map._get_bucket m
            (concurrent_unordered_map.non_zero_hasher e k)) k
          (concurrent_unordered_map.non_zero_hasher e k) b
        cases hst : concurrent_unordered_map.emplace_search_traced e (fuel + 1)
            (concurrent_unordered_map._get_bucket m
              (concurrent_unordered_map.non_zero_hasher e k)) k
            (concurrent_unordered_map.non_zero_hasher e k) b with
        | ok rt =>
          rw [hst] at hs
          simp only [agrees] at hs
          obtain ⟨hplain, hev⟩ := hs
          obtain ⟨⟨b1, found, ei⟩, tr⟩ := rt
          simp only at hplain hev
          rw [hplain]
          cases found with
          | some offset =>
            simp only [agrees, true_and]
            exact hev
          | none =>
            simp only
            cases hlk : spinlock.lock_only_if_not no_spurious 2 (fuel + 1) 0 b1.lock with
            | ok r2 =>
              obtain ⟨res, w⟩ := r2
              cases res with
              | true =>
                have hw := lock_word_one _ _ _ hlk
                obtain ⟨hp2, hpl, hp1⟩ := emplace_place_held k v
                  (concurrent_unordered_map.non_zero_hasher e k) b1 w 0 ei
                simp only [spinlockbase.unlock, hp2, hp1]
                have hevs : ∀ ev ∈ tr ++ [Event.acquired
                    (concurrent_unordered_map._get_bucket m
                      (concurrent_unordered_map.non_zero_hasher e k)) w,
                    Event.released (concurrent_unordered_map._get_bucket m
                      (concurrent_unordered_map.non_zero_hasher e k)) 0],
                    Event.lock_word_ok ev := by
                  intro ev hmem
                  rcases List.mem_append.mp hmem with h1 | h1
                  · exact hev ev h1
                  · simp only [List.mem_cons, List.mem_singleton, List.not_mem_nil,
                      or_false] at h1
                    rcases h1 with h2 | h2 <;> rw [h2]
                    · exact hw
                    · rfl
                cases hr2 : (concurrent_unordered_map.emplace_place k v
                    (concurrent_unordered_map.non_zero_hasher e k) b1 ei).2 with
                | some offset =>
                  simp only [agrees, true_and]
                  intro ev hmem
                  rcases List.mem_append.mp hmem with h1 | h1
                  · exact hev ev h1
                  · simp only [List.mem_cons, List.mem_singleton, List.not_mem_nil,
                      or_false] at h1
                    rcases h1 with h2 | h2 | h2 <;> rw [h2]
                    · exact hw
                    · show (concurrent_unordered_map.emplace_place k v
                        (concurrent_unordered_map.non_zero_hasher e k)
                        { b1 with lock := w } ei).1.lock = 1
                      rw [hpl]
                      exact hw
                    · rfl
                | none =>
                  simp only
                  exact agrees_add _ _ _ _ (ih _) hevs
              | false =>
                simp only
                exact agrees_add _ _ _ _ (ih _) hev
            | fuel_out => simp only [agrees]
            | undef => simp only [agrees]
            | aborted => simp only [agrees]
        | fuel_out =>
          rw [hst] at hs
          simp only [agrees] at hs
          rw [hs]
          simp only [agrees]
        | undef =>
          rw [hst] at hs
          simp only [agrees] at hs
          rw [hs]
          simp only [agrees]
        | aborted =>
          rw [hst] at hs
          simp only [agrees] at hs
          rw [hs]
          simp only [agrees]

/-- The traced `erase(key)` returns what `erase` returns, and its stores show the lock
word 1 after `lock(2)` and at the removal, 0 after the release. -/
theorem erase_agrees (e : Params Key) (fuel : Nat) (m : concurrent_unordered_map Key T)
    (k : Key) :
    agrees Event.lock_word_ok (concurrent_unordered_map.erase_traced e fuel m k)
      (concurrent_unordered_map.erase e fuel m k) := by
  induction fuel generalizing m with
  | zero => simp only [concurrent_unordered_map.erase_traced,
      concurrent_unordered_map.erase, agrees]
  | succ fuel ih =>
    unfold concurrent_unordered_map.erase_traced concurrent_unordered_map.erase
    simp only
    by_cases hlen : m._buckets.length = 0
    · simp only [hlen, if_true, agrees]
    · simp only [hlen, if_false]
      cases hb : m._buckets[concurrent_unordered_map._get_bucket m
          (concurrent_unordered_map.non_zero_hasher e k)]? with
      | none => simp only [agrees]
      | some b =>
        simp only
        by_cases hcount : b.count ≠ 0
        · rw [if_pos hcount, if_pos hcount]
          cases hlk : spinlock.lock_only_if_not no_spurious 2 (fuel + 1) 0 b.lock with
          | ok r2 =>
            obtain ⟨res, w⟩ := r2
            cases res with
            | true =>
              have hw := lock_word_one _ _ _ hlk
              simp only
              cases hfind : concurrent_unordered_map.find_loop e k
                  (concurrent_unordered_map.non_zero_hasher e k) b.items 0 with
              | some offset =>
                obtain ⟨hl, hsame⟩ := erase_slot_held b w 0 offset
                simp only [agrees, spinlockbase.unlock, hsame, true_and, List.mem_cons,
                  List.mem_singleton, List.not_mem_nil, or_false]
                intro ev hmem
                rcases hmem with h2 | h2 | h2 <;> rw [h2]
                · exact hw
                · show (concurrent_unordered_map.erase_slot { b with lock := w } offset).lock
                    = 1
                  rw [hl]
                  exact hw
                · rfl
              | none =>
                simp only [agrees, spinlockbase.unlock, true_and, List.mem_cons,
                  List.mem_singleton, List.not_mem_nil, or_false]
                intro ev hmem
                rcases hmem with h2 | h2 <;> rw [h2]
                · exact hw
                · rfl
            | false =>
              simp only
              exact ih _
          | fuel_out => simp only [agrees]
          | undef => simp only [agrees]
          | aborted => simp only [agrees]
        · rw [if_neg hcount, if_neg hcount]
          exact ih _

/-- The traced `erase(iterator)` returns what `erase_iterator` returns, and its stores
show the lock word 1 after `lock(2)` and at the removal, 0 after the release. -/
theorem erase_iterator_agrees (e : Params Key) (fuel : Nat)
    (m : concurrent_unordered_map Key T) (it : iterator) :
    agrees Event.lock_word_ok (concurrent_unordered_map.erase_iterator_traced e fuel m it)
      (concurrent_unordered_map.erase_iterator e fuel m it) := by
  unfold concurrent_unordered_map.erase_iterator_traced
    concurrent_unordered_map.erase_iterator
  simp only
  by_cases hend : it = concurrent_unordered_map.end_ e m
  · rw [if_pos hend, if_pos hend]
    simp only [agrees, true_and]
    intro ev hev
    exact absurd hev (List.not_mem_nil ev)
  · rw [if_neg hend, if_neg hend]
    cases hb : m._buckets[it._itb]? with
    | none => simp only [agrees]
    | some b =>
      simp only
      cases hlk : spinlock.lock_only_if_not no_spurious 2 fuel 0 b.lock with
      | ok r2 =>
        obtain ⟨res, w⟩ := r2
        cases res with
        | true =>
          have hw := lock_word_one _ _ _ hlk
          simp only
          cases hget : b.items[it._offset]? with
          | some slot =>
            simp only
            by_cases hocc : slot.hash ≠ 0
            · rw [if_pos hocc, if_pos hocc]
              obtain ⟨hl, hsame⟩ := erase_slot_held b w 0 it._offset
              simp only [agrees, spinlockbase.unlock, hsame, true_and, List.mem_cons,
                List.mem_singleton, List.not_mem_nil, or_false]
              intro ev hmem
              rcases hmem with h2 | h2 | h2 <;> rw [h2]
              · exact hw
              · show (concurrent_unordered_map.erase_slot { b with lock := w }
                  it._offset).lock = 1
                rw [hl]
                exact hw
              · rfl
            · rw [if_neg hocc, if_neg hocc]
              simp only [agrees, spinlockbase.unlock, true_and, List.mem_cons,
                List.mem_singleton, List.not_mem_nil, or_false]
              intro ev hmem
              rcases hmem with h2 | h2 <;> rw [h2]
              · exact hw
              · rfl
          | none =>
            simp only [agrees, spinlockbase.unlock, true_and, List.mem_cons,
              List.mem_singleton, List.not_mem_nil, or_false]
            intro ev hmem
            rcases hmem with h2 | h2 <;> rw [h2]
            · exact hw
            · rfl
        | false => simp only [agrees]
      | fuel_out => simp only [agrees]
      | undef => simp only [agrees]
      | aborted => simp only [agrees]

theorem clear_pass_agrees (fuel : Nat) (bs : List (bucket_type Key T)) :
    ∀ base : Nat, agrees Event.lock_word_ok
      (concurrent_unordered_map.clear_pass_traced fuel base bs)
      (concurrent_unordered_map.clear_pass fuel bs) := by
  induction bs with
  | nil =>
    intro base
    simp only [concurrent_unordered_map.clear_pass_traced,
      concurrent_unordered_map.clear_pass, agrees, true_and]
    intro ev hev
    exact absurd hev (List.not_mem_nil ev)
  | cons b rest ih =>
    intro base
    unfold concurrent_unordered_map.clear_pass_traced concurrent_unordered_map.clear_pass
    cases hlk : spinlock.lock_only_if_not no_spurious 2 fuel 0 b.lock with
    | ok r2 =>
      obtain ⟨res, w⟩ := r2
      cases res with
      | true =>
        have hw := lock_word_one _ _ _ hlk
        simp only
        have hrest := ih (base + 1)
        cases hrt : concurrent_unordered_map.clear_pass_traced fuel (base + 1) rest with
        | ok rt =>
          rw [hrt] at hrest
          simp only [agrees] at hrest
          obtain ⟨hplain, hev⟩ := hrest
          obtain ⟨⟨rest2, done⟩, tr⟩ := rt
          simp only at hplain hev
          rw [hplain]
          simp only [agrees, spinlockbase.unlock, true_and, List.mem_append, List.mem_cons,
            List.mem_singleton, List.not_mem_nil, or_false]
          intro ev hmem
          rcases hmem with (h2 | h2 | h2) | h2
          · rw [h2]; exact hw
          · rw [h2]; exact hw
          · rw [h2]; rfl
          · exact hev ev h2
        | fuel_out =>
          rw [hrt] at hrest
          simp only [agrees] at hrest
          rw [hrest]
          simp only [agrees]
        | undef =>
          rw [hrt] at hrest
          simp only [agrees] at hrest
          rw [hrest]
          simp only [agrees]
        | aborted =>
          rw [hrt] at hrest
          simp only [agrees] at hrest
          rw [hrest]
          simp only [agrees]
      | false =>
        simp only [agrees, true_and]
        intro ev hev
        exact absurd hev (List.not_mem_nil ev)
    | fuel_out => simp only [agrees]
    | undef => simp only [agrees]
    | aborted => simp only [agrees]

/-- The traced `clear` returns what `clear` returns, and its stores show the lock word 1
after each `lock(2)` and while an item sequence is emptied, 0 after each release. -/
theorem clear_agrees (fuel : Nat) (m : concurrent_unordered_map Key T) :
    agrees Event.lock_word_ok (concurrent_unordered_map.clear_traced fuel m)
      (concurrent_unordered_map.clear fuel m) := by
  induction fuel generalizing m with
  | zero => simp only [concurrent_unordered_map.clear_traced,
      concurrent_unordered_map.clear, agrees]
  | succ fuel ih =>
    unfold concurrent_unordered_map.clear_traced concurrent_unordered_map.clear
    have hp := clear_pass_agrees (fuel + 1) m._buckets 0
    cases hpt : concurrent_unordered_map.clear_pass_traced (fuel + 1) 0 m._buckets with
    | ok rt =>
      rw [hpt] at hp
      simp only [agrees] at hp
      obtain ⟨hplain, hev⟩ := hp
      obtain ⟨⟨bs, done⟩, tr⟩ := rt
      simp only at hplain hev
      rw [hplain]
      cases done with
      | true =>
        simp only [agrees, true_and]
        exact hev
      | false =>
        simp only
        exact agrees_add _ _ _ _ (ih _) hev
    | fuel_out =>
      rw [hpt] at hp
      simp only [agrees] at hp
      rw [hp]
      simp only [agrees]
    | undef =>
      rw [hpt] at hp
      simp only [agrees] at hp
      rw [hp]
      simp only [agrees]
    | aborted =>
      rw [hpt] at hp
      simp only [agrees] at hp
      rw [hp]
      simp only [agrees]

/-! ### The lock word while a bucket is modified: the operations -/

/-- C17, as stated, fails: `b.lock.lock(2)` is "lock unless the word is 2" and stores 1.
In `emplace(0, 97)` on a fresh 3-bucket map the bucket is written (item and count) while
its lock word is 1, not 2; so it is in `erase(0)` and in `clear()` on the map that
`emplace` left. The stores of each run are: the word 1 by `lock(2)`, the bucket written
under the word 1, the word 0 by the release. `lock(only_if_not = 2)` run by another thread
against the word 1 does not return false: it spins through every budget. -/
theorem modification_lock_word_is_not_two :
    concurrent_unordered_map.emplace_traced scenario_params 1
        (concurrent_unordered_map.new_n 3 : concurrent_unordered_map Nat Nat) 0 97 =
      Res.ok ((scenario_a_map, ⟨0, 0, 0⟩, true),
        [Event.acquired 0 1, Event.modified 0 ⟨1, 1, [⟨(0, 97), 2 ^ 64 - 1⟩]⟩,
          Event.released 0 0]) ∧
    concurrent_unordered_map.emplace scenario_params 1
        (concurrent_unordered_map.new_n 3 : concurrent_unordered_map Nat Nat) 0 97 =
      Res.ok (scenario_a_map, ⟨0, 0, 0⟩, true) ∧
    concurrent_unordered_map.erase_traced scenario_params 1 scenario_a_map 0 =
      Res.ok ((⟨0, [⟨0, 0, []⟩, bucket_type.new, bucket_type.new]⟩, 1),
        [Event.acquired 0 1, Event.modified 0 ⟨1, 0, []⟩, Event.released 0 0]) ∧
    concurrent_unordered_map.clear_traced 1 scenario_a_map =
      Res.ok (⟨0, [⟨0, 1, []⟩, bucket_type.new, bucket_type.new]⟩,
        [Event.acquired 0 1, Event.modified 0 ⟨1, 1, []⟩, Event.released 0 0,
          Event.acquired 1 1, Event.modified 1 ⟨1, 0, []⟩, Event.released 1 0,
          Event.acquired 2 1, Event.modified 2 ⟨1, 0, []⟩, Event.released 2 0]) ∧
    (∀ fuel n : Nat, spinlock.lock_only_if_not no_spurious 2 fuel n 1 = Res.fuel_out) ∧
    ¬ (∀ fuel n : Nat, spinlock.lock_only_if_not no_spurious 2 (fuel + 1) n 1 =
        Res.ok (false, 1)) := by
  refine ⟨by decide, by decide, by decide, by decide, ?_, ?_⟩
  · intro fuel n
    exact lock_only_if_not_spin_any no_spurious 2 1 (by decide) (by decide) fuel n
  · intro h
    have h0 := h 0 0
    revert h0
    decide

/-- C17, amended: the traced `emplace`, `erase(key)`, `erase(iterator)` and `clear`
return what the plain operations return, and in every run of them that returns, each
store to a bucket shows the lock word 1 or 0 and never 2: 1 after `lock(2)` succeeded, 1
while the item sequence and the count are written, 0 after the release. Against the word
of a bucket being written, `lock(only_if_not = 2)` neither returns false nor acquires,
whatever the number of attempts: it waits. -/
theorem modifications_hold_lock_word_one (e : Params Key) :
    (∀ (fuel : Nat) (m : concurrent_unordered_map Key T) (k : Key) (v : T),
      drop_events (concurrent_unordered_map.emplace_traced e fuel m k v) =
        concurrent_unordered_map.emplace e fuel m k v) ∧
    (∀ (fuel : Nat) (m : concurrent_unordered_map Key T) (k : Key),
      drop_events (concurrent_unordered_map.erase_traced e fuel m k) =
        concurrent_unordered_map.erase e fuel m k) ∧
    (∀ (fuel : Nat) (m : concurrent_unordered_map Key T) (it : iterator),
      drop_events (concurrent_unordered_map.erase_iterator_traced e fuel m it) =
        concurrent_unordered_map.erase_iterator e fuel m it) ∧
    (∀ (fuel : Nat) (m : concurrent_unordered_map Key T),
      drop_events (concurrent_unordered_map.clear_traced fuel m) =
        concurrent_unordered_map.clear fuel m) ∧
    (∀ tr : List (Event Key T),
      ((∃ fuel m k v r, concurrent_unordered_map.emplace_traced e fuel m k v =
          Res.ok (r, tr)) ∨
       (∃ fuel m k r, concurrent_unordered_map.erase_traced e fuel m k = Res.ok (r, tr)) ∨
       (∃ fuel m it r, concurrent_unordered_map.erase_iterator_traced e fuel m it =
          Res.ok (r, tr)) ∨
       (∃ fuel m r, concurrent_unordered_map.clear_traced fuel m = Res.ok (r, tr))) →
      ∀ ev ∈ tr, Event.lock_word_ok ev ∧ Event.word ev ≠ 2 ∧
        ∀ i b, ev = Event.modified i b →
          b.lock = 1 ∧
          ∀ (sp : Nat → Bool) (fuel2 n : Nat),
            spinlock.lock_only_if_not sp 2 fuel2 n b.lock = Res.fuel_out) := by
  have hok : ∀ ev : Event Key T, Event.lock_word_ok ev →
      Event.lock_word_ok ev ∧ Event.word ev ≠ 2 ∧
        ∀ i b, ev = Event.modified i b →
          b.lock = 1 ∧
          ∀ (sp : Nat → Bool) (fuel2 n : Nat),
            spinlock.lock_only_if_not sp 2 fuel2 n b.lock = Res.fuel_out := by
    intro ev hev
    refine ⟨hev, ?_, ?_⟩
    · cases ev with
      | acquired i w =>
        simp only [Event.lock_word_ok] at hev
        simp only [Event.word, hev]
        decide
      | modified i b =>
        simp only [Event.lock_word_ok] at hev
        simp only [Event.word, hev]
        decide
      | released i w =>
        simp only [Event.lock_word_ok] at hev
        simp only [Event.word, hev]
        decide
    · intro i b hib
      rw [hib] at hev
      simp only [Event.lock_word_ok] at hev
      refine ⟨hev, ?_⟩
      intro sp fuel2 n
      rw [hev]
      exact lock_only_if_not_spin_any sp 2 1 (by decide) (by decide) fuel2 n
  refine ⟨?_, ?_, ?_, ?_, ?_⟩
  · intro fuel m k v
    exact agrees_drop _ _ _ (emplace_agrees e fuel m k v)
  · intro fuel m k
    exact agrees_drop _ _ _ (erase_agrees e fuel m k)
  · intro fuel m it
    exact agrees_drop _ _ _ (erase_iterator_agrees e fuel m it)
  · intro fuel m
    exact agrees_drop _ _ _ (clear_agrees fuel m)
  · intro tr hrun ev hmem
    apply hok
    rcases hrun with ⟨fuel, m, k, v, r, h⟩ | ⟨fuel, m, k, r, h⟩ | ⟨fuel, m, it, r, h⟩ |
      ⟨fuel, m, r, h⟩
    · exact agrees_events _ _ _ (emplace_agrees e fuel m k v) r tr h ev hmem
    · exact agrees_events _ _ _ (erase_agrees e fuel m k) r tr h ev hmem
    · exact agrees_events _ _ _ (erase_iterator_agrees e fuel m it) r tr h ev hmem
    · exact agrees_events _ _ _ (clear_agrees fuel m) r tr h ev hmem

/-- Witness of C17: the run of `emplace(9, 90)` on the map of scenario B, which scans
the bucket under the lock, releases it, takes it again and appends the item. -/
theorem modifications_hold_lock_word_one_witness :
    concurrent_unordered_map.emplace_traced scenario_params 1 scenario_b_map 9 90 =
      Res.ok ((⟨0, [⟨0, 3, [⟨(3, 30), 3⟩, ⟨(6, 60), 6⟩, ⟨(9, 90), 9⟩]⟩, bucket_type.new,
          bucket_type.new]⟩, ⟨0, 2, 0⟩, true),
        [Event.acquired 0 1, Event.released 0 0, Event.acquired 0 1,
          Event.modified 0 ⟨1, 3, [⟨(3, 30), 3⟩, ⟨(6, 60), 6⟩, ⟨(9, 90), 9⟩]⟩,
          Event.released 0 0]) ∧
    ∀ ev ∈ ([Event.acquired 0 1, Event.released 0 0, Event.acquired 0 1,
          Event.modified 0 ⟨1, 3, [⟨(3, 30), 3⟩, ⟨(6, 60), 6⟩, ⟨(9, 90), 9⟩]⟩,
          Event.released 0 0] : List (Event Nat Nat)),
      Event.lock_word_ok ev ∧ Event.word ev ≠ 2 ∧
        ∀ i b, ev = Event.modified i b →
          b.lock = 1 ∧
          ∀ (sp : Nat → Bool) (fuel2 n : Nat),
            spinlock.lock_only_if_not sp 2 fuel2 n b.lock = Res.fuel_out :=
  ⟨by decide,
    (modifications_hold_lock_word_one scenario_params).2.2.2.2 _
      (Or.inl ⟨1, scenario_b_map, 9, 90,
        (⟨0, [⟨0, 3, [⟨(3, 30), 3⟩, ⟨(6, 60), 6⟩, ⟨(9, 90), 9⟩]⟩, bucket_type.new,
          bucket_type.new]⟩, ⟨0, 2, 0⟩, true), by decide⟩)⟩

end boost.spinlock
